import Mathlib

/-!
# CQFactor: the recursive circle-packing layout engine

A shallow embedding of `src/CQFactor.cpp` (the tree builder `App::calcFactors` /
`App::calcPrime`, the placer and radius solver `Circle::place`, the distance
helpers, `Circle::move` / `Circle::moveBy` and `Circle::fit`).

Conventions of the embedding

* The C++ object graph is a tree owned through `circles_`; it becomes the
  inductive type `Circle`.  Member functions that mutate `*this` become
  functions returning the updated circle.  The non-owning `parent_` pointer is
  only read inside an `#if 0` block and is not represented.
* The process-wide id counter (`lastIdRef()`) is threaded explicitly.
* `double` is idealised as an arbitrary linearly ordered field `R`; the
  functions of `<cmath>` that the code calls (`cos`, `sin`, `sqrt`) and the
  constant `M_PI` are the fields of `Libm R`.  Rounding is not modelled, except
  where a theorem takes the rounded results of the library as a hypothesis
  (`CLibraryValues`).
* `int` factors are `Int`; `std::size_t` counts and ids are `Nat`.
* The `for (;;)` of the radius solver carries a fuel argument.
-/

namespace CQFactor

/-! ## Data model -/

/-- The ways a run of the embedded code can stop without a result. -/
inductive Error where
  /-- Reading `*pf++` in `calcFactors` from an empty factor vector. -/
  | factorOutOfRange
  /-- Failure of `assert(n > 0)` in `calcPrime`. -/
  | assertFailed
  /-- Call of `setPoint(0, ...)` in `place` on a leaf without points. -/
  | pointOutOfRange
  /-- The solver loop `for (;;)` did not reach its `break` within the fuel. -/
  | outOfFuel
  deriving DecidableEq, Repr

/-- The type `QPointF`: a pair of coordinates. -/
abbrev Point (R : Type) := R × R

/-- The functions of the C math library used by the code, and `M_PI`. -/
structure Libm (R : Type) where
  cos : R → R
  sin : R → R
  sqrt : R → R
  pi : R

/-- The data members of one `Circle` object other than its child vector:
`n_`, `id_`, `a_`, `c_`, `r_`, `xc_`, `yc_` and `points_`. -/
structure CircleData (R : Type) where
  n : Nat
  id : Nat
  a : R
  c : Point R
  r : R
  xc : R
  yc : R
  points : List (Point R)

/-- A `Circle` object together with the circles it owns through `circles_`. -/
inductive Circle (R : Type) where
  | mk (d : CircleData R) (circles : List (Circle R)) : Circle R

/-- Modelled from the spec: the in-class member initialisers of `Circle` are in
`CQFactor.h`, which is not among the sources.  The values a newly constructed
circle starts with are therefore a parameter of the builder (the spec gives
centre (0.5, 0.5) and radius 0.5 and is silent on the others). -/
structure Defaults (R : Type) where
  id : Nat
  a : R
  c : Point R
  r : R
  xc : R
  yc : R

namespace Circle

variable {R : Type}

/-- The data members of the circle itself. -/
def data : Circle R → CircleData R
  | mk d _ => d

/-- The member `circles_`. -/
def circles : Circle R → List (Circle R)
  | mk _ cs => cs

/-- The member `points_`. -/
def points (c : Circle R) : List (Point R) := c.data.points

/-- The member `id_`. -/
def id (c : Circle R) : Nat := c.data.id

/-- The member `a_`. -/
def a (c : Circle R) : R := c.data.a

/-- The member `r_`. -/
def r (c : Circle R) : R := c.data.r

/-- The accessor `center()`: the member `c_`. -/
def center (c : Circle R) : Point R := c.data.c

/-- The accessor `x()`, declared in `CQFactor.h` (not among the sources): taken
to be the first coordinate of `c_`, as its uses in `getPoint` and `move` indicate. -/
def x (c : Circle R) : R := c.data.c.1

/-- The accessor `y()`, declared in `CQFactor.h` (not among the sources): taken
to be the second coordinate of `c_`. -/
def y (c : Circle R) : R := c.data.c.2

/-- The accessor `numPoints()`, declared in `CQFactor.h` (not among the sources):
taken to be `points_.size()`. -/
def numPoints (c : Circle R) : Nat := c.data.points.length

/-- The constructors `Circle(App *)` and `Circle(App *, Circle *parent, std::size_t n)`:
no circles, no points, ordinal `n` (0 for the root). -/
def new (dflt : Defaults R) (n : Nat) : Circle R :=
  mk { n := n, id := dflt.id, a := dflt.a, c := dflt.c, r := dflt.r,
       xc := dflt.xc, yc := dflt.yc, points := [] } []

/-- The method `Circle::setId` with the counter made explicit: `id_ = lastId();
lastIdRef() += n`. -/
def setId (c : Circle R) (n : Nat) (lastId : Nat) : Circle R × Nat :=
  match c with
  | mk d cs => (mk { d with id := lastId } cs, lastId + n)

/-- The method `Circle::addCircle`: `circles_.push_back(circle)`. -/
def addCircle (c : Circle R) (circ : Circle R) : Circle R :=
  match c with
  | mk d cs => mk d (cs ++ [circ])

/-- The method `Circle::addPoint`: `points_.emplace_back(0.0, 0.0)`. -/
def addPoint [Zero R] (c : Circle R) : Circle R :=
  match c with
  | mk d cs => mk { d with points := d.points ++ [(0, 0)] } cs

/-- The method `Circle::setA`, declared in `CQFactor.h` (not among the sources):
taken to assign `a_`. -/
def setA (c : Circle R) (a : R) : Circle R :=
  match c with
  | mk d cs => mk { d with a := a } cs

/-- The method `Circle::size`: `std::max(circles_.size(), points_.size())`. -/
def size (c : Circle R) : Nat := max c.circles.length c.points.length

end Circle

/-! ## Tree builder -/

section Builder

variable {R : Type} [Zero R]

/-- The loop `for (int i = 0; i < n; ++i) circle->addPoint();`. -/
def addPoints : Nat → Circle R → Circle R
  | 0, c => c
  | k + 1, c => addPoints k c.addPoint

/-- The method `App::calcPrime`. -/
def calcPrime (circ : Circle R) (n : Int) (lastId : Nat) : Except Error (Circle R × Nat) :=
  if 0 < n then
    let (circ1, lastId1) := circ.setId n.toNat lastId
    .ok (addPoints n.toNat circ1, lastId1)
  else
    .error .assertFailed

/-- The loop `for (int i = 0; i < n1; ++i)` of `App::calcFactors`, over the
remaining values of `i`; `build circ1` stands for `calcFactors(circle1, f1)`. -/
def addCircles (dflt : Defaults R)
    (build : Circle R → Nat → Except Error (Circle R × Nat)) :
    List Nat → Circle R → Nat → Except Error (Circle R × Nat)
  | [], circ, lastId => .ok (circ, lastId)
  | i :: is, circ, lastId =>
    match build (Circle.new dflt i) lastId with
    | .error e => .error e
    | .ok (circ1, lastId1) => addCircles dflt build is (circ.addCircle circ1) lastId1

/-- The method `App::calcFactors`. -/
def calcFactors (dflt : Defaults R) :
    List Int → Circle R → Nat → Except Error (Circle R × Nat)
  | [], _, _ => .error .factorOutOfRange
  | [n], circ, lastId => calcPrime circ n lastId
  | n1 :: n2 :: f2, circ, lastId =>
    addCircles dflt (calcFactors dflt (n2 :: f2)) (List.range n1.toNat) circ lastId

/-- The tree-building part of `App::calc`: `Circle::resetId()`, the new root
circle, and the choice between `calcPrime` and `calcFactors`.  The two
functions of `CPrime` are parameters; `resetId` is declared in `CQFactor.h`
(not among the sources) and, following the spec, sets the counter to zero. -/
def calcTree (dflt : Defaults R) (factors : Int → List Int) (isPrime : Int → Bool)
    (factor : Int) : Except Error (Circle R × Nat) :=
  let lastId := 0
  let circ := Circle.new dflt 0
  if isPrime factor then calcPrime circ factor lastId
  else calcFactors dflt (factors factor) circ lastId

end Builder

/-! ## Geometry -/

section Geometry

variable {R : Type} [LinearOrderedField R]

namespace Circle

/-- The expression of `Circle::getPoint` for the local offset `p = points_[i]`:
`QPointF(x() + r_*p.x(), y() + r_*p.y())`. -/
def getPointOf (d : CircleData R) (p : Point R) : Point R :=
  (d.c.1 + d.r * p.1, d.c.2 + d.r * p.2)

/-- The method `Circle::getPoint`; `none` stands for an index out of range. -/
def getPoint (c : Circle R) (i : Nat) : Option (Point R) :=
  (c.points.get? i).map (getPointOf c.data)

mutual
/-- The method `Circle::getPoints`, returning what it appends to `points`. -/
def getPoints : Circle R → List (Point R)
  | mk d cs => getPointsList cs ++ d.points.map (getPointOf d)
/-- The loop `for (auto &circle : circles_) circle->getPoints(points)`. -/
def getPointsList : List (Circle R) → List (Point R)
  | [] => []
  | c :: cs => getPoints c ++ getPointsList cs
end

mutual
/-- The method `Circle::getCirclePoints`, returning what it appends to `points`.
The member `CirclePoint::circle` is the address `this` of the circle that owns
the point; an address is represented by the path of child indices that leads
to that circle from the circle on which the outermost call was made. -/
def getCirclePoints (path : List Nat) : Circle R → List (List Nat × Point R)
  | mk d cs => getCirclePointsList path 0 cs ++ d.points.map (fun p => (path, getPointOf d p))
/-- The loop `for (auto &circle : circles_) circle->getCirclePoints(points)`;
`i` is the index of the first circle of the list in `circles_`. -/
def getCirclePointsList (path : List Nat) (i : Nat) :
    List (Circle R) → List (List Nat × Point R)
  | [] => []
  | c :: cs => getCirclePoints (path ++ [i]) c ++ getCirclePointsList path (i + 1) cs
end

mutual
/-- The method `Circle::moveBy`. -/
def moveBy (dx dy : R) : Circle R → Circle R
  | mk d cs => mk { d with c := (d.c.1 + dx, d.c.2 + dy) } (moveByList dx dy cs)
/-- The loop `for (auto &circle : circles_) circle->moveBy(dx, dy)`. -/
def moveByList (dx dy : R) : List (Circle R) → List (Circle R)
  | [] => []
  | c :: cs => moveBy dx dy c :: moveByList dx dy cs
end

/-- The method `Circle::move`. -/
def move (c : Circle R) (x y : R) : Circle R :=
  let dx := x - c.x
  let dy := y - c.y
  moveBy dx dy c

end Circle

/-- The expression `dx*dx + dy*dy` for `dx = p1.x() - p2.x()`, `dy = p1.y() - p2.y()`. -/
def sqDist (p1 p2 : Point R) : R :=
  let dx := p1.1 - p2.1
  let dy := p1.2 - p2.2
  dx * dx + dy * dy

/-- The inner loop `for (j = i + 1; j < np; ++j)` of `closestPointDistance` and of
`fit`: `ps` are the points after `p1`, `d` the running minimum. -/
def minSqDistFrom (p1 : Point R) (d : R) (ps : List (Point R)) : R :=
  ps.foldl (fun d p2 => let d1 := sqDist p1 p2; if d1 < d then d1 else d) d

/-- The nested loops of `closestPointDistance` over the points not yet visited. -/
def minSqDist : R → List (Point R) → R
  | d, [] => d
  | d, p1 :: ps => minSqDist (minSqDistFrom p1 d ps) ps

/-- The inner loop of `closestCircleCircleDistance`, with its
`if (p1.circle == p2.circle) continue;`. -/
def minSqDistCCFrom (p1 : List Nat × Point R) (d : R) (ps : List (List Nat × Point R)) : R :=
  ps.foldl (fun d p2 =>
    if p1.1 = p2.1 then d
    else let d1 := sqDist p1.2 p2.2; if d1 < d then d1 else d) d

/-- The nested loops of `closestCircleCircleDistance`. -/
def minSqDistCC : R → List (List Nat × Point R) → R
  | d, [] => d
  | d, p1 :: ps => minSqDistCC (minSqDistCCFrom p1 d ps) ps

namespace Circle

/-- The method `Circle::closestPointDistance`. -/
def closestPointDistance (m : Libm R) (c : Circle R) : R :=
  m.sqrt (minSqDist ((10 : R) ^ 50) c.getPoints)

/-- The method `Circle::closestCircleCircleDistance`. -/
def closestCircleCircleDistance (m : Libm R) (c : Circle R) : R :=
  m.sqrt (minSqDistCC ((10 : R) ^ 50) (c.getCirclePoints []))

end Circle

/-! ## Placement and the radius solver -/

/-- The leaf loop of `Circle::place`: `setPoint(i, QPointF(cos(a), sin(a))); a += da`
for every index of `points_` in turn. -/
def placePoints (m : Libm R) (da : R) : R → List (Point R) → List (Point R)
  | _, [] => []
  | a, _ :: ps => (m.cos a, m.sin a) :: placePoints m da (a + da) ps

/-- The inner loop of the solver in `Circle::place`: every child is moved to
`(x() + r_*cos(a), y() + r_*sin(a))`, with `a += da` between children. -/
def moveChildren (m : Libm R) (x y r da : R) : R → List (Circle R) → List (Circle R)
  | _, [] => []
  | a, c :: cs => c.move (x + r * m.cos a) (y + r * m.sin a) :: moveChildren m x y r da (a + da) cs

/-- The loop `for (;;)` of `Circle::place` on the circle with data `d` and
children `cs`, with `fuel` iterations allowed. -/
def solve (m : Libm R) (da rr : R) : Nat → CircleData R → List (Circle R) → Except Error (Circle R)
  | 0, _, _ => .error .outOfFuel
  | fuel + 1, d, cs =>
    let cs1 := moveChildren m d.c.1 d.c.2 d.r da d.a cs
    let r1 := (Circle.mk d cs1).closestCircleCircleDistance m / 2
    if |r1 - rr| < 1 / 1000 then .ok (Circle.mk d cs1)
    else if r1 < rr then solve m da rr fuel { d with r := d.r + 1 / 1000 } cs1
    else solve m da rr fuel { d with r := d.r - 1 / 1000 } cs1

/-- The loop `for (auto &circle : circles_) d = std::min(d, circle->closestPointDistance())`
of `Circle::place`, started at `d = 1E50`. -/
def minChildDistance (m : Libm R) (cs : List (Circle R)) : R :=
  cs.foldl (fun d c => min d (c.closestPointDistance m)) ((10 : R) ^ 50)

mutual
/-- The call sequence `circle->setA(a); circle->place();`: the method
`Circle::place` run on the circle after its `a_` has been set to `a`. -/
def placeSetA (m : Libm R) (fuel : Nat) (a : R) : Circle R → Except Error (Circle R)
  | .mk d cs =>
    let d0 : CircleData R := { d with a := a }
    match cs with
    | c0 :: cs0 =>
      let nc := (c0 :: cs0).length
      let da := 2 * m.pi / nc
      match placeChildren m fuel (decide (max nc d.points.length = 2)) da a (c0 :: cs0) with
      | .error e => .error e
      | .ok cs1 =>
        let rr := minChildDistance m cs1 / 2
        solve m da rr fuel { d0 with c := (1 / 2, 1 / 2), r := 1 / 2 } cs1
    | [] =>
      let np := d.points.length
      let d1 : CircleData R := { d0 with c := (1 / 2, 1 / 2), r := 1 / 2 }
      if 1 < np then
        .ok (.mk { d1 with points := placePoints m (2 * m.pi / np) a d.points } [])
      else
        match d.points with
        | [] => .error .pointOutOfRange
        | _ :: ps => .ok (.mk { d1 with points := (0, 0) :: ps } [])
/-- The first loop of `Circle::place` over the children not yet visited; `two`
is the value of `size() == 2` for the parent. -/
def placeChildren (m : Libm R) (fuel : Nat) (two : Bool) (da : R) :
    R → List (Circle R) → Except Error (List (Circle R))
  | _, [] => .ok []
  | a, c :: cs =>
    match placeSetA m fuel (if two && decide (c.size = 2) then a + m.pi / 2 else a) c with
    | .error e => .error e
    | .ok c1 =>
      match placeChildren m fuel two da (a + da) cs with
      | .error e => .error e
      | .ok cs1 => .ok (c1 :: cs1)
end

/-- The method `Circle::place`. -/
def Circle.place (m : Libm R) (fuel : Nat) (c : Circle R) : Except Error (Circle R) :=
  placeSetA m fuel c.a c

/-! ## Fit -/

/-- The local variables `d`, `xmin`, `ymin`, `xmax`, `ymax` of `Circle::fit`. -/
structure FitState (R : Type) where
  d : R
  xmin : R
  ymin : R
  xmax : R
  ymax : R

/-- The nested loops of `Circle::fit` over the points not yet visited. -/
def fitLoop : FitState R → List (Point R) → FitState R
  | st, [] => st
  | st, p1 :: ps =>
    fitLoop { d := minSqDistFrom p1 st.d ps,
              xmin := min st.xmin p1.1, ymin := min st.ymin p1.2,
              xmax := max st.xmax p1.1, ymax := max st.ymax p1.2 } ps

/-- What `Circle::fit` leaves behind: the circle with `xc_`, `yc_` set, the pair
`(s, maxS)` passed to `app_->setS`, and the final values of the locals
`xmin`, `ymin`, `xmax`, `ymax` (the expanded box). -/
structure FitResult (R : Type) where
  circle : Circle R
  s : R
  maxS : R
  xmin : R
  ymin : R
  xmax : R
  ymax : R

/-- The method `Circle::fit`. -/
def Circle.fit (m : Libm R) (c : Circle R) : FitResult R :=
  let points := c.getPoints
  let np := points.length
  let st : FitState R :=
    fitLoop { d := 2, xmin := 1 / 2, ymin := 1 / 2, xmax := 1 / 2, ymax := 1 / 2 } points
  let s := if 1 / 1000000 < st.d then m.sqrt st.d else 1 / (np : R)
  let xmin := st.xmin - s / 2
  let ymin := st.ymin - s / 2
  let xmax := st.xmax + s / 2
  let ymax := st.ymax + s / 2
  let xs := xmax - xmin
  let ys := ymax - ymin
  let maxS := max xs ys
  let xc := ((xmax + xmin) / 2 - 1 / 2) / maxS + 1 / 2
  let yc := ((ymax + ymin) / 2 - 1 / 2) / maxS + 1 / 2
  match c with
  | .mk d cs =>
    { circle := .mk { d with xc := xc, yc := yc } cs,
      s := s, maxS := maxS, xmin := xmin, ymin := ymin, xmax := xmax, ymax := ymax }

end Geometry

/-! ## Observations on trees and closed forms used in the statements -/

/-- Initial member values used when the code is run on concrete inputs: centre
(0.5, 0.5), radius 0.5, everything else 0. -/
def Defaults.sample (R : Type) [LinearOrderedField R] : Defaults R :=
  { id := 0, a := 0, c := (1 / 2, 1 / 2), r := 1 / 2, xc := 0, yc := 0 }

section Observers

variable {R : Type}

/-- The circles at depth `i` below `c` (depth 0 is `c` itself), left to right. -/
def nodesAt : Nat → Circle R → List (Circle R)
  | 0, c => [c]
  | i + 1, c => c.circles.flatMap (nodesAt i)

mutual
/-- The circles of the tree that have no child circles, in the order in which
`getPoints` visits them (children in `circles_` order). -/
def leaves : Circle R → List (Circle R)
  | .mk d cs => if cs.isEmpty then [.mk d cs] else leavesList cs
/-- The leaves below a list of sibling circles. -/
def leavesList : List (Circle R) → List (Circle R)
  | [] => []
  | c :: cs => leaves c ++ leavesList cs
end

mutual
/-- All circles of the tree in pre-order: each with its own data members and the
number of its child circles. -/
def nodes : Circle R → List (CircleData R × Nat)
  | .mk d cs => (d, cs.length) :: nodesList cs
/-- The pre-order listing of a list of sibling circles. -/
def nodesList : List (Circle R) → List (CircleData R × Nat)
  | [] => []
  | c :: cs => nodes c ++ nodesList cs
end

/-- The ids reserved by the leaves `ls` are consecutive: the first range starts
at `s`, every next range starts where the previous one ends (a leaf reserves
as many ids as it has points), and the last one ends at `e`. -/
def IdsChain : Nat → List (Circle R) → Nat → Prop
  | s, [], e => s = e
  | s, l :: ls, e => l.id = s ∧ IdsChain (s + l.numPoints) ls e

/-- Closed form of the tree that `calcFactors(root, f)` builds when the counter
is `s` at the call: used to state and prove what the builder does. -/
def built [Zero R] (dflt : Defaults R) : List Int → Circle R → Nat → Circle R
  | [], c, _ => c
  | [n], .mk d cs, s =>
    .mk { d with id := s, points := d.points ++ List.replicate n.toNat (0, 0) } cs
  | n1 :: n2 :: f2, .mk d cs, s =>
    .mk d (cs ++ (List.range n1.toNat).map fun i =>
      built dflt (n2 :: f2) (Circle.new dflt i) (s + i * (n2 :: f2).prod.toNat))

end Observers

section Translation

variable {R : Type} [LinearOrderedField R]

/-- The circle `c1` is `c` rigidly translated: the result of `c.moveBy(dx, dy)`
for some vector `(dx, dy)`. -/
def IsTranslate (c c1 : Circle R) : Prop := ∃ dx dy, c1 = Circle.moveBy dx dy c

end Translation

section SpecSide

variable {R : Type} [LinearOrderedField R]

/-- Following the spec's words (4.4 step 2, "pairwise Euclidean distance ...
across all collected points"): the Euclidean distance of every pair of two of
the points. -/
def specPairDistances (m : Libm R) : List (Point R) → List R
  | [] => []
  | p :: ps =>
    ps.map (fun q => m.sqrt ((p.1 - q.1) ^ 2 + (p.2 - q.2) ^ 2)) ++ specPairDistances m ps

/-- Following the spec's words (4.4 step 2): "the minimum pairwise Euclidean
distance `dmin` across all collected points"; there is none for fewer than two
points. -/
def specDmin (m : Libm R) (pts : List (Point R)) : Option R :=
  match specPairDistances m pts with
  | [] => none
  | x :: xs => some (xs.foldl min x)

/-- Following the spec's words (4.4 step 3): "marker spacing `s = sqrt(dmin)` if
`dmin > 1e-6`, else `s = 1/pointCount`". -/
def specMarkerSpacing (m : Libm R) (pts : List (Point R)) : Option R :=
  (specDmin m pts).map fun dmin =>
    if 1 / 1000000 < dmin then m.sqrt dmin else 1 / (pts.length : R)

end SpecSide

section Owners

variable {R : Type} [LinearOrderedField R]

/-- The circle reached from `c` by following the child indices of `path`. -/
def nodeAt : List Nat → Circle R → Option (Circle R)
  | [], c => some c
  | i :: path, c =>
    match c.circles[i]? with
    | none => none
    | some child => nodeAt path child

/-- Following the spec's words (4.3 step 2, "all leaf points tagged by which
top-level child produced them"): the leaf points below the children `cs`, each
tagged with the index of the direct child it descends from; `i` is the index of
the first child of the list. -/
def specChildTaggedPoints : Nat → List (Circle R) → List (List Nat × Point R)
  | _, [] => []
  | i, c :: cs => c.getPoints.map (fun p => ([i], p)) ++ specChildTaggedPoints (i + 1) cs

/-- Following the spec's words (4.3 step 2): the "minimum distance between points
belonging to different children ... ignoring same-child pairs", with the
sentinel `1E50` of the code for an empty minimum. -/
def specCircleCircleDistance (m : Libm R) (c : Circle R) : R :=
  m.sqrt (minSqDistCC ((10 : R) ^ 50) (specChildTaggedPoints 0 c.circles))

end Owners

section Trace

variable {R : Type} [LinearOrderedField R]

/-- The half-distance that the loop `for (;;)` of `Circle::place` measures when
`r_` is `r`: every child is moved to `(x() + r*cos(a), y() + r*sin(a))` and
`closestCircleCircleDistance()/2` is taken. -/
def measuredHalfDistance (m : Libm R) (da : R) (d : CircleData R) (cs : List (Circle R))
    (r : R) : R :=
  (Circle.mk { d with r := r }
    (moveChildren m d.c.1 d.c.2 r da d.a cs)).closestCircleCircleDistance m / 2

end Trace

section Rounded

/-- The results of the C library in IEEE binary64 that a run of `place()` on the
tree for the factors [2, 2] with root angle offset 0 uses, as exact fractions:
`M_PI = 0x1.921fb54442d18p+1`; the angles that occur are 0, `M_PI/2`, `M_PI`,
`3*M_PI/2` and `5*M_PI/2` (all of them binary64 numbers), with
`cos(M_PI/2) = 6.123233995736766e-17`, `sin(M_PI) = 1.2246467991473532e-16`,
`cos(3*M_PI/2) = -1.8369701987210297e-16`, `cos(5*M_PI/2) = 3.061616997868383e-16`
and the other values 0, 1 or -1; `sqrt` is rounded to nearest, so it is within
a relative error of `2^-52` of the real square root.  Only the results of the
library are rounded here: sums, products and quotients stay exact. -/
def CLibraryValues (m : Libm ℝ) : Prop :=
  m.pi = 884279719003555 / 2 ^ 48 ∧
  m.cos 0 = 1 ∧ m.sin 0 = 0 ∧
  m.cos (m.pi / 2) = 4967757600021511 / 2 ^ 106 ∧ m.sin (m.pi / 2) = 1 ∧
  m.cos m.pi = -1 ∧ m.sin m.pi = 4967757600021511 / 2 ^ 105 ∧
  m.cos (3 * m.pi / 2) = -(3725818200016133 / 2 ^ 104) ∧ m.sin (3 * m.pi / 2) = -1 ∧
  m.cos (5 * m.pi / 2) = 6209697000026889 / 2 ^ 104 ∧ m.sin (5 * m.pi / 2) = 1 ∧
  ∀ x : ℝ, 0 ≤ x → |m.sqrt x - Real.sqrt x| ≤ Real.sqrt x / 2 ^ 52

end Rounded
/-! ## Theorems: the tree builder -/

section BuilderTheorems

variable {R : Type} [LinearOrderedField R]

theorem addPoints_mk (k : Nat) (d : CircleData R) (cs : List (Circle R)) :
    addPoints k (.mk d cs) = .mk { d with points := d.points ++ List.replicate k (0, 0) } cs := by
  induction k generalizing d with
  | zero => simp [addPoints]
  | succ k ih =>
    simp only [addPoints, Circle.addPoint, ih]
    simp [List.replicate_succ]

theorem calcPrime_ok (d : CircleData R) (cs : List (Circle R)) (n : Int) (s : Nat) (hn : 0 < n) :
    calcPrime (.mk d cs) n s
      = .ok (.mk { d with id := s, points := d.points ++ List.replicate n.toNat (0, 0) } cs,
             s + n.toNat) := by
  simp [calcPrime, hn, Circle.setId, addPoints_mk]

omit [LinearOrderedField R] in
theorem addCircles_ok (dflt : Defaults R)
    (build : Circle R → Nat → Except Error (Circle R × Nat))
    (g : Nat → Nat → Circle R) (K : Nat)
    (hb : ∀ i s, build (Circle.new dflt i) s = .ok (g i s, s + K))
    (i0 n : Nat) (d : CircleData R) (cs : List (Circle R)) (s : Nat) :
    addCircles dflt build (List.range' i0 n) (.mk d cs) s
      = .ok (.mk d (cs ++ (List.range' i0 n).map fun i => g i (s + (i - i0) * K)), s + n * K) := by
  induction n generalizing i0 cs s with
  | zero => simp [addCircles]
  | succ n ih =>
    simp only [List.range'_succ, addCircles, hb, Circle.addCircle, ih]
    simp only [List.map_cons, Nat.sub_self, Nat.zero_mul, Nat.add_zero, List.append_assoc,
      List.singleton_append]
    have hmap : (List.range' (i0 + 1) n).map (fun i => g i (s + K + (i - (i0 + 1)) * K))
        = (List.range' (i0 + 1) n).map (fun i => g i (s + (i - i0) * K)) := by
      apply List.map_congr_left
      intro i hi
      have h1 := (List.mem_range'_1.mp hi).1
      have h2 : i - i0 = (i - (i0 + 1)) + 1 := by omega
      rw [h2]
      congr 1
      ring
    rw [hmap, show s + K + n * K = s + (n + 1) * K by ring]
theorem toNat_mul_of_nonneg {a b : Int} (ha : 0 ≤ a) (hb : 0 ≤ b) :
    (a * b).toNat = a.toNat * b.toNat := by
  have h : ((a * b).toNat : Int) = ((a.toNat * b.toNat : Nat) : Int) := by
    rw [Int.toNat_of_nonneg (mul_nonneg ha hb)]
    push_cast
    rw [Int.toNat_of_nonneg ha, Int.toNat_of_nonneg hb]
  exact_mod_cast h

theorem prod_pos_of_pos (f : List Int) (h : ∀ x ∈ f, 1 ≤ x) : 0 < f.prod := by
  induction f with
  | nil => simp
  | cons x f ih =>
    rw [List.prod_cons]
    have hx : 1 ≤ x := h x (List.mem_cons_self _ _)
    have hf := ih (fun y hy => h y (List.mem_cons_of_mem _ hy))
    positivity

theorem calcFactors_eq_built (dflt : Defaults R) (f : List Int) (hne : f ≠ [])
    (hpos : ∀ x ∈ f, 1 ≤ x) (root : Circle R) (s : Nat) :
    calcFactors dflt f root s = .ok (built dflt f root s, s + f.prod.toNat) := by
  induction f generalizing root s with
  | nil => exact absurd rfl hne
  | cons n1 f1 ih =>
    obtain ⟨d, cs⟩ := root
    have hn1 : 1 ≤ n1 := hpos n1 (List.mem_cons_self _ _)
    cases f1 with
    | nil =>
      simp only [calcFactors, built, List.prod_cons, List.prod_nil, mul_one]
      exact calcPrime_ok d cs n1 s (by omega)
    | cons n2 f2 =>
      have hpos1 : ∀ x ∈ n2 :: f2, 1 ≤ x := fun x hx => hpos x (List.mem_cons_of_mem _ hx)
      have hb := fun (i s : Nat) => ih (by simp) hpos1 (Circle.new dflt i) s
      have hP := prod_pos_of_pos _ hpos1
      simp only [calcFactors, built, List.range_eq_range']
      rw [addCircles_ok dflt _ (fun i s => built dflt (n2 :: f2) (Circle.new dflt i) s)
        (n2 :: f2).prod.toNat hb]
      simp only [Nat.sub_zero]
      rw [List.prod_cons (a := n1), toNat_mul_of_nonneg (by omega) (le_of_lt hP)]


theorem getPointsList_append (l1 l2 : List (Circle R)) :
    Circle.getPointsList (l1 ++ l2) = Circle.getPointsList l1 ++ Circle.getPointsList l2 := by
  induction l1 with
  | nil => simp [Circle.getPointsList]
  | cons c l1 ih => simp [Circle.getPointsList, ih]

theorem getPointsList_length_const (l : List (Circle R)) (K : Nat)
    (h : ∀ c ∈ l, c.getPoints.length = K) :
    (Circle.getPointsList l).length = l.length * K := by
  induction l with
  | nil => simp [Circle.getPointsList]
  | cons c l ih =>
    simp only [Circle.getPointsList, List.length_append, List.length_cons]
    rw [h c (List.mem_cons_self _ _), ih (fun c hc => h c (List.mem_cons_of_mem _ hc))]
    ring

theorem getPoints_length_mk (d : CircleData R) (cs : List (Circle R)) :
    (Circle.mk d cs).getPoints.length = (Circle.getPointsList cs).length + d.points.length := by
  simp [Circle.getPoints]

theorem built_getPoints_length (dflt : Defaults R) (f : List Int) (hne : f ≠ [])
    (hpos : ∀ x ∈ f, 1 ≤ x) (root : Circle R) (s : Nat) :
    (built dflt f root s).getPoints.length = root.getPoints.length + f.prod.toNat := by
  induction f generalizing root s with
  | nil => exact absurd rfl hne
  | cons n1 f1 ih =>
    obtain ⟨d, cs⟩ := root
    have hn1 : 1 ≤ n1 := hpos n1 (List.mem_cons_self _ _)
    cases f1 with
    | nil =>
      simp only [built, getPoints_length_mk, List.length_append, List.length_replicate,
        List.prod_cons, List.prod_nil, mul_one]
      ring
    | cons n2 f2 =>
      have hpos1 : ∀ x ∈ n2 :: f2, 1 ≤ x := fun x hx => hpos x (List.mem_cons_of_mem _ hx)
      have hP := prod_pos_of_pos _ hpos1
      have hkids := getPointsList_length_const
        ((List.range n1.toNat).map fun i =>
          built dflt (n2 :: f2) (Circle.new dflt i) (s + i * (n2 :: f2).prod.toNat))
        (n2 :: f2).prod.toNat (by
          intro c hc
          obtain ⟨i, -, rfl⟩ := List.mem_map.mp hc
          rw [ih (by simp) hpos1]
          simp [Circle.new, getPoints_length_mk, Circle.getPointsList])
      simp only [built, getPoints_length_mk, getPointsList_append, List.length_append]
      rw [hkids, List.prod_cons (a := n1), toNat_mul_of_nonneg (by omega) (le_of_lt hP)]
      simp only [List.length_map, List.length_range]
      ring

/-- C1: for every non-empty factor sequence `f` whose elements are all at least 1,
`calcFactors` on a fresh root (no circles, no points) returns a tree, and the
list collected by `getPoints` on it has as many points as the product of `f`. -/
theorem calcFactors_point_count (dflt : Defaults R) (f : List Int) (root : Circle R)
    (lastId : Nat) (hne : f ≠ []) (hpos : ∀ x ∈ f, 1 ≤ x)
    (hc : root.circles = []) (hp : root.points = []) :
    ∃ c lastId1, calcFactors dflt f root lastId = .ok (c, lastId1) ∧
      (c.getPoints.length : Int) = f.prod := by
  refine ⟨_, _, calcFactors_eq_built dflt f hne hpos root lastId, ?_⟩
  rw [built_getPoints_length dflt f hne hpos]
  obtain ⟨d, cs⟩ := root
  simp only [Circle.circles, Circle.points, Circle.data] at hc hp
  subst hc
  simp only [getPoints_length_mk, Circle.getPointsList, hp, List.length_nil, Nat.zero_add]
  exact Int.toNat_of_nonneg (le_of_lt (prod_pos_of_pos f hpos))

/-- C1 at the factor sequence [2, 2, 3] of 12, over the rationals: 12 points. -/
theorem calcFactors_point_count_witness :
    ([2, 2, 3] : List Int) ≠ [] ∧ (∀ x ∈ ([2, 2, 3] : List Int), 1 ≤ x) ∧
    ∃ c lastId1, calcFactors (Defaults.sample ℚ) [2, 2, 3]
        (Circle.new (Defaults.sample ℚ) 0) 0 = .ok (c, lastId1) ∧
      (c.getPoints.length : Int) = 12 :=
  ⟨by decide, by decide,
   calcFactors_point_count _ [2, 2, 3] _ 0 (by decide) (by decide) rfl rfl⟩
omit [LinearOrderedField R] in
theorem leaves_mk_nil (d : CircleData R) : leaves (Circle.mk d []) = [Circle.mk d []] := by
  simp [leaves]

omit [LinearOrderedField R] in
theorem leaves_mk_cons (d : CircleData R) (c : Circle R) (cs : List (Circle R)) :
    leaves (Circle.mk d (c :: cs)) = leavesList (c :: cs) := by
  simp [leaves]

omit [LinearOrderedField R] in
theorem leavesList_eq_flatMap (l : List (Circle R)) : leavesList l = l.flatMap leaves := by
  induction l with
  | nil => simp [leavesList]
  | cons c l ih => simp [leavesList, ih]

theorem getPointsList_eq_flatMap (l : List (Circle R)) :
    Circle.getPointsList l = l.flatMap Circle.getPoints := by
  induction l with
  | nil => simp [Circle.getPointsList]
  | cons c l ih => simp [Circle.getPointsList, ih]

theorem length_flatMap_const {α β : Type} (l : List α) (g : α → List β) (K : Nat)
    (h : ∀ x ∈ l, (g x).length = K) : (l.flatMap g).length = l.length * K := by
  induction l with
  | nil => simp
  | cons x l ih =>
    simp only [List.flatMap_cons, List.length_append, List.length_cons]
    rw [h x (List.mem_cons_self _ _), ih (fun y hy => h y (List.mem_cons_of_mem _ hy))]
    ring

theorem range_toNat_ne_nil {n : Int} (h : 1 ≤ n) : List.range n.toNat ≠ [] := by
  intro h0
  have := congrArg List.length h0
  simp at this
  omega

/-- The shape of `built` on a fresh root, level by level. -/
theorem built_shape (dflt : Defaults R) (f : List Int) (hne : f ≠ [])
    (hpos : ∀ x ∈ f, 1 ≤ x) (root : Circle R) (s : Nat)
    (hc : root.circles = []) (hp : root.points = []) (i : Nat) :
    ∀ node ∈ nodesAt i (built dflt f root s),
      (i + 1 < f.length → (node.circles.length : Int) = f.getD i 0 ∧ node.points = []) ∧
      (i + 1 = f.length → node.circles = [] ∧ (node.points.length : Int) = f.getD i 0) ∧
      i < f.length := by
  induction f generalizing root s i with
  | nil => exact absurd rfl hne
  | cons n1 f1 ih =>
    obtain ⟨d, cs⟩ := root
    simp only [Circle.circles, Circle.points, Circle.data] at hc hp
    subst hc
    have hn1 : 1 ≤ n1 := hpos n1 (List.mem_cons_self _ _)
    cases f1 with
    | nil =>
      intro node hnode
      cases i with
      | zero =>
        simp only [nodesAt, built, List.mem_singleton] at hnode
        subst hnode
        simp [Circle.circles, Circle.points, Circle.data, hp]
        omega
      | succ i =>
        simp [nodesAt, built, Circle.circles] at hnode
    | cons n2 f2 =>
      have hpos1 : ∀ x ∈ n2 :: f2, 1 ≤ x := fun x hx => hpos x (List.mem_cons_of_mem _ hx)
      intro node hnode
      cases i with
      | zero =>
        simp only [nodesAt, built, List.mem_singleton] at hnode
        subst hnode
        simp [Circle.circles, Circle.points, Circle.data, hp]
        omega
      | succ i =>
        simp only [nodesAt, built, Circle.circles, List.nil_append, List.mem_flatMap,
          List.mem_map] at hnode
        obtain ⟨child, ⟨j, -, rfl⟩, hmem⟩ := hnode
        have h := ih (by simp) hpos1 (Circle.new dflt j) _ rfl rfl i node hmem
        simp only [List.length_cons, List.getD_cons_succ] at h ⊢
        refine ⟨fun hi => h.1 (by omega), fun hi => h.2.1 (by omega), by omega⟩

theorem built_leaves (dflt : Defaults R) (f : List Int) (hne : f ≠ [])
    (hpos : ∀ x ∈ f, 1 ≤ x) (root : Circle R) (s : Nat)
    (hc : root.circles = []) :
    leaves (built dflt f root s) = nodesAt (f.length - 1) (built dflt f root s) ∧
    ((leaves (built dflt f root s)).length : Int) = f.dropLast.prod := by
  induction f generalizing root s with
  | nil => exact absurd rfl hne
  | cons n1 f1 ih =>
    obtain ⟨d, cs⟩ := root
    simp only [Circle.circles] at hc
    subst hc
    have hn1 : 1 ≤ n1 := hpos n1 (List.mem_cons_self _ _)
    cases f1 with
    | nil => simp [built, leaves, nodesAt]
    | cons n2 f2 =>
      have hpos1 : ∀ x ∈ n2 :: f2, 1 ≤ x := fun x hx => hpos x (List.mem_cons_of_mem _ hx)
      have hkid := fun (j : Nat) (s1 : Nat) => ih (by simp) hpos1 (Circle.new dflt j) s1 rfl
      have hne1 := range_toNat_ne_nil hn1
      have hLpos := prod_pos_of_pos (n2 :: f2).dropLast
        (fun x hx => hpos1 x (List.mem_of_mem_dropLast hx))
      simp only [built, List.nil_append, leaves, List.isEmpty_eq_true, List.map_eq_nil_iff, hne1,
        if_false, leavesList_eq_flatMap, List.length_cons, Nat.add_sub_cancel, nodesAt,
        Circle.circles, List.flatMap_map]
      constructor
      · congr 1
        funext j
        exact (hkid j _).1
      · rw [length_flatMap_const _ _ ((n2 :: f2).dropLast.prod.toNat)]
        · simp only [List.length_range, List.dropLast_cons₂, List.prod_cons (a := n1)]
          push_cast
          rw [Int.toNat_of_nonneg (by omega), Int.toNat_of_nonneg (le_of_lt hLpos)]
        · intro j _
          have h := (hkid j (s + j * (n2 :: f2).prod.toNat)).2
          have h2 : (((leaves (built dflt (n2 :: f2) (Circle.new dflt j)
              (s + j * (n2 :: f2).prod.toNat))).length : Nat) : Int)
              = (((n2 :: f2).dropLast.prod.toNat : Nat) : Int) := by
            rw [h, Int.toNat_of_nonneg (le_of_lt hLpos)]
          exact_mod_cast h2

/-- C2: for every factor sequence `f = [n_1, ..., n_k]` with `k >= 1` and all
`n_i >= 1`, `calcFactors` on a fresh root returns a tree in which every circle
at depth `i < k - 1` has exactly `n_(i+1)` child circles and no points, every
circle at depth `k - 1` has no child circles and exactly `n_k` points, there
is no circle at depth `k`, the leaves are exactly the circles at depth `k - 1`,
and their number is `n_1 * ... * n_(k-1)`. -/
theorem calcFactors_shape (dflt : Defaults R) (f : List Int) (root : Circle R)
    (lastId : Nat) (hne : f ≠ []) (hpos : ∀ x ∈ f, 1 ≤ x)
    (hc : root.circles = []) (hp : root.points = []) :
    ∃ c lastId1, calcFactors dflt f root lastId = .ok (c, lastId1) ∧
      (∀ i, i + 1 < f.length → ∀ node ∈ nodesAt i c,
        (node.circles.length : Int) = f.getD i 0 ∧ node.points = []) ∧
      (∀ node ∈ nodesAt (f.length - 1) c,
        node.circles = [] ∧ (node.points.length : Int) = f.getLast hne) ∧
      nodesAt f.length c = [] ∧
      leaves c = nodesAt (f.length - 1) c ∧
      ((leaves c).length : Int) = f.dropLast.prod := by
  have hlen : 0 < f.length := List.length_pos.mpr hne
  refine ⟨_, _, calcFactors_eq_built dflt f hne hpos root lastId, ?_, ?_, ?_,
    built_leaves dflt f hne hpos root lastId hc⟩
  · intro i hi node hnode
    exact (built_shape dflt f hne hpos root lastId hc hp i node hnode).1 hi
  · intro node hnode
    have h := (built_shape dflt f hne hpos root lastId hc hp (f.length - 1) node hnode).2.1
      (by omega)
    refine ⟨h.1, ?_⟩
    rw [h.2, List.getLast_eq_getElem, List.getD_eq_getElem?_getD,
      List.getElem?_eq_getElem (by omega)]
    rfl
  · apply List.eq_nil_iff_forall_not_mem.mpr
    intro node hnode
    have h := (built_shape dflt f hne hpos root lastId hc hp f.length node hnode).2.2
    omega

/-- C2 at the factor sequence [2, 2, 3], over the rationals: the root has 2
children, each of them has 2 children, each of those is a leaf with 3 points. -/
theorem calcFactors_shape_witness :
    ∃ c lastId1, calcFactors (Defaults.sample ℚ) [2, 2, 3]
        (Circle.new (Defaults.sample ℚ) 0) 0 = .ok (c, lastId1) ∧
      (∀ i, i + 1 < 3 → ∀ node ∈ nodesAt i c,
        (node.circles.length : Int) = ([2, 2, 3] : List Int).getD i 0 ∧ node.points = []) ∧
      (∀ node ∈ nodesAt 2 c, node.circles = [] ∧ (node.points.length : Int) = 3) ∧
      nodesAt 3 c = [] ∧
      leaves c = nodesAt 2 c ∧
      ((leaves c).length : Int) = 4 :=
  calcFactors_shape _ [2, 2, 3] _ 0 (by decide) (by decide) rfl rfl

omit [LinearOrderedField R] in
theorem IdsChain_append (s m e : Nat) (l1 l2 : List (Circle R))
    (h1 : IdsChain s l1 m) (h2 : IdsChain m l2 e) : IdsChain s (l1 ++ l2) e := by
  induction l1 generalizing s with
  | nil =>
    simp only [IdsChain] at h1
    subst h1
    simpa using h2
  | cons l l1 ih =>
    simp only [IdsChain, List.cons_append] at h1 ⊢
    exact ⟨h1.1, ih _ h1.2⟩

omit [LinearOrderedField R] in
theorem IdsChain_flatMap_range (s P : Nat) (g : Nat → List (Circle R)) (n : Nat)
    (h : ∀ i, IdsChain (s + i * P) (g i) (s + (i + 1) * P)) :
    IdsChain s ((List.range n).flatMap g) (s + n * P) := by
  induction n with
  | zero => simp [IdsChain]
  | succ n ih =>
    rw [List.range_succ, List.flatMap_append]
    refine IdsChain_append _ _ _ _ _ ih ?_
    simpa using h n

omit [LinearOrderedField R] in
theorem IdsChain_const (s e p : Nat) (l : List (Circle R)) (h : IdsChain s l e)
    (hp : ∀ x ∈ l, x.numPoints = p) :
    e = s + l.length * p ∧ ∀ j x, l[j]? = some x → x.id = s + j * p := by
  induction l generalizing s with
  | nil =>
    simp only [IdsChain] at h
    simp [h]
  | cons x l ih =>
    simp only [IdsChain] at h
    have hx := hp x (List.mem_cons_self _ _)
    obtain ⟨he, hj⟩ := ih (s + x.numPoints) h.2 (fun y hy => hp y (List.mem_cons_of_mem _ hy))
    refine ⟨by rw [he, hx, List.length_cons]; ring, ?_⟩
    intro j y hy
    cases j with
    | zero =>
      simp only [List.getElem?_cons_zero, Option.some.injEq] at hy
      subst hy
      simp [h.1]
    | succ j =>
      simp only [List.getElem?_cons_succ] at hy
      rw [hj j y hy, hx]
      ring

theorem built_ids (dflt : Defaults R) (f : List Int) (hne : f ≠ [])
    (hpos : ∀ x ∈ f, 1 ≤ x) (root : Circle R) (s : Nat)
    (hc : root.circles = []) (hp : root.points = []) :
    IdsChain s (leaves (built dflt f root s)) (s + f.prod.toNat) := by
  induction f generalizing root s with
  | nil => exact absurd rfl hne
  | cons n1 f1 ih =>
    obtain ⟨d, cs⟩ := root
    simp only [Circle.circles, Circle.points, Circle.data] at hc hp
    subst hc
    have hn1 : 1 ≤ n1 := hpos n1 (List.mem_cons_self _ _)
    cases f1 with
    | nil =>
      simp [built, leaves, IdsChain, Circle.id, Circle.numPoints, Circle.data, hp]
    | cons n2 f2 =>
      have hpos1 : ∀ x ∈ n2 :: f2, 1 ≤ x := fun x hx => hpos x (List.mem_cons_of_mem _ hx)
      have hP := prod_pos_of_pos _ hpos1
      have hne1 := range_toNat_ne_nil hn1
      simp only [built, List.nil_append, leaves, List.isEmpty_eq_true, List.map_eq_nil_iff, hne1,
        if_false, leavesList_eq_flatMap, List.flatMap_map]
      rw [List.prod_cons (a := n1), toNat_mul_of_nonneg (by omega) (le_of_lt hP)]
      apply IdsChain_flatMap_range
      intro i
      have h := ih (by simp) hpos1 (Circle.new dflt i) (s + i * (n2 :: f2).prod.toNat) rfl rfl
      have e : s + (i + 1) * (n2 :: f2).prod.toNat
          = s + i * (n2 :: f2).prod.toNat + (n2 :: f2).prod.toNat := by ring
      rw [e]
      exact h

theorem built_getPoints_leaves (dflt : Defaults R) (f : List Int) (hne : f ≠ [])
    (hpos : ∀ x ∈ f, 1 ≤ x) (root : Circle R) (s : Nat)
    (hc : root.circles = []) (hp : root.points = []) :
    (built dflt f root s).getPoints = (leaves (built dflt f root s)).flatMap Circle.getPoints := by
  induction f generalizing root s with
  | nil => exact absurd rfl hne
  | cons n1 f1 ih =>
    obtain ⟨d, cs⟩ := root
    simp only [Circle.circles, Circle.points, Circle.data] at hc hp
    subst hc
    have hn1 : 1 ≤ n1 := hpos n1 (List.mem_cons_self _ _)
    cases f1 with
    | nil => simp [built, leaves]
    | cons n2 f2 =>
      have hpos1 : ∀ x ∈ n2 :: f2, 1 ≤ x := fun x hx => hpos x (List.mem_cons_of_mem _ hx)
      have hne1 := range_toNat_ne_nil hn1
      simp only [built, List.nil_append, leaves, List.isEmpty_eq_true, List.map_eq_nil_iff, hne1,
        if_false, leavesList_eq_flatMap, List.flatMap_map, Circle.getPoints,
        getPointsList_eq_flatMap, hp, List.map_nil, List.append_nil, List.flatMap_assoc]
      congr 1
      funext i
      exact ih (by simp) hpos1 (Circle.new dflt i) _ rfl rfl

theorem exists_unique_block (s p L m : Nat) (hp : 0 < p) (h1 : s ≤ m) (h2 : m < s + L * p) :
    ∃! j, j < L ∧ s + j * p ≤ m ∧ m < s + j * p + p := by
  refine ⟨(m - s) / p, ⟨?_, ?_, ?_⟩, ?_⟩
  · apply (Nat.div_lt_iff_lt_mul hp).mpr
    omega
  · have := Nat.div_mul_le_self (m - s) p
    omega
  · have := Nat.lt_div_mul_add (a := m - s) hp
    omega
  · rintro j ⟨-, hj1, hj2⟩
    have h3 : j * p ≤ m - s := by omega
    have h4 : m - s < (j + 1) * p := by rw [Nat.add_mul]; omega
    apply le_antisymm
    · exact (Nat.le_div_iff_mul_le hp).mpr h3
    · exact Nat.lt_succ_iff.mp ((Nat.div_lt_iff_lt_mul hp).mpr h4)

/-- C3: for every factor sequence `f = [n_1, ..., n_k]` with all `n_i >= 1`,
`calcFactors` on a fresh root, started with the id counter at `lastId` (0 after
`resetId`), ends with the counter at `lastId + n_1 * ... * n_k`; the leaves,
in the order in which `getPoints` visits them, number `n_1 * ... * n_(k-1)`,
the `j`-th of them (0-based) has `id = lastId + j * n_k` and `n_k` points, and
every number from `lastId` up to the final counter lies in the reserved range
`[id, id + numPoints)` of exactly one leaf. -/
theorem calcFactors_ids (dflt : Defaults R) (f : List Int) (root : Circle R)
    (lastId : Nat) (hne : f ≠ []) (hpos : ∀ x ∈ f, 1 ≤ x)
    (hc : root.circles = []) (hp : root.points = []) :
    ∃ c lastId1, calcFactors dflt f root lastId = .ok (c, lastId1) ∧
      (lastId1 : Int) = lastId + f.prod ∧
      ((leaves c).length : Int) = f.dropLast.prod ∧
      c.getPoints = (leaves c).flatMap Circle.getPoints ∧
      (∀ (j : Nat) (l : Circle R), (leaves c)[j]? = some l →
        (l.id : Int) = lastId + j * f.getLast hne ∧ (l.numPoints : Int) = f.getLast hne) ∧
      (∀ m, lastId ≤ m → m < lastId1 →
        ∃! j : Nat, ∃ l : Circle R, (leaves c)[j]? = some l ∧ l.id ≤ m ∧ m < l.id + l.numPoints) := by
  have hlen : 0 < f.length := List.length_pos.mpr hne
  have hlast : 1 ≤ f.getLast hne := hpos _ (List.getLast_mem hne)
  have hPpos := prod_pos_of_pos f hpos
  have hleaves := built_leaves dflt f hne hpos root lastId hc
  have hchain := built_ids dflt f hne hpos root lastId hc hp
  -- every leaf has `n_k` points
  have hnp : ∀ x ∈ leaves (built dflt f root lastId), x.numPoints = (f.getLast hne).toNat := by
    intro x hx
    rw [hleaves.1] at hx
    have h := ((built_shape dflt f hne hpos root lastId hc hp (f.length - 1) x hx).2.1
      (by omega)).2
    have h2 : ((x.numPoints : Nat) : Int) = (((f.getLast hne).toNat : Nat) : Int) := by
      rw [Int.toNat_of_nonneg (by omega)]
      simp only [Circle.numPoints, Circle.points] at h ⊢
      rw [h, List.getLast_eq_getElem, List.getD_eq_getElem?_getD,
        List.getElem?_eq_getElem (by omega)]
      rfl
    exact_mod_cast h2
  obtain ⟨hend, hid⟩ := IdsChain_const _ _ _ _ hchain hnp
  refine ⟨_, _, calcFactors_eq_built dflt f hne hpos root lastId, ?_, hleaves.2,
    built_getPoints_leaves dflt f hne hpos root lastId hc hp, ?_, ?_⟩
  · push_cast
    rw [Int.toNat_of_nonneg (le_of_lt hPpos)]
  · intro j l hl
    have h1 := hid j l hl
    have h2 := hnp l (List.getElem?_mem hl)
    rw [h1, h2]
    push_cast
    rw [Int.toNat_of_nonneg (by omega)]
    exact ⟨rfl, rfl⟩
  · intro m hm1 hm2
    rw [hend] at hm2
    have hp0 : 0 < (f.getLast hne).toNat := by omega
    obtain ⟨j, ⟨hjL, hj1, hj2⟩, huniq⟩ :=
      exists_unique_block lastId (f.getLast hne).toNat _ m hp0 hm1 hm2
    refine ⟨j, ⟨(leaves (built dflt f root lastId))[j], List.getElem?_eq_getElem hjL, ?_, ?_⟩, ?_⟩
    · rw [hid j _ (List.getElem?_eq_getElem hjL)]
      exact hj1
    · rw [hid j _ (List.getElem?_eq_getElem hjL), hnp _ (List.getElem_mem _)]
      exact hj2
    · rintro j2 ⟨l, hl, hl1, hl2⟩
      apply huniq
      have hj2L : j2 < (leaves (built dflt f root lastId)).length := by
        by_contra hcon
        rw [List.getElem?_eq_none (by omega)] at hl
        cases hl
      rw [hid j2 l hl] at hl1 hl2
      rw [hnp l (List.getElem?_mem hl)] at hl2
      exact ⟨hj2L, hl1, hl2⟩

/-- C3 at the factor sequence [2, 2, 3] with the counter reset to 0, over the
rationals: four leaves with ids 0, 3, 6, 9, final counter 12. -/
theorem calcFactors_ids_witness :
    ∃ c lastId1, calcFactors (Defaults.sample ℚ) [2, 2, 3]
        (Circle.new (Defaults.sample ℚ) 0) 0 = .ok (c, lastId1) ∧
      (lastId1 : Int) = ((0 : Nat) : Int) + 12 ∧
      ((leaves c).length : Int) = 4 ∧
      c.getPoints = (leaves c).flatMap Circle.getPoints ∧
      (∀ (j : Nat) (l : Circle ℚ), (leaves c)[j]? = some l →
        (l.id : Int) = ((0 : Nat) : Int) + j * 3 ∧ (l.numPoints : Int) = 3) ∧
      (∀ m, 0 ≤ m → m < lastId1 →
        ∃! j : Nat, ∃ l : Circle ℚ, (leaves c)[j]? = some l ∧ l.id ≤ m ∧ m < l.id + l.numPoints) :=
  calcFactors_ids _ [2, 2, 3] _ 0 (by decide) (by decide) rfl rfl

/-- C4: for every `p >= 1` the direct prime path `calcPrime(root, p)` and the
factor path `calcFactors(root, [p])` return the same result from the same
counter `lastId`: the fresh root gets no child circles, exactly `p` points
and `id = lastId`, and the counter becomes `lastId + p`.  The tree that
`App::calc` builds for `p` is this one on either branch, whenever the factor
source returns `[p]` for `p`. -/
theorem calcPrime_eq_calcFactors_singleton (dflt : Defaults R) (p : Int) (hp : 1 ≤ p)
    (n lastId : Nat) :
    calcPrime (Circle.new dflt n) p lastId = calcFactors dflt [p] (Circle.new dflt n) lastId ∧
    (∃ c, calcPrime (Circle.new dflt n) p lastId = .ok (c, lastId + p.toNat) ∧
      c.circles = [] ∧ (c.points.length : Int) = p ∧ c.points = List.replicate p.toNat (0, 0) ∧
      c.id = lastId ∧ (c.getPoints.length : Int) = p) ∧
    (∀ (factors : Int → List Int) (isPrime : Int → Bool), factors p = [p] →
      calcTree dflt factors isPrime p = calcPrime (Circle.new dflt 0) p 0) := by
  refine ⟨rfl, ⟨_, calcPrime_ok _ _ p lastId (by omega), rfl, ?_, ?_, rfl, ?_⟩, ?_⟩
  · simp [Circle.points, Circle.data]
    omega
  · simp [Circle.points, Circle.data]
  · simp [Circle.getPoints, Circle.getPointsList]
    omega
  · intro factors isPrime hf
    simp only [calcTree, hf, calcFactors]
    split <;> rfl

/-- C4 at `p = 17`, over the rationals. -/
theorem calcPrime_eq_calcFactors_singleton_witness :
    calcPrime (Circle.new (Defaults.sample ℚ) 0) 17 0
      = calcFactors (Defaults.sample ℚ) [17] (Circle.new (Defaults.sample ℚ) 0) 0 ∧
    (∃ c, calcPrime (Circle.new (Defaults.sample ℚ) 0) 17 0
        = .ok (c, 17) ∧
      c.circles = [] ∧ (c.points.length : Int) = 17 ∧ c.points = List.replicate 17 (0, 0) ∧
      c.id = 0 ∧ (c.getPoints.length : Int) = 17) ∧
    (∀ (factors : Int → List Int) (isPrime : Int → Bool), factors 17 = [17] →
      calcTree (Defaults.sample ℚ) factors isPrime 17
        = calcPrime (Circle.new (Defaults.sample ℚ) 0) 17 0) :=
  calcPrime_eq_calcFactors_singleton _ 17 (by decide) 0 0

end BuilderTheorems
/-! ## Theorems: rigid translation -/

section MoveTheorems

variable {R : Type} [LinearOrderedField R]

/-- Translation of a point by the vector `(dx, dy)`. -/
theorem getPointOf_shift (d : CircleData R) (dx dy : R) (p : Point R) :
    Circle.getPointOf { d with c := (d.c.1 + dx, d.c.2 + dy) } p
      = ((Circle.getPointOf d p).1 + dx, (Circle.getPointOf d p).2 + dy) := by
  simp only [Circle.getPointOf, Prod.mk.injEq]
  constructor <;> ring

theorem moveBy_data (dx dy : R) (c : Circle R) :
    (Circle.moveBy dx dy c).data = { c.data with c := (c.x + dx, c.y + dy) } := by
  cases c with
  | mk d cs => simp [Circle.moveBy, Circle.data, Circle.x, Circle.y]

theorem moveByList_length (dx dy : R) (cs : List (Circle R)) :
    (Circle.moveByList dx dy cs).length = cs.length := by
  induction cs with
  | nil => simp [Circle.moveByList]
  | cons c cs ih => simp [Circle.moveByList, ih]

mutual
theorem getPoints_moveBy (dx dy : R) :
    ∀ c : Circle R, (Circle.moveBy dx dy c).getPoints
      = c.getPoints.map (fun p => (p.1 + dx, p.2 + dy))
  | .mk d cs => by
    simp only [Circle.moveBy, Circle.getPoints, getPointsList_moveBy dx dy cs, List.map_append,
      List.map_map]
    congr 1
    apply List.map_congr_left
    intro p _
    exact getPointOf_shift d dx dy p
theorem getPointsList_moveBy (dx dy : R) :
    ∀ cs : List (Circle R), Circle.getPointsList (Circle.moveByList dx dy cs)
      = (Circle.getPointsList cs).map (fun p => (p.1 + dx, p.2 + dy))
  | [] => by simp [Circle.moveByList, Circle.getPointsList]
  | c :: cs => by
    simp only [Circle.moveByList, Circle.getPointsList, getPoints_moveBy dx dy c,
      getPointsList_moveBy dx dy cs, List.map_append]
end

mutual
theorem getCirclePoints_moveBy (dx dy : R) :
    ∀ (c : Circle R) (path : List Nat), (Circle.moveBy dx dy c).getCirclePoints path
      = (c.getCirclePoints path).map (fun tp => (tp.1, (tp.2.1 + dx, tp.2.2 + dy)))
  | .mk d cs, path => by
    simp only [Circle.moveBy, Circle.getCirclePoints, getCirclePointsList_moveBy dx dy cs,
      List.map_append, List.map_map]
    congr 1
    apply List.map_congr_left
    intro p _
    simp only [Function.comp, Prod.mk.injEq, true_and]
    exact getPointOf_shift d dx dy p
theorem getCirclePointsList_moveBy (dx dy : R) :
    ∀ (cs : List (Circle R)) (path : List Nat) (i : Nat),
      Circle.getCirclePointsList path i (Circle.moveByList dx dy cs)
      = (Circle.getCirclePointsList path i cs).map (fun tp => (tp.1, (tp.2.1 + dx, tp.2.2 + dy)))
  | [], _, _ => by simp [Circle.moveByList, Circle.getCirclePointsList]
  | c :: cs, path, i => by
    simp only [Circle.moveByList, Circle.getCirclePointsList, getCirclePoints_moveBy dx dy c,
      getCirclePointsList_moveBy dx dy cs, List.map_append]
end

mutual
theorem nodes_moveBy (dx dy : R) :
    ∀ c : Circle R, nodes (Circle.moveBy dx dy c)
      = (nodes c).map (fun n => ({ n.1 with c := (n.1.c.1 + dx, n.1.c.2 + dy) }, n.2))
  | .mk d cs => by
    simp only [Circle.moveBy, nodes, nodesList_moveBy dx dy cs, List.map_cons, moveByList_length]
theorem nodesList_moveBy (dx dy : R) :
    ∀ cs : List (Circle R), nodesList (Circle.moveByList dx dy cs)
      = (nodesList cs).map (fun n => ({ n.1 with c := (n.1.c.1 + dx, n.1.c.2 + dy) }, n.2))
  | [] => by simp [Circle.moveByList, nodesList]
  | c :: cs => by
    simp only [Circle.moveByList, nodesList, nodes_moveBy dx dy c, nodesList_moveBy dx dy cs,
      List.map_append]
end

theorem sqDist_shift (dx dy : R) (p q : Point R) :
    sqDist (p.1 + dx, p.2 + dy) (q.1 + dx, q.2 + dy) = sqDist p q := by
  simp only [sqDist]
  ring

theorem minSqDistFrom_shift (dx dy : R) (p : Point R) (d : R) (ps : List (Point R)) :
    minSqDistFrom (p.1 + dx, p.2 + dy) d (ps.map (fun q => (q.1 + dx, q.2 + dy)))
      = minSqDistFrom p d ps := by
  induction ps generalizing d with
  | nil => simp [minSqDistFrom]
  | cons q ps ih =>
    simp only [minSqDistFrom, List.map_cons, List.foldl_cons, sqDist_shift] at ih ⊢
    exact ih _

theorem minSqDist_shift (dx dy : R) (d : R) (ps : List (Point R)) :
    minSqDist d (ps.map (fun q => (q.1 + dx, q.2 + dy))) = minSqDist d ps := by
  induction ps generalizing d with
  | nil => simp [minSqDist]
  | cons p ps ih =>
    simp only [List.map_cons, minSqDist, minSqDistFrom_shift, ih]

theorem closestPointDistance_moveBy (m : Libm R) (dx dy : R) (c : Circle R) :
    (Circle.moveBy dx dy c).closestPointDistance m = c.closestPointDistance m := by
  simp only [Circle.closestPointDistance, getPoints_moveBy, minSqDist_shift]

theorem move_center (c : Circle R) (x y : R) : (c.move x y).center = (x, y) := by
  simp only [Circle.move, Circle.center, moveBy_data, Prod.mk.injEq]
  constructor <;> ring

/-- C10: for every circle `c` and target `(x, y)`, after `c.move(x, y)` the
centre of `c` is `(x, y)`; listing all circles of the subtree in pre-order,
every one keeps its data members and its number of children except that its
centre is shifted by `(x - old x, y - old y)`; every collected leaf point is
shifted by that same vector; hence the squared distance of any two collected
points and `closestPointDistance` are unchanged. -/
theorem move_rigid (m : Libm R) (c : Circle R) (x y : R) :
    (c.move x y).center = (x, y) ∧
    nodes (c.move x y)
      = (nodes c).map (fun n =>
          ({ n.1 with c := (n.1.c.1 + (x - c.x), n.1.c.2 + (y - c.y)) }, n.2)) ∧
    (c.move x y).getPoints = c.getPoints.map (fun p => (p.1 + (x - c.x), p.2 + (y - c.y))) ∧
    (∀ (i j : Nat) (p q p1 q1 : Point R),
      c.getPoints[i]? = some p → c.getPoints[j]? = some q →
      (c.move x y).getPoints[i]? = some p1 → (c.move x y).getPoints[j]? = some q1 →
      sqDist p1 q1 = sqDist p q) ∧
    (c.move x y).closestPointDistance m = c.closestPointDistance m := by
  refine ⟨move_center c x y, nodes_moveBy _ _ c, getPoints_moveBy _ _ c, ?_,
    closestPointDistance_moveBy m _ _ c⟩
  intro i j p q p1 q1 hp hq hp1 hq1
  simp only [Circle.move, getPoints_moveBy, List.getElem?_map, hp, hq, Option.map_some',
    Option.some.injEq] at hp1 hq1
  rw [← hp1, ← hq1]
  exact sqDist_shift _ _ p q

end MoveTheorems

/-! ## Theorems: placement -/

section PlaceTheorems

variable {R : Type} [LinearOrderedField R]

/-- The embedding `placeSetA` of `setA(a); place();` agrees with running `place`
on the circle returned by `setA`. -/
theorem placeSetA_eq_place_setA (m : Libm R) (fuel : Nat) (a : R) (c : Circle R) :
    placeSetA m fuel a c = (c.setA a).place m fuel := by
  cases c with
  | mk d cs => cases cs <;> rfl

theorem placePoints_length (m : Libm R) (da a : R) (ps : List (Point R)) :
    (placePoints m da a ps).length = ps.length := by
  induction ps generalizing a with
  | nil => simp [placePoints]
  | cons p ps ih => simp [placePoints, ih]

theorem placePoints_getElem? (m : Libm R) (da a : R) (ps : List (Point R)) (i : Nat)
    (hi : i < ps.length) :
    (placePoints m da a ps)[i]? = some (m.cos (a + i * da), m.sin (a + i * da)) := by
  induction ps generalizing a i with
  | nil => simp at hi
  | cons p ps ih =>
    cases i with
    | zero => simp [placePoints]
    | succ i =>
      simp only [placePoints, List.getElem?_cons_succ]
      rw [ih (a + da) i (by simpa using hi)]
      have e : a + da + (i : R) * da = a + ((i + 1 : Nat) : R) * da := by push_cast; ring
      rw [e]

/-- C8: `place()` on a leaf (no child circles) with `p >= 1` points and angle
offset `a` returns, whatever the fuel; afterwards the leaf has centre
(0.5, 0.5), radius 0.5, the same `a` and `p` points; if `p = 1` the single
local offset is (0, 0); if `p >= 2` the `i`-th local offset is
`(cos(a + i*2*pi/p), sin(a + i*2*pi/p))` and `getPoint(i)` is
`(0.5 + 0.5*cos(a + i*2*pi/p), 0.5 + 0.5*sin(a + i*2*pi/p))` for every `i < p`. -/
theorem place_leaf (m : Libm R) (fuel : Nat) (c : Circle R)
    (hleaf : c.circles = []) (hp : 1 ≤ c.numPoints) :
    ∃ c1, c.place m fuel = .ok c1 ∧
      c1.center = (1 / 2, 1 / 2) ∧ c1.r = 1 / 2 ∧ c1.a = c.a ∧ c1.circles = [] ∧
      c1.numPoints = c.numPoints ∧
      (c.numPoints = 1 → c1.points = [(0, 0)]) ∧
      (2 ≤ c.numPoints → ∀ i, i < c.numPoints →
        c1.points[i]? = some (m.cos (c.a + i * (2 * m.pi / c.numPoints)),
                              m.sin (c.a + i * (2 * m.pi / c.numPoints))) ∧
        c1.getPoint i = some (1 / 2 + 1 / 2 * m.cos (c.a + i * (2 * m.pi / c.numPoints)),
                              1 / 2 + 1 / 2 * m.sin (c.a + i * (2 * m.pi / c.numPoints)))) := by
  obtain ⟨d, cs⟩ := c
  simp only [Circle.circles] at hleaf
  subst hleaf
  simp only [Circle.numPoints, Circle.data] at hp ⊢
  by_cases h2 : 1 < d.points.length
  · have hex : ∃ ps, ps = placePoints m (2 * m.pi / d.points.length) d.a d.points := ⟨_, rfl⟩
    obtain ⟨ps, hps⟩ := hex
    refine ⟨Circle.mk { d with c := (1 / 2, 1 / 2), r := 1 / 2, points := ps } [],
      ?_, rfl, rfl, rfl, rfl, ?_, ?_, ?_⟩ <;> subst hps
    · simp only [Circle.place, placeSetA, h2, if_true]
      rfl
    · simp [Circle.data, placePoints_length]
    · intro h1
      omega
    · intro _ i hi
      have hget := placePoints_getElem? m (2 * m.pi / d.points.length) d.a d.points i hi
      refine ⟨hget, ?_⟩
      simp only [Circle.getPoint, Circle.points, Circle.data, List.get?_eq_getElem?]
      rw [show (Circle.a (Circle.mk d [])) = d.a from rfl, hget]
      rfl
  · have h1 : d.points.length = 1 := by omega
    obtain ⟨p0, hp0⟩ := List.length_eq_one.mp h1
    refine ⟨Circle.mk { d with c := (1 / 2, 1 / 2), r := 1 / 2, points := [(0, 0)] } [],
      ?_, rfl, rfl, rfl, rfl, ?_, ?_, ?_⟩
    · simp [Circle.place, placeSetA, hp0, Circle.a, Circle.data]
    · simp [Circle.data, h1]
    · intro _
      rfl
    · intro h
      omega


/-- C8 on the leaf built for the prime 2, with `a = 0`, over the reals with the
real `cos`, `sin`, `sqrt` and `pi`. -/
theorem place_leaf_witness :
    (addPoints 2 (Circle.new (Defaults.sample ℝ) 0)).circles = [] ∧
    1 ≤ (addPoints 2 (Circle.new (Defaults.sample ℝ) 0)).numPoints ∧
    ∃ c1, (addPoints 2 (Circle.new (Defaults.sample ℝ) 0)).place
        ⟨Real.cos, Real.sin, Real.sqrt, Real.pi⟩ 0 = .ok c1 ∧
      c1.center = (1 / 2, 1 / 2) ∧ c1.r = 1 / 2 ∧ c1.a = 0 ∧ c1.circles = [] ∧
      c1.numPoints = 2 ∧
      ((2 : Nat) = 1 → c1.points = [(0, 0)]) ∧
      (2 ≤ 2 → ∀ i : Nat, i < 2 →
        c1.points[i]? = some (Real.cos (0 + i * (2 * Real.pi / (2 : Nat))),
                              Real.sin (0 + i * (2 * Real.pi / (2 : Nat)))) ∧
        c1.getPoint i = some (1 / 2 + 1 / 2 * Real.cos (0 + i * (2 * Real.pi / (2 : Nat))),
                              1 / 2 + 1 / 2 * Real.sin (0 + i * (2 * Real.pi / (2 : Nat))))) :=
  ⟨rfl, by decide,
   place_leaf ⟨Real.cos, Real.sin, Real.sqrt, Real.pi⟩ 0
     (addPoints 2 (Circle.new (Defaults.sample ℝ) 0)) rfl (by decide)⟩

mutual
theorem moveBy_moveBy (dx dy ex ey : R) :
    ∀ c : Circle R, Circle.moveBy ex ey (Circle.moveBy dx dy c) = Circle.moveBy (dx + ex) (dy + ey) c
  | .mk d cs => by
    simp only [Circle.moveBy, moveByList_moveByList dx dy ex ey cs, add_assoc]
theorem moveByList_moveByList (dx dy ex ey : R) :
    ∀ cs : List (Circle R), Circle.moveByList ex ey (Circle.moveByList dx dy cs)
      = Circle.moveByList (dx + ex) (dy + ey) cs
  | [] => by simp [Circle.moveByList]
  | c :: cs => by
    simp only [Circle.moveByList, moveBy_moveBy dx dy ex ey c,
      moveByList_moveByList dx dy ex ey cs]
end

theorem IsTranslate.trans {c1 c2 c3 : Circle R} (h12 : IsTranslate c1 c2)
    (h23 : IsTranslate c2 c3) : IsTranslate c1 c3 := by
  obtain ⟨dx, dy, rfl⟩ := h12
  obtain ⟨ex, ey, rfl⟩ := h23
  exact ⟨dx + ex, dy + ey, moveBy_moveBy dx dy ex ey c1⟩

theorem IsTranslate.move (c : Circle R) (x y : R) : IsTranslate c (c.move x y) :=
  ⟨_, _, rfl⟩

theorem IsTranslate.a_eq {c c1 : Circle R} (h : IsTranslate c c1) : c1.a = c.a := by
  obtain ⟨dx, dy, rfl⟩ := h
  simp [Circle.a, moveBy_data]

theorem IsTranslate.size_eq {c c1 : Circle R} (h : IsTranslate c c1) : c1.size = c.size := by
  obtain ⟨dx, dy, rfl⟩ := h
  cases c with
  | mk d cs => simp [Circle.size, Circle.moveBy, Circle.circles, Circle.points, Circle.data,
      moveByList_length]

theorem IsTranslate.closestPointDistance_eq (m : Libm R) {c c1 : Circle R}
    (h : IsTranslate c c1) : c1.closestPointDistance m = c.closestPointDistance m := by
  obtain ⟨dx, dy, rfl⟩ := h
  exact closestPointDistance_moveBy m dx dy c

theorem moveChildren_length (m : Libm R) (x y r da a : R) (cs : List (Circle R)) :
    (moveChildren m x y r da a cs).length = cs.length := by
  induction cs generalizing a with
  | nil => simp [moveChildren]
  | cons c cs ih => simp [moveChildren, ih]

theorem moveChildren_getElem? (m : Libm R) (x y r da a : R) (cs : List (Circle R)) (i : Nat)
    (c : Circle R) (hc : cs[i]? = some c) :
    (moveChildren m x y r da a cs)[i]?
      = some (c.move (x + r * m.cos (a + i * da)) (y + r * m.sin (a + i * da))) := by
  induction cs generalizing a i with
  | nil => simp at hc
  | cons c0 cs ih =>
    cases i with
    | zero =>
      simp only [List.getElem?_cons_zero, Option.some.injEq] at hc
      subst hc
      simp [moveChildren]
    | succ i =>
      simp only [List.getElem?_cons_succ] at hc
      simp only [moveChildren, List.getElem?_cons_succ]
      rw [ih (a + da) i hc]
      have e : a + da + (i : R) * da = a + ((i + 1 : Nat) : R) * da := by push_cast; ring
      rw [e]

/-- What the solver loop returns, when it returns: the circle keeps its data
except for the radius, its children are translates of the children it started
from, child `i` is centred at `(x + r*cos(a + i*da), y + r*sin(a + i*da))`, and
the exit test of the loop holds for the returned geometry. -/
theorem solve_spec (m : Libm R) (da rr : R) (fuel : Nat) (d : CircleData R)
    (cs : List (Circle R)) (c1 : Circle R) (h : solve m da rr fuel d cs = .ok c1) :
    ∃ r, c1.data = { d with r := r } ∧
      c1.circles.length = cs.length ∧
      (∀ (i : Nat) (c : Circle R), cs[i]? = some c → ∃ c2, c1.circles[i]? = some c2 ∧ IsTranslate c c2 ∧
        c2.center = (d.c.1 + r * m.cos (d.a + i * da), d.c.2 + r * m.sin (d.a + i * da))) ∧
      |c1.closestCircleCircleDistance m / 2 - rr| < 1 / 1000 := by
  induction fuel generalizing d cs with
  | zero => simp [solve] at h
  | succ fuel ih =>
    simp only [solve] at h
    have hstep : ∀ (i : Nat) (c : Circle R), cs[i]? = some c →
        (moveChildren m d.c.1 d.c.2 d.r da d.a cs)[i]?
          = some (c.move (d.c.1 + d.r * m.cos (d.a + i * da))
              (d.c.2 + d.r * m.sin (d.a + i * da))) :=
      fun i c hc => moveChildren_getElem? m _ _ _ da d.a cs i c hc
    split at h
    · rename_i hbreak
      simp only [Except.ok.injEq] at h
      subst h
      refine ⟨d.r, rfl, moveChildren_length _ _ _ _ _ _ _, ?_, hbreak⟩
      intro i c hc
      exact ⟨_, hstep i c hc, IsTranslate.move _ _ _, move_center _ _ _⟩
    · have hrec : ∀ (r1 : R),
          solve m da rr fuel { d with r := r1 } (moveChildren m d.c.1 d.c.2 d.r da d.a cs)
            = .ok c1 →
          ∃ r, c1.data = { d with r := r } ∧ c1.circles.length = cs.length ∧
            (∀ (i : Nat) (c : Circle R), cs[i]? = some c → ∃ c2, c1.circles[i]? = some c2 ∧ IsTranslate c c2 ∧
              c2.center
                = (d.c.1 + r * m.cos (d.a + i * da), d.c.2 + r * m.sin (d.a + i * da))) ∧
            |c1.closestCircleCircleDistance m / 2 - rr| < 1 / 1000 := by
        intro r1 h1
        obtain ⟨r, hd, hlen, hkids, hexit⟩ := ih _ _ h1
        refine ⟨r, hd, by rw [hlen, moveChildren_length], ?_, hexit⟩
        intro i c hc
        obtain ⟨c2, hc2, ht, hcen⟩ := hkids i _ (hstep i c hc)
        exact ⟨c2, hc2, (IsTranslate.move _ _ _).trans ht, hcen⟩
      split at h
      · exact hrec _ h
      · exact hrec _ h

theorem placeChildren_spec (m : Libm R) (fuel : Nat) (two : Bool) (da a : R)
    (cs cs1 : List (Circle R)) (h : placeChildren m fuel two da a cs = .ok cs1) :
    cs1.length = cs.length ∧
    ∀ (i : Nat) (c : Circle R), cs[i]? = some c → ∃ c1, cs1[i]? = some c1 ∧
      placeSetA m fuel
        (if two && decide (c.size = 2) then a + i * da + m.pi / 2 else a + i * da) c = .ok c1 := by
  induction cs generalizing a cs1 with
  | nil =>
    simp only [placeChildren, Except.ok.injEq] at h
    subst h
    simp
  | cons c0 cs ih =>
    simp only [placeChildren] at h
    split at h
    · cases h
    · rename_i c1 h0
      split at h
      · cases h
      · rename_i cs2 h1
        simp only [Except.ok.injEq] at h
        subst h
        obtain ⟨hlen, hk⟩ := ih (a + da) cs2 h1
        refine ⟨by simp [hlen], ?_⟩
        intro i c hc
        cases i with
        | zero =>
          simp only [List.getElem?_cons_zero, Option.some.injEq] at hc
          subst hc
          refine ⟨c1, by simp, ?_⟩
          simpa using h0
        | succ i =>
          simp only [List.getElem?_cons_succ] at hc
          obtain ⟨c2, hc2, hp2⟩ := hk i c hc
          refine ⟨c2, by simpa using hc2, ?_⟩
          have e : a + da + (i : R) * da = a + ((i + 1 : Nat) : R) * da := by push_cast; ring
          rw [e] at hp2
          exact hp2

theorem placeSetA_internal (m : Libm R) (fuel : Nat) (a : R) (d : CircleData R)
    (c0 : Circle R) (cs0 : List (Circle R)) (c1 : Circle R)
    (h : placeSetA m fuel a (.mk d (c0 :: cs0)) = .ok c1) :
    ∃ cs1, placeChildren m fuel (decide (max (c0 :: cs0).length d.points.length = 2))
        (2 * m.pi / ((c0 :: cs0).length : Nat)) a (c0 :: cs0) = .ok cs1 ∧
      solve m (2 * m.pi / ((c0 :: cs0).length : Nat)) (minChildDistance m cs1 / 2) fuel
        { d with a := a, c := (1 / 2, 1 / 2), r := 1 / 2 } cs1 = .ok c1 := by
  simp only [placeSetA] at h
  split at h
  · cases h
  · rename_i cs1 h1
    exact ⟨cs1, h1, h⟩

theorem placeSetA_top (m : Libm R) (fuel : Nat) (a : R) (c c1 : Circle R)
    (h : placeSetA m fuel a c = .ok c1) :
    c1.a = a ∧ c1.circles.length = c.circles.length ∧ c1.points.length = c.points.length := by
  obtain ⟨d, cs⟩ := c
  cases cs with
  | nil =>
    simp only [placeSetA] at h
    split at h
    · simp only [Except.ok.injEq] at h
      subst h
      simp [Circle.a, Circle.circles, Circle.points, Circle.data, placePoints_length]
    · split at h
      · cases h
      · rename_i p ps hps
        simp only [Except.ok.injEq] at h
        subst h
        simp [Circle.a, Circle.circles, Circle.points, Circle.data, hps]
  | cons c0 cs0 =>
    obtain ⟨cs1, hpc, hs⟩ := placeSetA_internal m fuel a d c0 cs0 c1 h
    obtain ⟨r, hd, hlen, -, -⟩ := solve_spec m _ _ fuel _ cs1 c1 hs
    have hl := (placeChildren_spec m fuel _ _ a _ cs1 hpc).1
    refine ⟨?_, ?_, ?_⟩
    · show c1.data.a = a
      rw [hd]
    · rw [hlen, hl]
      rfl
    · show c1.data.points.length = d.points.length
      rw [hd]

theorem placeSetA_size (m : Libm R) (fuel : Nat) (a : R) (c c1 : Circle R)
    (h : placeSetA m fuel a c = .ok c1) : c1.size = c.size := by
  obtain ⟨-, h1, h2⟩ := placeSetA_top m fuel a c c1 h
  simp only [Circle.size, h1, h2]

theorem minChildDistance_congr (m : Libm R) (cs cs1 : List (Circle R))
    (hlen : cs1.length = cs.length)
    (h : ∀ (i : Nat) (c : Circle R), cs[i]? = some c →
      ∃ c1, cs1[i]? = some c1 ∧ c1.closestPointDistance m = c.closestPointDistance m) :
    minChildDistance m cs1 = minChildDistance m cs := by
  have key : ∀ (d0 : R), cs1.foldl (fun d c => min d (c.closestPointDistance m)) d0
      = cs.foldl (fun d c => min d (c.closestPointDistance m)) d0 := by
    induction cs generalizing cs1 with
    | nil =>
      intro d0
      have : cs1 = [] := List.length_eq_zero.mp (by simpa using hlen)
      subst this
      rfl
    | cons c cs ih =>
      intro d0
      cases cs1 with
      | nil => simp at hlen
      | cons c1 cs1 =>
        obtain ⟨c2, hc2, he⟩ := h 0 c (by simp)
        simp only [List.getElem?_cons_zero, Option.some.injEq] at hc2
        subst hc2
        simp only [List.foldl_cons, he]
        apply ih cs1 (by simpa using hlen)
        intro i c3 hc3
        simpa using h (i + 1) c3 (by simpa using hc3)
  exact key _

/-- What `place()` leaves behind on a circle with children, when it returns. -/
theorem place_internal (m : Libm R) (fuel : Nat) (c c1 : Circle R)
    (h : c.place m fuel = .ok c1) (hk : c.circles ≠ []) :
    ∃ r, c1.data = { c.data with c := (1 / 2, 1 / 2), r := r } ∧
      c1.circles.length = c.circles.length ∧
      (∀ (i : Nat) (c0 : Circle R), c.circles[i]? = some c0 → ∃ cp c2,
        placeSetA m fuel
          (if decide (c.size = 2) && decide (c0.size = 2)
            then c.a + i * (2 * m.pi / c.circles.length) + m.pi / 2
            else c.a + i * (2 * m.pi / c.circles.length)) c0 = .ok cp ∧
        c1.circles[i]? = some c2 ∧ IsTranslate cp c2 ∧
        c2.center = (1 / 2 + r * m.cos (c.a + i * (2 * m.pi / c.circles.length)),
                     1 / 2 + r * m.sin (c.a + i * (2 * m.pi / c.circles.length)))) ∧
      |c1.closestCircleCircleDistance m / 2 - minChildDistance m c1.circles / 2| < 1 / 1000 := by
  obtain ⟨d, cs⟩ := c
  cases cs with
  | nil => exact absurd rfl hk
  | cons c0 cs0 =>
    obtain ⟨cs1, hpc, hs⟩ := placeSetA_internal m fuel d.a d c0 cs0 c1 h
    obtain ⟨hl, hkids⟩ := placeChildren_spec m fuel _ _ d.a _ cs1 hpc
    obtain ⟨r, hd, hlen, hmoved, hexit⟩ := solve_spec m _ _ fuel _ cs1 c1 hs
    have hmin : minChildDistance m c1.circles = minChildDistance m cs1 := by
      apply minChildDistance_congr m cs1 c1.circles hlen
      intro i cp hcp
      obtain ⟨c2, hc2, ht, -⟩ := hmoved i cp hcp
      exact ⟨c2, hc2, ht.closestPointDistance_eq m⟩
    refine ⟨r, hd, by rw [hlen, hl]; rfl, ?_, by rw [hmin]; exact hexit⟩
    intro i ci hci
    obtain ⟨cp, hcp, hplace⟩ := hkids i ci hci
    obtain ⟨c2, hc2, ht, hcen⟩ := hmoved i cp hcp
    exact ⟨cp, c2, hplace, hc2, ht, hcen⟩

theorem minSqDistFrom_le (p : Point R) (d : R) (ps : List (Point R)) :
    minSqDistFrom p d ps ≤ d := by
  induction ps generalizing d with
  | nil => simp [minSqDistFrom]
  | cons q ps ih =>
    simp only [minSqDistFrom, List.foldl_cons] at ih ⊢
    refine le_trans (ih _) ?_
    split
    · exact le_of_lt ‹_›
    · exact le_refl _

theorem minSqDist_le (d : R) (ps : List (Point R)) : minSqDist d ps ≤ d := by
  induction ps generalizing d with
  | nil => simp [minSqDist]
  | cons p ps ih =>
    simp only [minSqDist]
    exact le_trans (ih _) (minSqDistFrom_le p d ps)

theorem foldl_min_le_init (m : Libm R) (cs : List (Circle R)) (d0 : R) :
    cs.foldl (fun d c => min d (c.closestPointDistance m)) d0 ≤ d0 := by
  induction cs generalizing d0 with
  | nil => simp
  | cons c cs ih =>
    simp only [List.foldl_cons]
    exact le_trans (ih _) (min_le_left _ _)

theorem foldl_min_le_mem (m : Libm R) (cs : List (Circle R)) (d0 : R) :
    ∀ c ∈ cs, cs.foldl (fun d c => min d (c.closestPointDistance m)) d0
      ≤ c.closestPointDistance m := by
  induction cs generalizing d0 with
  | nil => simp
  | cons c0 cs ih =>
    intro c hc
    simp only [List.foldl_cons]
    rcases List.mem_cons.mp hc with rfl | hmem
    · exact le_trans (foldl_min_le_init m cs _) (min_le_right _ _)
    · exact ih _ c hmem

theorem foldl_min_attained (m : Libm R) (cs : List (Circle R)) (d0 : R) :
    cs.foldl (fun d c => min d (c.closestPointDistance m)) d0 = d0 ∨
    ∃ c ∈ cs, cs.foldl (fun d c => min d (c.closestPointDistance m)) d0
      = c.closestPointDistance m := by
  induction cs generalizing d0 with
  | nil => simp
  | cons c0 cs ih =>
    simp only [List.foldl_cons]
    rcases ih (min d0 (c0.closestPointDistance m)) with h | ⟨c, hc, h⟩
    · rcases min_choice d0 (c0.closestPointDistance m) with h1 | h1
      · left
        rw [h, h1]
      · right
        exact ⟨c0, List.mem_cons_self _ _, by rw [h, h1]⟩
    · right
      exact ⟨c, List.mem_cons_of_mem _ hc, h⟩

/-- With a monotone `sqrt` that maps the sentinel `1E50` to at most `1E50`,
the value the loop over the children computes from `d = 1E50` is the least
`closestPointDistance` of a child. -/
theorem minChildDistance_isLeast (m : Libm R) (cs : List (Circle R)) (hne : cs ≠ [])
    (hmono : ∀ x y, x ≤ y → m.sqrt x ≤ m.sqrt y)
    (hbig : m.sqrt ((10 : R) ^ 50) ≤ (10 : R) ^ 50) :
    ∃ c ∈ cs, minChildDistance m cs = c.closestPointDistance m ∧
      ∀ c2 ∈ cs, c.closestPointDistance m ≤ c2.closestPointDistance m := by
  have hle : ∀ c : Circle R, c.closestPointDistance m ≤ (10 : R) ^ 50 := fun c =>
    le_trans (hmono _ _ (minSqDist_le _ _)) hbig
  rcases foldl_min_attained m cs ((10 : R) ^ 50) with h | ⟨c, hc, h⟩
  · obtain ⟨c, hc⟩ := List.exists_mem_of_ne_nil cs hne
    have h1 := foldl_min_le_mem m cs ((10 : R) ^ 50) c hc
    have h2 : minChildDistance m cs = c.closestPointDistance m :=
      le_antisymm h1 (by rw [minChildDistance, h]; exact hle c)
    refine ⟨c, hc, h2, fun c2 hc2 => ?_⟩
    rw [← h2]
    exact foldl_min_le_mem m cs _ c2 hc2
  · refine ⟨c, hc, h, fun c2 hc2 => ?_⟩
    rw [← h]
    exact foldl_min_le_mem m cs _ c2 hc2

/-- C5: whenever `place()` returns on a circle with `k >= 1` children, with `r`
the final radius: the centre is (0.5, 0.5), child `i` is centred at
`(0.5 + r*cos(a + i*2*pi/k), 0.5 + r*sin(a + i*2*pi/k))`, and for `rr` half the
least `closestPointDistance` of a child (the value the code computes, for a
monotone `sqrt` with `sqrt(1E50) <= 1E50`) the returned geometry satisfies
`|closestCircleCircleDistance()/2 - rr| < 1e-3`. -/
theorem place_converged (m : Libm R) (fuel : Nat) (c c1 : Circle R)
    (hmono : ∀ x y, x ≤ y → m.sqrt x ≤ m.sqrt y)
    (hbig : m.sqrt ((10 : R) ^ 50) ≤ (10 : R) ^ 50)
    (h : c.place m fuel = .ok c1) (hk : c.circles ≠ []) :
    c1.center = (1 / 2, 1 / 2) ∧ c1.a = c.a ∧ c1.circles.length = c.circles.length ∧
    (∀ (i : Nat) (child : Circle R), c1.circles[i]? = some child →
      child.center = (1 / 2 + c1.r * m.cos (c.a + i * (2 * m.pi / c.circles.length)),
                      1 / 2 + c1.r * m.sin (c.a + i * (2 * m.pi / c.circles.length)))) ∧
    ∃ least ∈ c1.circles,
      (∀ child ∈ c1.circles, least.closestPointDistance m ≤ child.closestPointDistance m) ∧
      minChildDistance m c1.circles = least.closestPointDistance m ∧
      |c1.closestCircleCircleDistance m / 2 - least.closestPointDistance m / 2| < 1 / 1000 := by
  obtain ⟨r, hd, hlen, hkids, hexit⟩ := place_internal m fuel c c1 h hk
  have hr : c1.r = r := by rw [Circle.r, hd]
  have hne1 : c1.circles ≠ [] := by
    intro h0
    rw [h0] at hlen
    exact hk (List.length_eq_zero.mp hlen.symm)
  refine ⟨by rw [Circle.center, hd], by rw [Circle.a, hd]; rfl, hlen, ?_, ?_⟩
  · intro i child hchild
    have hi : i < c.circles.length := by
      rw [← hlen]
      exact (List.getElem?_eq_some_iff.mp hchild).1
    obtain ⟨cp, c2, -, hc2, -, hcen⟩ := hkids i _ (List.getElem?_eq_getElem hi)
    rw [hchild, Option.some.injEq] at hc2
    subst hc2
    rw [hr]
    exact hcen
  · obtain ⟨least, hmem, heq, hleast⟩ := minChildDistance_isLeast m c1.circles hne1 hmono hbig
    exact ⟨least, hmem, hleast, heq, by rw [← heq]; exact hexit⟩

/-- C9: whenever `place()` returns on a circle with `k >= 1` children and angle
offset `a`, the `i`-th child ends with angle offset `a + i*2*pi/k`, plus `pi/2`
exactly when the circle's size is 2 and that child's size is 2; the child keeps
its size; and the child is centred in the direction `a + i*2*pi/k`, which does
not contain the extra rotation. -/
theorem place_child_angles (m : Libm R) (fuel : Nat) (c c1 : Circle R)
    (h : c.place m fuel = .ok c1) (hk : c.circles ≠ []) :
    c1.circles.length = c.circles.length ∧
    ∀ (i : Nat) (child0 child : Circle R),
      c.circles[i]? = some child0 → c1.circles[i]? = some child →
      child.a = c.a + i * (2 * m.pi / c.circles.length)
        + (if c.size = 2 ∧ child0.size = 2 then m.pi / 2 else 0) ∧
      child.size = child0.size ∧
      child.center = (1 / 2 + c1.r * m.cos (c.a + i * (2 * m.pi / c.circles.length)),
                      1 / 2 + c1.r * m.sin (c.a + i * (2 * m.pi / c.circles.length))) := by
  obtain ⟨r, hd, hlen, hkids, -⟩ := place_internal m fuel c c1 h hk
  have hr : c1.r = r := by rw [Circle.r, hd]
  refine ⟨hlen, ?_⟩
  intro i child0 child h0 h1
  obtain ⟨cp, c2, hplace, hc2, ht, hcen⟩ := hkids i child0 h0
  rw [h1, Option.some.injEq] at hc2
  subst hc2
  obtain ⟨ha, -, -⟩ := placeSetA_top m fuel _ child0 cp hplace
  refine ⟨?_, ?_, by rw [hr]; exact hcen⟩
  · rw [ht.a_eq, ha]
    by_cases h2 : c.size = 2 ∧ child0.size = 2
    · simp [h2.1, h2.2]
    · rw [if_neg h2]
      by_cases h3 : c.size = 2
      · have h4 : ¬ child0.size = 2 := fun h4 => h2 ⟨h3, h4⟩
        simp [h3, h4]
      · simp [h3]
  · rw [ht.size_eq, placeSetA_size m fuel _ child0 cp hplace]

theorem real_trig_values :
    Real.cos (Real.pi / 2) = 0 ∧ Real.sin (Real.pi / 2) = 1 ∧
    Real.cos (Real.pi / 2 + Real.pi) = 0 ∧ Real.sin (Real.pi / 2 + Real.pi) = -1 ∧
    Real.cos (Real.pi + Real.pi / 2) = 0 ∧ Real.sin (Real.pi + Real.pi / 2) = -1 ∧
    Real.cos (Real.pi + Real.pi / 2 + Real.pi) = 0 ∧
    Real.sin (Real.pi + Real.pi / 2 + Real.pi) = 1 := by
  refine ⟨Real.cos_pi_div_two, Real.sin_pi_div_two, ?_, ?_, ?_, ?_, ?_, ?_⟩
  · rw [Real.cos_add_pi, Real.cos_pi_div_two, neg_zero]
  · rw [Real.sin_add_pi, Real.sin_pi_div_two]
  · rw [Real.cos_add_pi_div_two, Real.sin_pi, neg_zero]
  · rw [Real.sin_add_pi_div_two, Real.cos_pi]
  · rw [Real.cos_add_pi, Real.cos_add_pi_div_two, Real.sin_pi, neg_zero, neg_zero]
  · rw [Real.sin_add_pi, Real.sin_add_pi_div_two, Real.cos_pi, neg_neg]

/-- The run of `place()` on the tree built for the factors [2, 2], with root
angle offset 0, over the reals: the solver leaves its loop in the first
iteration, at radius 0.5. -/
theorem place_two_two (fuel : Nat) :
    (built (Defaults.sample ℝ) [2, 2] (Circle.new (Defaults.sample ℝ) 0) 0).place
      ⟨Real.cos, Real.sin, Real.sqrt, Real.pi⟩ (fuel + 1)
    = .ok (Circle.mk
        { n := 0, id := 0, a := 0, c := (1 / 2, 1 / 2), r := 1 / 2, xc := 0, yc := 0, points := [] }
        [Circle.mk { n := 0, id := 0, a := Real.pi / 2, c := (1, 1 / 2), r := 1 / 2, xc := 0,
                     yc := 0, points := [(0, 1), (0, -1)] } [],
         Circle.mk { n := 1, id := 2, a := Real.pi + Real.pi / 2, c := (0, 1 / 2), r := 1 / 2,
                     xc := 0, yc := 0, points := [(0, -1), (0, 1)] } []]) := by
  obtain ⟨h1, h2, h3, h4, h5, h6, h7, h8⟩ := real_trig_values
  have e2 : (2 : ℝ) * Real.pi / ((2 : Nat) : ℝ) = Real.pi := by push_cast; ring
  simp only [built, Circle.new, Defaults.sample, List.range, List.range.loop, List.map,
    List.nil_append, Int.toNat, List.prod_cons, List.prod_nil, List.replicate,
    Circle.place, Circle.a, Circle.data, placeSetA, placeChildren, List.length, Circle.size,
    Circle.circles, Circle.points, placePoints]
  norm_num [e2, h1, h2, h3, h4, h5, h6, h7, h8]
  simp only [minChildDistance, List.foldl, Circle.closestPointDistance, Circle.getPoints,
    Circle.getPointsList, List.map, List.nil_append, Circle.getPointOf, minSqDist, minSqDistFrom,
    sqDist]
  norm_num
  simp only [solve, moveChildren, Circle.move, Circle.moveBy, Circle.moveByList, Circle.x,
    Circle.y, Circle.data, Circle.closestCircleCircleDistance, Circle.getCirclePoints,
    Circle.getCirclePointsList, List.map, List.nil_append, List.append_nil, List.cons_append,
    Circle.getPointOf,
    minSqDistCC, minSqDistCCFrom, List.foldl, sqDist, Real.cos_zero, Real.sin_zero, zero_add,
    Real.cos_pi, Real.sin_pi]
  norm_num


theorem real_sqrt_sentinel : Real.sqrt ((10 : ℝ) ^ 50) ≤ (10 : ℝ) ^ 50 := by
  rw [Real.sqrt_le_iff]
  constructor
  · positivity
  · have h : (1 : ℝ) ≤ (10 : ℝ) ^ 50 := one_le_pow₀ (by norm_num)
    nlinarith

/-- C5 on the tree built for the factors [2, 2], over the reals. -/
theorem place_converged_witness :
    ∃ c1, (built (Defaults.sample ℝ) [2, 2] (Circle.new (Defaults.sample ℝ) 0) 0).place
        ⟨Real.cos, Real.sin, Real.sqrt, Real.pi⟩ 1 = .ok c1 ∧
      c1.center = (1 / 2, 1 / 2) ∧ c1.a = 0 ∧ c1.circles.length = 2 ∧
      (∀ (i : Nat) (child : Circle ℝ), c1.circles[i]? = some child →
        child.center = (1 / 2 + c1.r * Real.cos (0 + i * (2 * Real.pi / (2 : Nat))),
                        1 / 2 + c1.r * Real.sin (0 + i * (2 * Real.pi / (2 : Nat))))) ∧
      ∃ least ∈ c1.circles,
        (∀ child ∈ c1.circles,
          least.closestPointDistance ⟨Real.cos, Real.sin, Real.sqrt, Real.pi⟩
            ≤ child.closestPointDistance ⟨Real.cos, Real.sin, Real.sqrt, Real.pi⟩) ∧
        minChildDistance ⟨Real.cos, Real.sin, Real.sqrt, Real.pi⟩ c1.circles
          = least.closestPointDistance ⟨Real.cos, Real.sin, Real.sqrt, Real.pi⟩ ∧
        |c1.closestCircleCircleDistance ⟨Real.cos, Real.sin, Real.sqrt, Real.pi⟩ / 2
          - least.closestPointDistance ⟨Real.cos, Real.sin, Real.sqrt, Real.pi⟩ / 2| < 1 / 1000 :=
  ⟨_, place_two_two 0,
   place_converged ⟨Real.cos, Real.sin, Real.sqrt, Real.pi⟩ 1 _ _
     (fun _ _ hxy => Real.sqrt_le_sqrt hxy) real_sqrt_sentinel (place_two_two 0)
     (by simp [built, Circle.circles])⟩

/-- C9 on the tree built for the factors [2, 2], over the reals: the root and
both children have size 2, so both children get the extra quarter turn. -/
theorem place_child_angles_witness :
    ∃ c1, (built (Defaults.sample ℝ) [2, 2] (Circle.new (Defaults.sample ℝ) 0) 0).place
        ⟨Real.cos, Real.sin, Real.sqrt, Real.pi⟩ 1 = .ok c1 ∧
      c1.circles.length = 2 ∧
      ∀ (i : Nat) (child0 child : Circle ℝ),
        (built (Defaults.sample ℝ) [2, 2] (Circle.new (Defaults.sample ℝ) 0) 0).circles[i]?
          = some child0 →
        c1.circles[i]? = some child →
        child.a = 0 + i * (2 * Real.pi / (2 : Nat))
          + (if (2 : Nat) = 2 ∧ child0.size = 2 then Real.pi / 2 else 0) ∧
        child.size = child0.size ∧
        child.center = (1 / 2 + c1.r * Real.cos (0 + i * (2 * Real.pi / (2 : Nat))),
                        1 / 2 + c1.r * Real.sin (0 + i * (2 * Real.pi / (2 : Nat)))) :=
  ⟨_, place_two_two 0,
   place_child_angles ⟨Real.cos, Real.sin, Real.sqrt, Real.pi⟩ 1 _ _ (place_two_two 0)
     (by simp [built, Circle.circles])⟩

end PlaceTheorems
/-! ## Theorems: fit -/

section FitTheorems

variable {R : Type} [LinearOrderedField R]

theorem fitLoop_d (st : FitState R) (ps : List (Point R)) :
    (fitLoop st ps).d = minSqDist st.d ps := by
  induction ps generalizing st with
  | nil => rfl
  | cons p ps ih => simp only [fitLoop, minSqDist, ih]

theorem fitLoop_box (st : FitState R) (ps : List (Point R)) :
    ((fitLoop st ps).xmin ≤ st.xmin ∧ st.xmax ≤ (fitLoop st ps).xmax ∧
     (fitLoop st ps).ymin ≤ st.ymin ∧ st.ymax ≤ (fitLoop st ps).ymax) ∧
    ∀ p ∈ ps, (fitLoop st ps).xmin ≤ p.1 ∧ p.1 ≤ (fitLoop st ps).xmax ∧
      (fitLoop st ps).ymin ≤ p.2 ∧ p.2 ≤ (fitLoop st ps).ymax := by
  induction ps generalizing st with
  | nil => simp [fitLoop]
  | cons p0 ps ih =>
    simp only [fitLoop]
    obtain ⟨⟨h1, h2, h3, h4⟩, hmem⟩ := ih
      { d := minSqDistFrom p0 st.d ps, xmin := min st.xmin p0.1, ymin := min st.ymin p0.2,
        xmax := max st.xmax p0.1, ymax := max st.ymax p0.2 }
    simp only at h1 h2 h3 h4
    refine ⟨⟨le_trans h1 (min_le_left _ _), le_trans (le_max_left _ _) h2,
      le_trans h3 (min_le_left _ _), le_trans (le_max_left _ _) h4⟩, ?_⟩
    intro p hp
    rcases List.mem_cons.mp hp with rfl | hp
    · exact ⟨le_trans h1 (min_le_right _ _), le_trans (le_max_right _ _) h2,
        le_trans h3 (min_le_right _ _), le_trans (le_max_right _ _) h4⟩
    · exact hmem p hp

/-- The fields of the result of `fit`, in terms of the final loop state. -/
theorem fit_fields (m : Libm R) (c : Circle R) :
    ∃ st : FitState R,
      st = fitLoop ({ d := 2, xmin := 1 / 2, ymin := 1 / 2, xmax := 1 / 2, ymax := 1 / 2 } :
        FitState R) c.getPoints ∧
      (c.fit m).s = (if 1 / 1000000 < st.d then m.sqrt st.d else 1 / (c.getPoints.length : R)) ∧
      (c.fit m).xmin = st.xmin - (c.fit m).s / 2 ∧
      (c.fit m).ymin = st.ymin - (c.fit m).s / 2 ∧
      (c.fit m).xmax = st.xmax + (c.fit m).s / 2 ∧
      (c.fit m).ymax = st.ymax + (c.fit m).s / 2 ∧
      (c.fit m).maxS = max ((c.fit m).xmax - (c.fit m).xmin) ((c.fit m).ymax - (c.fit m).ymin) := by
  obtain ⟨d, cs⟩ := c
  exact ⟨_, rfl, rfl, rfl, rfl, rfl, rfl, rfl⟩

/-- C6: for every tree with at least one leaf point (placed or not), and a
`sqrt` that is positive on positive arguments, `fit()` computes `s > 0` and an
expanded box such that every collected leaf point `p` satisfies
`xmin + s/2 <= p.x <= xmax - s/2` and `ymin + s/2 <= p.y <= ymax - s/2`; the
reported `maxS` is `max(xmax - xmin, ymax - ymin)`, so it is at least the
expanded width, the expanded height and `s`. -/
theorem fit_box (m : Libm R) (c : Circle R) (hne : c.getPoints ≠ [])
    (hsqrt : ∀ x, 0 < x → 0 < m.sqrt x) :
    0 < (c.fit m).s ∧
    (∀ p ∈ c.getPoints,
      (c.fit m).xmin + (c.fit m).s / 2 ≤ p.1 ∧ p.1 ≤ (c.fit m).xmax - (c.fit m).s / 2 ∧
      (c.fit m).ymin + (c.fit m).s / 2 ≤ p.2 ∧ p.2 ≤ (c.fit m).ymax - (c.fit m).s / 2) ∧
    (c.fit m).maxS = max ((c.fit m).xmax - (c.fit m).xmin) ((c.fit m).ymax - (c.fit m).ymin) ∧
    (c.fit m).xmax - (c.fit m).xmin ≤ (c.fit m).maxS ∧
    (c.fit m).ymax - (c.fit m).ymin ≤ (c.fit m).maxS ∧
    (c.fit m).s ≤ (c.fit m).maxS := by
  obtain ⟨st, hst, hs, hxmin, hymin, hxmax, hymax, hmax⟩ := fit_fields m c
  obtain ⟨⟨b1, b2, b3, b4⟩, hmem⟩ := fitLoop_box
    ({ d := 2, xmin := 1 / 2, ymin := 1 / 2, xmax := 1 / 2, ymax := 1 / 2 } : FitState R)
    c.getPoints
  rw [← hst] at b1 b2 b3 b4 hmem
  simp only at b1 b2 b3 b4
  have hpos : 0 < (c.fit m).s := by
    rw [hs]
    split
    · rename_i hd
      exact hsqrt _ (lt_trans (by norm_num) hd)
    · have hlen : 0 < c.getPoints.length := List.length_pos.mpr hne
      have : (0 : R) < (c.getPoints.length : R) := by exact_mod_cast hlen
      positivity
  refine ⟨hpos, ?_, hmax, ?_, ?_, ?_⟩
  · intro p hp
    obtain ⟨m1, m2, m3, m4⟩ := hmem p hp
    rw [hxmin, hymin, hxmax, hymax]
    exact ⟨by linarith, by linarith, by linarith, by linarith⟩
  · rw [hmax]
    exact le_max_left _ _
  · rw [hmax]
    exact le_max_right _ _
  · rw [hmax]
    refine le_trans ?_ (le_max_left _ _)
    rw [hxmin, hxmax]
    linarith

/-- C6 on the placed leaf of the prime 2, over the reals. -/
theorem fit_box_witness :
    (Circle.mk (R := ℝ)
      ⟨0, 0, 0, (1 / 2, 1 / 2), 1 / 2, 0, 0, [(1, 0), (-1, 0)]⟩ []).getPoints ≠ [] ∧
    (∀ x : ℝ, 0 < x → 0 < Real.sqrt x) ∧
    0 < ((Circle.mk (R := ℝ) ⟨0, 0, 0, (1 / 2, 1 / 2), 1 / 2, 0, 0, [(1, 0), (-1, 0)]⟩ []).fit
          ⟨Real.cos, Real.sin, Real.sqrt, Real.pi⟩).s :=
  ⟨by simp [Circle.getPoints], fun _ hx => Real.sqrt_pos.mpr hx,
   (fit_box ⟨Real.cos, Real.sin, Real.sqrt, Real.pi⟩ _ (by simp [Circle.getPoints])
     (fun _ hx => Real.sqrt_pos.mpr hx)).1⟩

theorem real_trig_thirds :
    Real.cos (0 + 2 * Real.pi / ((3 : Nat) : ℝ)) = -(1 / 2) ∧
    Real.sin (0 + 2 * Real.pi / ((3 : Nat) : ℝ)) = Real.sqrt 3 / 2 ∧
    Real.cos (0 + 2 * Real.pi / ((3 : Nat) : ℝ) + 2 * Real.pi / ((3 : Nat) : ℝ)) = -(1 / 2) ∧
    Real.sin (0 + 2 * Real.pi / ((3 : Nat) : ℝ) + 2 * Real.pi / ((3 : Nat) : ℝ))
      = -(Real.sqrt 3 / 2) := by
  have e1 : 0 + 2 * Real.pi / ((3 : Nat) : ℝ) = Real.pi - Real.pi / 3 := by push_cast; ring
  have e2 : 0 + 2 * Real.pi / ((3 : Nat) : ℝ) + 2 * Real.pi / ((3 : Nat) : ℝ)
      = Real.pi / 3 + Real.pi := by push_cast; ring
  rw [e2, e1, Real.cos_pi_sub, Real.sin_pi_sub, Real.cos_add_pi, Real.sin_add_pi,
    Real.cos_pi_div_three, Real.sin_pi_div_three]
  exact ⟨rfl, rfl, rfl, rfl⟩

/-- The run of `place()` on the leaf built for the prime 3, with angle offset 0,
over the reals. -/
theorem place_three :
    (addPoints 3 (Circle.new (Defaults.sample ℝ) 0)).place
      ⟨Real.cos, Real.sin, Real.sqrt, Real.pi⟩ 0
    = .ok (Circle.mk
        { n := 0, id := 0, a := 0, c := (1 / 2, 1 / 2), r := 1 / 2, xc := 0, yc := 0,
          points := [(1, 0), (-(1 / 2), Real.sqrt 3 / 2), (-(1 / 2), -(Real.sqrt 3 / 2))] }
        []) := by
  obtain ⟨h1, h2, h3, h4⟩ := real_trig_thirds
  simp only [addPoints, Circle.addPoint, Circle.new, Defaults.sample, List.nil_append,
    List.cons_append, Circle.place, Circle.a, Circle.data, placeSetA, List.length, placePoints,
    h1, h2, h3, h4, Real.cos_zero, Real.sin_zero]
  norm_num

theorem three_points_facts :
    minSqDist (2 : ℝ)
      [(1 / 2 + 1 / 2 * 1, 1 / 2 + 1 / 2 * 0),
       (1 / 2 + 1 / 2 * -(1 / 2), 1 / 2 + 1 / 2 * (Real.sqrt 3 / 2)),
       (1 / 2 + 1 / 2 * -(1 / 2), 1 / 2 + 1 / 2 * -(Real.sqrt 3 / 2))] = 3 / 4 ∧
    specDmin ⟨Real.cos, Real.sin, Real.sqrt, Real.pi⟩
      [((1 : ℝ) / 2 + 1 / 2 * 1, (1 : ℝ) / 2 + 1 / 2 * 0),
       (1 / 2 + 1 / 2 * -(1 / 2), 1 / 2 + 1 / 2 * (Real.sqrt 3 / 2)),
       (1 / 2 + 1 / 2 * -(1 / 2), 1 / 2 + 1 / 2 * -(Real.sqrt 3 / 2))]
      = some (Real.sqrt (3 / 4)) := by
  have hs : Real.sqrt 3 * Real.sqrt 3 = 3 := Real.mul_self_sqrt (by norm_num)
  have h01 : sqDist ((1 : ℝ) / 2 + 1 / 2 * 1, (1 : ℝ) / 2 + 1 / 2 * 0)
      (1 / 2 + 1 / 2 * -(1 / 2), 1 / 2 + 1 / 2 * (Real.sqrt 3 / 2)) = 3 / 4 := by
    simp only [sqDist]
    linear_combination (1 / 16) * hs
  have h02 : sqDist ((1 : ℝ) / 2 + 1 / 2 * 1, (1 : ℝ) / 2 + 1 / 2 * 0)
      (1 / 2 + 1 / 2 * -(1 / 2), 1 / 2 + 1 / 2 * -(Real.sqrt 3 / 2)) = 3 / 4 := by
    simp only [sqDist]
    linear_combination (1 / 16) * hs
  have h12 : sqDist ((1 : ℝ) / 2 + 1 / 2 * -(1 / 2), (1 : ℝ) / 2 + 1 / 2 * (Real.sqrt 3 / 2))
      (1 / 2 + 1 / 2 * -(1 / 2), 1 / 2 + 1 / 2 * -(Real.sqrt 3 / 2)) = 3 / 4 := by
    simp only [sqDist]
    linear_combination (1 / 4) * hs
  have e01 : ((1 : ℝ) / 2 + 1 / 2 * 1 - (1 / 2 + 1 / 2 * -(1 / 2))) ^ 2
      + (1 / 2 + 1 / 2 * 0 - (1 / 2 + 1 / 2 * (Real.sqrt 3 / 2))) ^ 2 = 3 / 4 := by
    linear_combination (1 / 16) * hs
  have e02 : ((1 : ℝ) / 2 + 1 / 2 * 1 - (1 / 2 + 1 / 2 * -(1 / 2))) ^ 2
      + (1 / 2 + 1 / 2 * 0 - (1 / 2 + 1 / 2 * -(Real.sqrt 3 / 2))) ^ 2 = 3 / 4 := by
    linear_combination (1 / 16) * hs
  have e12 : ((1 : ℝ) / 2 + 1 / 2 * -(1 / 2) - (1 / 2 + 1 / 2 * -(1 / 2))) ^ 2
      + (1 / 2 + 1 / 2 * (Real.sqrt 3 / 2) - (1 / 2 + 1 / 2 * -(Real.sqrt 3 / 2))) ^ 2
      = 3 / 4 := by
    linear_combination (1 / 4) * hs
  constructor
  · simp only [minSqDist, minSqDistFrom, List.foldl, h01, h02, h12]
    norm_num
  · simp only [specDmin, specPairDistances, List.map, List.nil_append, List.cons_append,
      List.append_nil, e01, e02, e12, List.foldl, min_self]

/-- C7, counterexample: for the input 3 (a single leaf whose three points are
pairwise `sqrt(3/4)` apart) the minimum pairwise Euclidean distance `dmin` is
`sqrt(3/4) > 1e-6`, and `fit()` reports `s = dmin`, which is not `sqrt(dmin)`. -/
theorem fit_spacing_counterexample :
    ∃ c0 lastId1 c1 dmin,
      calcPrime (Circle.new (Defaults.sample ℝ) 0) 3 0 = .ok (c0, lastId1) ∧
      c0.place ⟨Real.cos, Real.sin, Real.sqrt, Real.pi⟩ 0 = .ok c1 ∧
      2 ≤ c1.getPoints.length ∧
      specDmin ⟨Real.cos, Real.sin, Real.sqrt, Real.pi⟩ c1.getPoints = some dmin ∧
      1 / 1000000 < dmin ∧
      (c1.fit ⟨Real.cos, Real.sin, Real.sqrt, Real.pi⟩).s = dmin ∧
      (c1.fit ⟨Real.cos, Real.sin, Real.sqrt, Real.pi⟩).s ≠ Real.sqrt dmin ∧
      some (c1.fit ⟨Real.cos, Real.sin, Real.sqrt, Real.pi⟩).s
        ≠ specMarkerSpacing ⟨Real.cos, Real.sin, Real.sqrt, Real.pi⟩ c1.getPoints := by
  obtain ⟨hd, hdmin⟩ := three_points_facts
  have hpts : (Circle.mk (R := ℝ)
        { n := 0, id := 0, a := 0, c := (1 / 2, 1 / 2), r := 1 / 2, xc := 0, yc := 0,
          points := [(1, 0), (-(1 / 2), Real.sqrt 3 / 2), (-(1 / 2), -(Real.sqrt 3 / 2))] }
        []).getPoints
      = [(1 / 2 + 1 / 2 * 1, 1 / 2 + 1 / 2 * 0),
         (1 / 2 + 1 / 2 * -(1 / 2), 1 / 2 + 1 / 2 * (Real.sqrt 3 / 2)),
         (1 / 2 + 1 / 2 * -(1 / 2), 1 / 2 + 1 / 2 * -(Real.sqrt 3 / 2))] := by
    simp only [Circle.getPoints, Circle.getPointsList, List.nil_append, List.map,
      Circle.getPointOf]
  have ht0 : (0 : ℝ) < Real.sqrt (3 / 4) := Real.sqrt_pos.mpr (by norm_num)
  have htt : Real.sqrt (3 / 4) * Real.sqrt (3 / 4) = 3 / 4 := Real.mul_self_sqrt (by norm_num)
  have hbig : (1 : ℝ) / 1000000 < Real.sqrt (3 / 4) := by nlinarith
  have hne : Real.sqrt (3 / 4) ≠ Real.sqrt (Real.sqrt (3 / 4)) := by
    intro h
    have h2 : Real.sqrt (Real.sqrt (3 / 4)) * Real.sqrt (Real.sqrt (3 / 4))
        = Real.sqrt (3 / 4) := Real.mul_self_sqrt (le_of_lt ht0)
    rw [← h, htt] at h2
    rw [← h2] at htt
    norm_num at htt
  have hs : ((Circle.mk (R := ℝ)
        { n := 0, id := 0, a := 0, c := (1 / 2, 1 / 2), r := 1 / 2, xc := 0, yc := 0,
          points := [(1, 0), (-(1 / 2), Real.sqrt 3 / 2), (-(1 / 2), -(Real.sqrt 3 / 2))] }
        []).fit ⟨Real.cos, Real.sin, Real.sqrt, Real.pi⟩).s = Real.sqrt (3 / 4) := by
    obtain ⟨st, hst, hs, -⟩ := fit_fields ⟨Real.cos, Real.sin, Real.sqrt, Real.pi⟩
      (Circle.mk (R := ℝ)
        { n := 0, id := 0, a := 0, c := (1 / 2, 1 / 2), r := 1 / 2, xc := 0, yc := 0,
          points := [(1, 0), (-(1 / 2), Real.sqrt 3 / 2), (-(1 / 2), -(Real.sqrt 3 / 2))] }
        [])
    have hstd : st.d = 3 / 4 := by rw [hst, fitLoop_d, hpts]; exact hd
    rw [hs, hstd, if_pos (by norm_num)]
  refine ⟨_, _, _, Real.sqrt (3 / 4), rfl, place_three, ?_, ?_, hbig, hs, ?_, ?_⟩
  · rw [hpts]
    simp
  · rw [hpts]
    exact hdmin
  · rw [hs]
    exact hne
  · rw [hs, specMarkerSpacing, hpts, hdmin, Option.map_some', if_pos hbig]
    intro h
    exact hne (Option.some.inj h)

theorem minSqDistFrom_le_mem (p : Point R) (d : R) (ps : List (Point R)) :
    ∀ q ∈ ps, minSqDistFrom p d ps ≤ sqDist p q := by
  induction ps generalizing d with
  | nil => simp
  | cons q0 ps ih =>
    intro q hq
    rcases List.mem_cons.mp hq with rfl | hmem
    · have h := minSqDistFrom_le p (if sqDist p q < d then sqDist p q else d) ps
      simp only [minSqDistFrom, List.foldl_cons] at h ⊢
      refine le_trans h ?_
      split
      · exact le_refl _
      · exact not_lt.mp ‹_›
    · have h := ih (if sqDist p q0 < d then sqDist p q0 else d) q hmem
      simpa only [minSqDistFrom, List.foldl_cons] using h

theorem minSqDistFrom_attained (p : Point R) (d : R) (ps : List (Point R)) :
    minSqDistFrom p d ps = d ∨ ∃ q ∈ ps, minSqDistFrom p d ps = sqDist p q := by
  induction ps generalizing d with
  | nil => simp [minSqDistFrom]
  | cons q0 ps ih =>
    have h := ih (if sqDist p q0 < d then sqDist p q0 else d)
    simp only [minSqDistFrom, List.foldl_cons] at h ⊢
    rcases h with h | ⟨q, hq, h⟩
    · by_cases hlt : sqDist p q0 < d
      · right
        exact ⟨q0, List.mem_cons_self _ _, by rw [h, if_pos hlt]⟩
      · left
        rw [h, if_neg hlt]
    · right
      exact ⟨q, List.mem_cons_of_mem _ hq, h⟩

omit [LinearOrderedField R] in
theorem pair_sublist_cons (p q x : Point R) (xs : List (Point R)) :
    List.Sublist [p, q] (x :: xs) ↔ List.Sublist [p, q] xs ∨ (p = x ∧ q ∈ xs) := by
  rw [List.sublist_cons_iff]
  constructor
  · rintro (h | ⟨r, hr, hsub⟩)
    · exact Or.inl h
    · simp only [List.cons.injEq] at hr
      obtain ⟨rfl, rfl⟩ := hr
      exact Or.inr ⟨rfl, List.singleton_sublist.mp hsub⟩
  · rintro (h | ⟨rfl, hq⟩)
    · exact Or.inl h
    · exact Or.inr ⟨[q], rfl, List.singleton_sublist.mpr hq⟩

theorem minSqDist_le_pair (d : R) (ps : List (Point R)) :
    ∀ p q, List.Sublist [p, q] ps → minSqDist d ps ≤ sqDist p q := by
  induction ps generalizing d with
  | nil =>
    intro p q h
    simp at h
  | cons x xs ih =>
    intro p q h
    simp only [minSqDist]
    rcases (pair_sublist_cons p q x xs).mp h with h | ⟨rfl, hq⟩
    · exact ih _ p q h
    · exact le_trans (minSqDist_le _ xs) (minSqDistFrom_le_mem p d xs q hq)

theorem minSqDist_attained (d : R) (ps : List (Point R)) :
    minSqDist d ps = d ∨ ∃ p q, List.Sublist [p, q] ps ∧ minSqDist d ps = sqDist p q := by
  induction ps generalizing d with
  | nil => simp [minSqDist]
  | cons x xs ih =>
    simp only [minSqDist]
    rcases ih (minSqDistFrom x d xs) with h | ⟨p, q, hsub, h⟩
    · rcases minSqDistFrom_attained x d xs with h1 | ⟨q, hq, h1⟩
      · left
        rw [h, h1]
      · right
        exact ⟨x, q, (pair_sublist_cons x q x xs).mpr (Or.inr ⟨rfl, hq⟩), by rw [h, h1]⟩
    · right
      exact ⟨p, q, (pair_sublist_cons p q x xs).mpr (Or.inl hsub), h⟩

/-- C7, amended: for every tree (placed or not), let `d` be the smaller of 2 and
the least value of `dx*dx + dy*dy` over the pairs of two collected leaf points
(`List.Sublist [p, q] getPoints` says that `p` is collected before `q`); then `fit()`
reports `s = sqrt(d)` when `d > 1e-6` and `s = 1/pointCount` otherwise.  So `d`
is a squared distance, and `s` is the least distance itself, capped at
`sqrt(2)`. -/
theorem fit_spacing (m : Libm R) (c : Circle R) :
    ∃ d, d ≤ 2 ∧
      (∀ p q, List.Sublist [p, q] c.getPoints → d ≤ sqDist p q) ∧
      (d = 2 ∨ ∃ p q, List.Sublist [p, q] c.getPoints ∧ d = sqDist p q) ∧
      (1 / 1000000 < d → (c.fit m).s = m.sqrt d) ∧
      (d ≤ 1 / 1000000 → (c.fit m).s = 1 / (c.getPoints.length : R)) := by
  obtain ⟨st, hst, hs, -⟩ := fit_fields m c
  have hd : st.d = minSqDist 2 c.getPoints := by rw [hst, fitLoop_d]
  refine ⟨st.d, ?_, ?_, ?_, ?_, ?_⟩
  · rw [hd]
    exact minSqDist_le _ _
  · rw [hd]
    exact minSqDist_le_pair _ _
  · rw [hd]
    exact minSqDist_attained _ _
  · intro h
    rw [hs, if_pos h]
  · intro h
    rw [hs, if_neg (not_lt.mpr h)]

end FitTheorems
/-! ## Theorems: safety of the builder, frame of fit, the single-point case -/

section MoreFitTheorems

variable {R : Type} [LinearOrderedField R]

/-- C19: for every non-empty factor sequence whose elements are all at least 1
(so it contains no 0), `calcFactors` returns a tree, on any circle and from any
counter: the embedding is a total function, and on such a sequence its result
is neither the error of an out-of-range factor read nor the error of the
failed `assert(n > 0)` of `calcPrime`, nor any other error. -/
theorem calcFactors_safe (dflt : Defaults R) (f : List Int) (root : Circle R) (lastId : Nat)
    (hne : f ≠ []) (hpos : ∀ x ∈ f, 1 ≤ x) :
    (∃ c lastId1, calcFactors dflt f root lastId = .ok (c, lastId1)) ∧
    calcFactors dflt f root lastId ≠ .error .factorOutOfRange ∧
    calcFactors dflt f root lastId ≠ .error .assertFailed ∧
    ∀ e, calcFactors dflt f root lastId ≠ .error e := by
  have h := calcFactors_eq_built dflt f hne hpos root lastId
  refine ⟨⟨_, _, h⟩, ?_, ?_, ?_⟩
  · rw [h]
    exact fun h0 => by cases h0
  · rw [h]
    exact fun h0 => by cases h0
  · intro e
    rw [h]
    exact fun h0 => by cases h0

/-- C19 at the factor sequence [2, 2, 3], over the rationals. -/
theorem calcFactors_safe_witness :
    (∃ c lastId1, calcFactors (Defaults.sample ℚ) [2, 2, 3]
        (Circle.new (Defaults.sample ℚ) 0) 0 = .ok (c, lastId1)) ∧
    calcFactors (Defaults.sample ℚ) [2, 2, 3] (Circle.new (Defaults.sample ℚ) 0) 0
      ≠ .error .factorOutOfRange ∧
    calcFactors (Defaults.sample ℚ) [2, 2, 3] (Circle.new (Defaults.sample ℚ) 0) 0
      ≠ .error .assertFailed ∧
    ∀ e, calcFactors (Defaults.sample ℚ) [2, 2, 3] (Circle.new (Defaults.sample ℚ) 0) 0
      ≠ .error e :=
  calcFactors_safe (Defaults.sample ℚ) [2, 2, 3] (Circle.new (Defaults.sample ℚ) 0) 0
    (by decide) (by decide)

/-- C15: `fit()` repositions nothing.  For every tree the circle left by `fit`
has the same child circles (hence every descendant unchanged) and the same
data members `n_`, `id_`, `a_`, `c_`, `r_`, `points_`; so `getPoints` and the
pre-order listing of the circles' geometry are unchanged.  Only `xc_` and
`yc_` of the circle `fit` is called on are set, to
`((xmax + xmin)/2 - 0.5)/maxS + 0.5` and `((ymax + ymin)/2 - 0.5)/maxS + 0.5`
over the expanded box, and `(s, maxS)` is what is passed to the app. -/
theorem fit_frame (m : Libm R) (c : Circle R) :
    (c.fit m).circle.circles = c.circles ∧
    (c.fit m).circle.center = c.center ∧ (c.fit m).circle.r = c.r ∧
    (c.fit m).circle.a = c.a ∧ (c.fit m).circle.points = c.points ∧
    (c.fit m).circle.id = c.id ∧ (c.fit m).circle.data.n = c.data.n ∧
    (c.fit m).circle.getPoints = c.getPoints ∧
    (nodes (c.fit m).circle).map (fun n => (n.1.c, n.1.r, n.1.a, n.1.points, n.2))
      = (nodes c).map (fun n => (n.1.c, n.1.r, n.1.a, n.1.points, n.2)) ∧
    (c.fit m).circle.data.xc
      = (((c.fit m).xmax + (c.fit m).xmin) / 2 - 1 / 2) / (c.fit m).maxS + 1 / 2 ∧
    (c.fit m).circle.data.yc
      = (((c.fit m).ymax + (c.fit m).ymin) / 2 - 1 / 2) / (c.fit m).maxS + 1 / 2 := by
  obtain ⟨d, cs⟩ := c
  refine ⟨rfl, rfl, rfl, rfl, rfl, rfl, rfl, ?_, ?_, rfl, rfl⟩
  · simp only [Circle.fit, Circle.getPoints]
    rfl
  · simp only [Circle.fit, nodes, List.map_cons]

/-- C17, amended: for a tree holding exactly one leaf point, `fit()` compares no
pair, so `d` keeps its initial value 2, the test `d > 1E-6` succeeds and the
reported marker spacing is `s = sqrt(2)`; the fallback `s = 1/pointCount` is
not taken. -/
theorem fit_single_point (m : Libm R) (c : Circle R) (h1 : c.getPoints.length = 1) :
    (c.fit m).s = m.sqrt 2 := by
  obtain ⟨st, hst, hs, -⟩ := fit_fields m c
  obtain ⟨p, hp⟩ := List.length_eq_one.mp h1
  have hd : st.d = 2 := by
    rw [hst, fitLoop_d, hp]
    simp [minSqDist, minSqDistFrom]
  rw [hs, hd, if_pos (by norm_num)]

/-- C17, amended, on the placed leaf of `calcPrime(root, 1)`, over the reals. -/
theorem fit_single_point_witness :
    (Circle.mk (R := ℝ)
      ⟨0, 0, 0, (1 / 2, 1 / 2), 1 / 2, 0, 0, [(0, 0)]⟩ []).getPoints.length = 1 ∧
    ((Circle.mk (R := ℝ) ⟨0, 0, 0, (1 / 2, 1 / 2), 1 / 2, 0, 0, [(0, 0)]⟩ []).fit
      ⟨Real.cos, Real.sin, Real.sqrt, Real.pi⟩).s = Real.sqrt 2 :=
  ⟨rfl, fit_single_point ⟨Real.cos, Real.sin, Real.sqrt, Real.pi⟩ _ rfl⟩

/-- C17, counterexample: the tree of `calcPrime(root, 1)`, placed, holds exactly
one leaf point; `fit()` reports `s = sqrt(2)`, which is not
`1/pointCount = 1`. -/
theorem fit_single_point_counterexample :
    ∃ c0 lastId1 c1,
      calcPrime (Circle.new (Defaults.sample ℝ) 0) 1 0 = .ok (c0, lastId1) ∧
      c0.place ⟨Real.cos, Real.sin, Real.sqrt, Real.pi⟩ 0 = .ok c1 ∧
      c1.getPoints.length = 1 ∧
      (c1.fit ⟨Real.cos, Real.sin, Real.sqrt, Real.pi⟩).s = Real.sqrt 2 ∧
      (c1.fit ⟨Real.cos, Real.sin, Real.sqrt, Real.pi⟩).s ≠ 1 / (c1.getPoints.length : ℝ) ∧
      (c1.fit ⟨Real.cos, Real.sin, Real.sqrt, Real.pi⟩).s ≠ 1 := by
  have hplace : (addPoints 1 (Circle.new (Defaults.sample ℝ) 0)).place
      ⟨Real.cos, Real.sin, Real.sqrt, Real.pi⟩ 0
      = .ok (Circle.mk ⟨0, 0, 0, (1 / 2, 1 / 2), 1 / 2, 0, 0, [(0, 0)]⟩ []) := by
    simp [addPoints, Circle.addPoint, Circle.new, Defaults.sample, Circle.place, Circle.a,
      Circle.data, placeSetA]
  have hlen : (Circle.mk (R := ℝ)
      ⟨0, 0, 0, (1 / 2, 1 / 2), 1 / 2, 0, 0, [(0, 0)]⟩ []).getPoints.length = 1 := rfl
  have hs : ((Circle.mk (R := ℝ) ⟨0, 0, 0, (1 / 2, 1 / 2), 1 / 2, 0, 0, [(0, 0)]⟩ []).fit
      ⟨Real.cos, Real.sin, Real.sqrt, Real.pi⟩).s = Real.sqrt 2 := by
    obtain ⟨st, hst, hs, -⟩ := fit_fields ⟨Real.cos, Real.sin, Real.sqrt, Real.pi⟩
      (Circle.mk (R := ℝ) ⟨0, 0, 0, (1 / 2, 1 / 2), 1 / 2, 0, 0, [(0, 0)]⟩ [])
    have hd : st.d = 2 := by
      rw [hst, fitLoop_d]
      simp [Circle.getPoints, Circle.getPointsList, minSqDist, minSqDistFrom]
    rw [hs, hd, if_pos (by norm_num)]
  have hne : Real.sqrt 2 ≠ 1 := by
    intro h
    have h2 : Real.sqrt 2 * Real.sqrt 2 = 2 := Real.mul_self_sqrt (by norm_num)
    rw [h] at h2
    norm_num at h2
  refine ⟨_, _, _, rfl, hplace, hlen, hs, ?_, ?_⟩
  · rw [hs, hlen]
    simp
  · rw [hs]
    exact hne

end MoreFitTheorems
/-! ## Theorems: the layout of 4 = 2 x 2 -/

section TwoTwoTheorems

/-- The layout of [2, 2] in exact arithmetic, that is over the reals with the
real `cos`, `sin`, `sqrt` and `pi`, and with root angle offset 0: the build
returns, `place()` returns with one iteration of the root solver allowed (and
with any larger allowance returns the same tree), the root radius stays 0.5,
and the four leaf points are (1,1), (1,0), (0,0), (0,1) in traversal order:
pairwise distinct, each at squared distance 1/2 from the root centre (0.5, 0.5),
each the previous one turned by a quarter turn around the centre, and the least
pairwise distance is 1. -/
theorem place_two_two_exact :
    ∃ c lastId1 c1,
      calcFactors (Defaults.sample ℝ) [2, 2] (Circle.new (Defaults.sample ℝ) 0) 0
        = .ok (c, lastId1) ∧
      c.a = 0 ∧
      c.place ⟨Real.cos, Real.sin, Real.sqrt, Real.pi⟩ 1 = .ok c1 ∧
      (∀ fuel, c.place ⟨Real.cos, Real.sin, Real.sqrt, Real.pi⟩ (fuel + 1) = .ok c1) ∧
      c1.r = 1 / 2 ∧ c1.center = (1 / 2, 1 / 2) ∧
      c1.getPoints = [(1, 1), (1, 0), (0, 0), (0, 1)] ∧
      c1.getPoints.Nodup ∧
      (∀ p ∈ c1.getPoints, sqDist p c1.center = 1 / 2) ∧
      (∀ (i : Nat) (p q : Point ℝ), c1.getPoints[i]? = some p →
        c1.getPoints[(i + 1) % 4]? = some q →
        (q.1 - 1 / 2, q.2 - 1 / 2) = (p.2 - 1 / 2, -(p.1 - 1 / 2))) ∧
      c1.closestPointDistance ⟨Real.cos, Real.sin, Real.sqrt, Real.pi⟩ = 1 ∧
      specDmin ⟨Real.cos, Real.sin, Real.sqrt, Real.pi⟩ c1.getPoints = some 1 := by
  have hbuild := calcFactors_eq_built (Defaults.sample ℝ) [2, 2] (by decide) (by decide)
    (Circle.new (Defaults.sample ℝ) 0) 0
  have hpts : (Circle.mk (R := ℝ)
        { n := 0, id := 0, a := 0, c := (1 / 2, 1 / 2), r := 1 / 2, xc := 0, yc := 0, points := [] }
        [Circle.mk { n := 0, id := 0, a := Real.pi / 2, c := (1, 1 / 2), r := 1 / 2, xc := 0,
                     yc := 0, points := [(0, 1), (0, -1)] } [],
         Circle.mk { n := 1, id := 2, a := Real.pi + Real.pi / 2, c := (0, 1 / 2), r := 1 / 2,
                     xc := 0, yc := 0, points := [(0, -1), (0, 1)] } []]).getPoints
      = [(1, 1), (1, 0), (0, 0), (0, 1)] := by
    simp only [Circle.getPoints, Circle.getPointsList, List.map, List.nil_append,
      List.append_nil, List.cons_append, Circle.getPointOf]
    norm_num
  refine ⟨_, _, _, hbuild, rfl, place_two_two 0, place_two_two, rfl, rfl, hpts, ?_, ?_, ?_,
    ?_, ?_⟩
  · rw [hpts]
    simp only [List.nodup_cons, List.mem_cons, List.mem_singleton, Prod.mk.injEq,
      List.not_mem_nil, List.nodup_nil]
    norm_num
  · rw [hpts]
    intro p hp
    simp only [List.mem_cons, List.mem_singleton, List.not_mem_nil, or_false] at hp
    rcases hp with rfl | rfl | rfl | rfl <;> simp only [sqDist, Circle.center, Circle.data] <;>
      norm_num
  · rw [hpts]
    intro i p q hp hq
    have hi : i < 4 := by
      have := (List.getElem?_eq_some_iff.mp hp).1
      simpa using this
    interval_cases i <;> simp at hp hq <;> subst hp <;> subst hq <;> norm_num
  · rw [Circle.closestPointDistance, hpts]
    simp only [minSqDist, minSqDistFrom, List.foldl, sqDist]
    norm_num
  · rw [hpts]
    simp only [specDmin, specPairDistances, List.map, List.nil_append, List.cons_append,
      List.append_nil, List.foldl]
    norm_num

/-- A square root within a relative error of `2^-52` of the real one maps a
number within `5e-16` of 1 to a number within `1e-15` of 1. -/
theorem rounded_sqrt_near_one (m : Libm ℝ)
    (hsqrt : ∀ x : ℝ, 0 ≤ x → |m.sqrt x - Real.sqrt x| ≤ Real.sqrt x / 2 ^ 52) (x : ℝ)
    (hx : |x - 1| ≤ 1 / (2 * 10 ^ 15)) : |m.sqrt x - 1| ≤ 1 / 10 ^ 15 := by
  obtain ⟨hx1, hx2⟩ := abs_le.mp hx
  have hx0 : 0 ≤ x := by norm_num at hx1; linarith
  have hlo : 1 - 1 / (2 * 10 ^ 15) ≤ Real.sqrt x := by
    rw [Real.le_sqrt' (by norm_num)]
    norm_num at hx1 ⊢
    linarith
  have hhi : Real.sqrt x ≤ 1 + 1 / (2 * 10 ^ 15) := by
    rw [Real.sqrt_le_iff]
    refine ⟨by norm_num, ?_⟩
    norm_num at hx2 ⊢
    linarith
  obtain ⟨h1, h2⟩ := abs_le.mp (hsqrt x hx0)
  have hq : Real.sqrt x / 2 ^ 52 ≤ 3 / 10 ^ 16 := by
    rw [div_le_iff₀ (by norm_num)]
    norm_num at hhi ⊢
    linarith
  rw [abs_le]
  norm_num at hlo hhi hq h1 h2 ⊢
  constructor <;> linarith

theorem solver_test_near_one (m : Libm ℝ)
    (hsqrt : ∀ x : ℝ, 0 ≤ x → |m.sqrt x - Real.sqrt x| ≤ Real.sqrt x / 2 ^ 52) (S x y z : ℝ)
    (hS : 2 ≤ S) (hx : |x - 1| ≤ 1 / (2 * 10 ^ 15)) (hy : |y - 1| ≤ 1 / (2 * 10 ^ 15))
    (hz : |z - 1| ≤ 1 / (2 * 10 ^ 15)) :
    |m.sqrt x / 2 - (S ⊓ m.sqrt y ⊓ m.sqrt z) / 2| < 1 / 1000 := by
  obtain ⟨a1, a2⟩ := abs_le.mp (rounded_sqrt_near_one m hsqrt x hx)
  obtain ⟨b1, b2⟩ := abs_le.mp (rounded_sqrt_near_one m hsqrt y hy)
  obtain ⟨c1, c2⟩ := abs_le.mp (rounded_sqrt_near_one m hsqrt z hz)
  have hmin1 : S ⊓ m.sqrt y ⊓ m.sqrt z ≤ m.sqrt z := min_le_right _ _
  have hmin2 : 1 - 1 / 10 ^ 15 ≤ S ⊓ m.sqrt y ⊓ m.sqrt z := by
    refine le_min (le_min ?_ ?_) ?_
    · norm_num; linarith
    · linarith
    · linarith
  generalize S ⊓ m.sqrt y ⊓ m.sqrt z = w at hmin1 hmin2
  rw [abs_lt]
  norm_num at a1 a2 c2 hmin2 ⊢
  constructor <;> linarith

/-- The run of `place()` on the tree built for the factors [2, 2], with root
angle offset 0, with the binary64 results of the C library: the solver leaves
its loop in the first iteration, at radius 0.5. -/
theorem place_two_two_rounded (m : Libm ℝ) (hm : CLibraryValues m) (fuel : Nat) :
    (built (Defaults.sample ℝ) [2, 2] (Circle.new (Defaults.sample ℝ) 0) 0).place m (fuel + 1)
    = .ok (Circle.mk
        { n := 0, id := 0, a := 0, c := (1 / 2, 1 / 2), r := 1 / 2, xc := 0, yc := 0, points := [] }
        [Circle.mk { n := 0, id := 0, a := 884279719003555 / 2 ^ 49, c := (1, 1 / 2), r := 1 / 2,
                     xc := 0, yc := 0,
                     points := [(4967757600021511 / 2 ^ 106, 1),
                                (-(3725818200016133 / 2 ^ 104), -1)] } [],
         Circle.mk { n := 1, id := 2, a := 3 * 884279719003555 / 2 ^ 49,
                     c := (0, 1 / 2 + 1 / 2 * (4967757600021511 / 2 ^ 105)), r := 1 / 2,
                     xc := 0, yc := 0,
                     points := [(-(3725818200016133 / 2 ^ 104), -1),
                                (6209697000026889 / 2 ^ 104, 1)] } []]) := by
  obtain ⟨hpi, hc0, hs0, hc1, hs1, hc2, hs2, hc3, hs3, hc5, hs5, hsqrt⟩ := hm
  rw [hpi] at hc1 hs1 hc2 hs2 hc3 hs3 hc5 hs5
  norm_num at hc1 hs1 hc2 hs2 hc3 hs3 hc5 hs5
  simp only [built, Circle.new, Defaults.sample, List.range, List.range.loop, List.map,
    List.nil_append, Int.toNat, List.prod_cons, List.prod_nil, List.replicate,
    Circle.place, Circle.a, Circle.data, placeSetA, placeChildren, List.length, Circle.size,
    Circle.circles, Circle.points, placePoints, hpi]
  norm_num [hc0, hs0, hc1, hs1, hc2, hs2, hc3, hs3, hc5, hs5]
  simp only [minChildDistance, List.foldl, Circle.closestPointDistance, Circle.getPoints,
    Circle.getPointsList, List.map, List.nil_append, Circle.getPointOf, minSqDist, minSqDistFrom,
    sqDist]
  norm_num
  simp only [solve, moveChildren, Circle.move, Circle.moveBy, Circle.moveByList, Circle.x,
    Circle.y, Circle.data, Circle.closestCircleCircleDistance, Circle.getCirclePoints,
    Circle.getCirclePointsList, List.map, List.nil_append, List.append_nil, List.cons_append,
    Circle.getPointOf,
    minSqDistCC, minSqDistCCFrom, List.foldl, sqDist, hc0, hs0, zero_add, hc2, hs2]
  norm_num
  intro h
  refine absurd ?_ (not_lt.mpr h)
  apply solver_test_near_one m hsqrt
  · norm_num
  · rw [abs_le]; norm_num
  · rw [abs_le]; norm_num
  · rw [abs_le]; norm_num


theorem two_two_rounded_points :
    (Circle.mk (R := ℝ)
        { n := 0, id := 0, a := 0, c := (1 / 2, 1 / 2), r := 1 / 2, xc := 0, yc := 0, points := [] }
        [Circle.mk { n := 0, id := 0, a := 884279719003555 / 2 ^ 49, c := (1, 1 / 2), r := 1 / 2,
                     xc := 0, yc := 0,
                     points := [(4967757600021511 / 2 ^ 106, 1),
                                (-(3725818200016133 / 2 ^ 104), -1)] } [],
         Circle.mk { n := 1, id := 2, a := 3 * 884279719003555 / 2 ^ 49,
                     c := (0, 1 / 2 + 1 / 2 * (4967757600021511 / 2 ^ 105)), r := 1 / 2,
                     xc := 0, yc := 0,
                     points := [(-(3725818200016133 / 2 ^ 104), -1),
                                (6209697000026889 / 2 ^ 104, 1)] } []]).getPoints
      = [(1 + 4967757600021511 / 2 ^ 107, 1), (1 - 3725818200016133 / 2 ^ 105, 0),
         (-(3725818200016133 / 2 ^ 105), 4967757600021511 / 2 ^ 106),
         (6209697000026889 / 2 ^ 105, 1 + 4967757600021511 / 2 ^ 106)] := by
  simp only [Circle.getPoints, Circle.getPointsList, List.map, List.nil_append,
    List.append_nil, List.cons_append, Circle.getPointOf]
  norm_num

/-- C13, amended: for the factor sequence [2, 2] with root angle offset 0 and the
binary64 results of the C library (`cos(M_PI/2)` is 6.1e-17, not 0): the build
returns, `place()` returns with one iteration of the root solver allowed (and
with any larger allowance returns the same tree), the root radius stays 0.5 and
the root centre (0.5, 0.5), and the four leaf points are (1,1), (1,0), (0,0),
(0,1) in traversal order up to `1e-15` in each coordinate: pairwise distinct,
each at squared distance 1/2 from the root centre up to `1e-15`, each the
previous one turned by a quarter turn around the centre up to `1e-15`, and the
least pairwise distance is 1 up to `1e-15`. -/
theorem place_two_two_points (m : Libm ℝ) (hm : CLibraryValues m) :
    ∃ c lastId1 c1,
      calcFactors (Defaults.sample ℝ) [2, 2] (Circle.new (Defaults.sample ℝ) 0) 0
        = .ok (c, lastId1) ∧
      c.a = 0 ∧
      c.place m 1 = .ok c1 ∧
      (∀ fuel, c.place m (fuel + 1) = .ok c1) ∧
      c1.r = 1 / 2 ∧ c1.center = (1 / 2, 1 / 2) ∧
      c1.getPoints.length = 4 ∧
      (∀ (i : Nat) (p q : Point ℝ), c1.getPoints[i]? = some p →
        ([(1, 1), (1, 0), (0, 0), (0, 1)] : List (Point ℝ))[i]? = some q →
        |p.1 - q.1| ≤ 1 / 10 ^ 15 ∧ |p.2 - q.2| ≤ 1 / 10 ^ 15) ∧
      c1.getPoints.Nodup ∧
      (∀ p ∈ c1.getPoints, |sqDist p c1.center - 1 / 2| ≤ 1 / 10 ^ 15) ∧
      (∀ (i : Nat) (p q : Point ℝ), c1.getPoints[i]? = some p →
        c1.getPoints[(i + 1) % 4]? = some q →
        |(q.1 - 1 / 2) - (p.2 - 1 / 2)| ≤ 1 / 10 ^ 15 ∧
        |(q.2 - 1 / 2) - -(p.1 - 1 / 2)| ≤ 1 / 10 ^ 15) ∧
      |c1.closestPointDistance m - 1| ≤ 1 / 10 ^ 15 := by
  have hbuild := calcFactors_eq_built (Defaults.sample ℝ) [2, 2] (by decide) (by decide)
    (Circle.new (Defaults.sample ℝ) 0) 0
  have hpts := two_two_rounded_points
  refine ⟨_, _, _, hbuild, rfl, place_two_two_rounded m hm 0, place_two_two_rounded m hm, rfl, rfl,
    ?_, ?_, ?_, ?_, ?_, ?_⟩
  · rw [hpts]
    rfl
  · rw [hpts]
    intro i p q hp hq
    have hi : i < 4 := by
      have := (List.getElem?_eq_some_iff.mp hp).1
      simpa using this
    interval_cases i <;> simp at hp hq <;> subst hp <;> subst hq <;>
      (constructor <;> (rw [abs_le]; norm_num))
  · rw [hpts]
    simp only [List.nodup_cons, List.mem_cons, List.mem_singleton, Prod.mk.injEq,
      List.not_mem_nil, List.nodup_nil]
    norm_num
  · rw [hpts]
    intro p hp
    simp only [List.mem_cons, List.mem_singleton, List.not_mem_nil, or_false] at hp
    rcases hp with rfl | rfl | rfl | rfl <;> simp only [sqDist, Circle.center, Circle.data] <;>
      (rw [abs_le]; norm_num)
  · rw [hpts]
    intro i p q hp hq
    have hi : i < 4 := by
      have := (List.getElem?_eq_some_iff.mp hp).1
      simpa using this
    interval_cases i <;> simp at hp hq <;> subst hp <;> subst hq <;>
      (constructor <;> (rw [abs_le]; norm_num))
  · rw [Circle.closestPointDistance, hpts]
    apply rounded_sqrt_near_one m hm.2.2.2.2.2.2.2.2.2.2.2
    simp only [minSqDist, minSqDistFrom, List.foldl, sqDist]
    rw [abs_le]
    norm_num


/-- A library with the values of `CLibraryValues`: the real `cos` and `sin`
replaced by the binary64 results at the four angles where they differ, the real
`sqrt`, and the binary64 `M_PI`. -/
theorem cLibraryValues_table :
    CLibraryValues
      (⟨fun x => if x = 884279719003555 / 2 ^ 49 then 4967757600021511 / 2 ^ 106
        else if x = 884279719003555 / 2 ^ 48 then -1
        else if x = 3 * 884279719003555 / 2 ^ 49 then -(3725818200016133 / 2 ^ 104)
        else if x = 5 * 884279719003555 / 2 ^ 49 then 6209697000026889 / 2 ^ 104
        else Real.cos x,
      fun x => if x = 884279719003555 / 2 ^ 49 then 1
        else if x = 884279719003555 / 2 ^ 48 then 4967757600021511 / 2 ^ 105
        else if x = 3 * 884279719003555 / 2 ^ 49 then -1
        else if x = 5 * 884279719003555 / 2 ^ 49 then 1
        else Real.sin x,
      Real.sqrt, 884279719003555 / 2 ^ 48⟩ : Libm ℝ) := by
  refine ⟨rfl, ?_, ?_, ?_, ?_, ?_, ?_, ?_, ?_, ?_, ?_, ?_⟩
  · norm_num
  · norm_num
  · norm_num
  · norm_num
  · norm_num
  · norm_num
  · norm_num
  · norm_num
  · norm_num
  · norm_num
  · intro x _
    simp only [sub_self, abs_zero]
    positivity

/-- C13, amended, at a library that has the binary64 results of the C library. -/
theorem place_two_two_points_witness :
    ∃ m : Libm ℝ, CLibraryValues m ∧
      ∃ c1, (built (Defaults.sample ℝ) [2, 2] (Circle.new (Defaults.sample ℝ) 0) 0).place m 1
          = .ok c1 ∧
        c1.r = 1 / 2 ∧ c1.getPoints.length = 4 ∧
        |c1.closestPointDistance m - 1| ≤ 1 / 10 ^ 15 := by
  obtain ⟨c, l, c1, hb, -, hp, -, hr, -, hlen, -, -, -, -, hd⟩ :=
    place_two_two_points _ cLibraryValues_table
  rw [calcFactors_eq_built (Defaults.sample ℝ) [2, 2] (by decide) (by decide)
    (Circle.new (Defaults.sample ℝ) 0) 0] at hb
  simp only [Except.ok.injEq, Prod.mk.injEq] at hb
  obtain ⟨rfl, -⟩ := hb
  exact ⟨_, cLibraryValues_table, c1, hp, hr, hlen, hd⟩

/-- C13, counterexample: a library with the binary64 results of the C library
exists, and with every such library `place()` on the tree built from [2, 2] with
root angle offset 0 returns and the leaf points are not (1,1), (1,0), (0,0),
(0,1): the second point has an abscissa below 1 (and ordinate 0), and the third
point is not (0,0). -/
theorem place_two_two_counterexample :
    (∃ m : Libm ℝ, CLibraryValues m) ∧
    ∀ m : Libm ℝ, CLibraryValues m →
      ∃ c lastId1 c1,
        calcFactors (Defaults.sample ℝ) [2, 2] (Circle.new (Defaults.sample ℝ) 0) 0
          = .ok (c, lastId1) ∧
        c.a = 0 ∧
        c.place m 1 = .ok c1 ∧
        c1.getPoints ≠ [(1, 1), (1, 0), (0, 0), (0, 1)] ∧
        (∃ p, c1.getPoints[1]? = some p ∧ p.1 < 1 ∧ p.2 = 0) ∧
        (∃ p, c1.getPoints[2]? = some p ∧ p ≠ (0, 0)) := by
  refine ⟨⟨_, cLibraryValues_table⟩, fun m hm => ?_⟩
  refine ⟨_, _, _,
    calcFactors_eq_built (Defaults.sample ℝ) [2, 2] (by decide) (by decide)
      (Circle.new (Defaults.sample ℝ) 0) 0, rfl,
    place_two_two_rounded m hm 0, ?_, ?_, ?_⟩
  · rw [two_two_rounded_points]
    simp only [ne_eq, List.cons.injEq, Prod.mk.injEq]
    norm_num
  · rw [two_two_rounded_points]
    refine ⟨_, rfl, ?_, rfl⟩
    norm_num
  · rw [two_two_rounded_points]
    refine ⟨_, rfl, ?_⟩
    simp only [ne_eq, Prod.mk.injEq]
    norm_num

end TwoTwoTheorems
/-! ## Theorems: children and points exclude each other -/

section ShapeTheorems

variable {R : Type} [LinearOrderedField R]

omit [LinearOrderedField R] in
theorem nodesList_eq_flatMap (l : List (Circle R)) : nodesList l = l.flatMap nodes := by
  induction l with
  | nil => simp [nodesList]
  | cons c l ih => simp [nodesList, ih]

theorem IsTranslate.counts_eq {c c1 : Circle R} (h : IsTranslate c c1) :
    (nodes c1).map (fun n => (n.1.points.length, n.2))
      = (nodes c).map (fun n => (n.1.points.length, n.2)) := by
  obtain ⟨dx, dy, rfl⟩ := h
  rw [nodes_moveBy, List.map_map]
  rfl

theorem nodesList_counts_of_translate (l l1 : List (Circle R)) (hlen : l1.length = l.length)
    (h : ∀ (i : Nat) (c : Circle R), l[i]? = some c →
      ∃ c2, l1[i]? = some c2 ∧ IsTranslate c c2) :
    (nodesList l1).map (fun n => (n.1.points.length, n.2))
      = (nodesList l).map (fun n => (n.1.points.length, n.2)) := by
  induction l generalizing l1 with
  | nil =>
    have : l1 = [] := List.length_eq_zero.mp (by simpa using hlen)
    subst this
    rfl
  | cons c l ih =>
    cases l1 with
    | nil => simp at hlen
    | cons c1 l1 =>
      obtain ⟨c2, hc2, ht⟩ := h 0 c (by simp)
      simp only [List.getElem?_cons_zero, Option.some.injEq] at hc2
      subst hc2
      simp only [nodesList, List.map_append, ht.counts_eq]
      congr 1
      apply ih l1 (by simpa using hlen)
      intro i c3 hc3
      simpa using h (i + 1) c3 (by simpa using hc3)

mutual
theorem placeSetA_counts (m : Libm R) (fuel : Nat) :
    ∀ (c : Circle R) (a : R) (c1 : Circle R), placeSetA m fuel a c = .ok c1 →
      (nodes c1).map (fun n => (n.1.points.length, n.2))
        = (nodes c).map (fun n => (n.1.points.length, n.2))
  | .mk d [], a, c1, h => by
    simp only [placeSetA] at h
    split at h
    · simp only [Except.ok.injEq] at h
      subst h
      simp [nodes, nodesList, placePoints_length]
    · split at h
      · cases h
      · rename_i p ps hps
        simp only [Except.ok.injEq] at h
        subst h
        simp [nodes, nodesList, hps]
  | .mk d (c0 :: cs0), a, c1, h => by
    obtain ⟨cs1, hpc, hs⟩ := placeSetA_internal m fuel a d c0 cs0 c1 h
    obtain ⟨r, hd, hlen, hmoved, -⟩ := solve_spec m _ _ fuel _ cs1 c1 hs
    have hl := (placeChildren_spec m fuel _ _ a _ cs1 hpc).1
    have ih := placeChildren_counts m fuel (c0 :: cs0) _ _ a cs1 hpc
    have hkids := nodesList_counts_of_translate cs1 c1.circles hlen
      (fun i c hc => by
        obtain ⟨c2, hc2, ht, -⟩ := hmoved i c hc
        exact ⟨c2, hc2, ht⟩)
    obtain ⟨d1, cs2⟩ := c1
    simp only [Circle.data, Circle.circles] at hd hlen hkids
    subst hd
    simp only [nodes, List.map_cons, hkids, ih, hlen, hl]
theorem placeChildren_counts (m : Libm R) (fuel : Nat) :
    ∀ (cs : List (Circle R)) (two : Bool) (da a : R) (cs1 : List (Circle R)),
      placeChildren m fuel two da a cs = .ok cs1 →
      (nodesList cs1).map (fun n => (n.1.points.length, n.2))
        = (nodesList cs).map (fun n => (n.1.points.length, n.2))
  | [], two, da, a, cs1, h => by
    simp only [placeChildren, Except.ok.injEq] at h
    subst h
    rfl
  | c :: cs, two, da, a, cs1, h => by
    simp only [placeChildren] at h
    split at h
    · cases h
    · rename_i c1 h0
      split at h
      · cases h
      · rename_i cs2 h1
        simp only [Except.ok.injEq] at h
        subst h
        simp only [nodesList, List.map_append, placeSetA_counts m fuel c _ c1 h0,
          placeChildren_counts m fuel cs two da (a + da) cs2 h1]
end

theorem built_nodes_exclusive (dflt : Defaults R) (f : List Int) (hne : f ≠ [])
    (hpos : ∀ x ∈ f, 2 ≤ x) (root : Circle R) (s : Nat)
    (hc : root.circles = []) (hp : root.points = []) :
    ∀ n ∈ nodes (built dflt f root s),
      (1 ≤ n.1.points.length ∧ n.2 = 0) ∨ (n.1.points.length = 0 ∧ 2 ≤ n.2) := by
  induction f generalizing root s with
  | nil => exact absurd rfl hne
  | cons n1 f1 ih =>
    obtain ⟨d, cs⟩ := root
    simp only [Circle.circles, Circle.points, Circle.data] at hc hp
    subst hc
    have hn1 : 2 ≤ n1 := hpos n1 (List.mem_cons_self _ _)
    cases f1 with
    | nil =>
      intro n hn
      simp only [built, nodes, nodesList, List.mem_singleton] at hn
      subst hn
      left
      simp [hp]
      omega
    | cons n2 f2 =>
      have hpos1 : ∀ x ∈ n2 :: f2, 2 ≤ x := fun x hx => hpos x (List.mem_cons_of_mem _ hx)
      intro n hn
      simp only [built, nodes, List.nil_append, List.mem_cons, nodesList_eq_flatMap,
        List.mem_flatMap, List.mem_map, List.length_map, List.length_range] at hn
      rcases hn with rfl | ⟨child, ⟨i, -, rfl⟩, hmem⟩
      · right
        simp [hp]
        omega
      · exact ih (by simp) hpos1 (Circle.new dflt i) _ rfl rfl n hmem

/-- C16: for every non-empty factor sequence whose elements are all at least 2,
`calcFactors` on a fresh root returns a tree in which every circle either has
points (at least 1) and no child circles, or has no points and at least 2
child circles.  Whenever `place()` returns on that tree, the placed tree and
the tree left by `fit()` have, circle by circle in pre-order, the same number
of points and the same number of children as the built tree, so the same
holds for them. -/
theorem calcFactors_exclusive (dflt : Defaults R) (f : List Int) (root : Circle R)
    (lastId : Nat) (hne : f ≠ []) (hpos : ∀ x ∈ f, 2 ≤ x)
    (hc : root.circles = []) (hp : root.points = []) :
    ∃ c lastId1, calcFactors dflt f root lastId = .ok (c, lastId1) ∧
      (∀ n ∈ nodes c,
        (1 ≤ n.1.points.length ∧ n.2 = 0) ∨ (n.1.points.length = 0 ∧ 2 ≤ n.2)) ∧
      ∀ (m : Libm R) (fuel : Nat) (c1 : Circle R), c.place m fuel = .ok c1 →
        (nodes c1).map (fun n => (n.1.points.length, n.2))
          = (nodes c).map (fun n => (n.1.points.length, n.2)) ∧
        (nodes (c1.fit m).circle).map (fun n => (n.1.points.length, n.2))
          = (nodes c).map (fun n => (n.1.points.length, n.2)) ∧
        (∀ n ∈ nodes c1,
          (1 ≤ n.1.points.length ∧ n.2 = 0) ∨ (n.1.points.length = 0 ∧ 2 ≤ n.2)) ∧
        (∀ n ∈ nodes (c1.fit m).circle,
          (1 ≤ n.1.points.length ∧ n.2 = 0) ∨ (n.1.points.length = 0 ∧ 2 ≤ n.2)) := by
  have hpos1 : ∀ x ∈ f, 1 ≤ x := fun x hx => le_trans (by norm_num) (hpos x hx)
  have hinv := built_nodes_exclusive dflt f hne hpos root lastId hc hp
  refine ⟨_, _, calcFactors_eq_built dflt f hne hpos1 root lastId, hinv, ?_⟩
  intro m fuel c1 hplace
  have h1 := placeSetA_counts m fuel _ _ c1 hplace
  have h2 : (nodes (c1.fit m).circle).map (fun n => (n.1.points.length, n.2))
      = (nodes c1).map (fun n => (n.1.points.length, n.2)) := by
    obtain ⟨d1, cs1⟩ := c1
    simp only [Circle.fit, nodes, List.map_cons]
  have transfer : ∀ (t : Circle R),
      (nodes t).map (fun n => (n.1.points.length, n.2))
        = (nodes (built dflt f root lastId)).map (fun n => (n.1.points.length, n.2)) →
      ∀ n ∈ nodes t,
        (1 ≤ n.1.points.length ∧ n.2 = 0) ∨ (n.1.points.length = 0 ∧ 2 ≤ n.2) := by
    intro t ht n hn
    have hmem : (n.1.points.length, n.2)
        ∈ (nodes t).map (fun n => (n.1.points.length, n.2)) := List.mem_map_of_mem _ hn
    rw [ht] at hmem
    obtain ⟨n0, hn0, he⟩ := List.mem_map.mp hmem
    have h0 := hinv n0 hn0
    simp only [Prod.mk.injEq] at he
    rw [← he.1, ← he.2]
    exact h0
  exact ⟨h1, h2.trans h1, transfer c1 h1, transfer _ (h2.trans h1)⟩

/-- C16 at the factor sequence [2, 2, 3], over the rationals. -/
theorem calcFactors_exclusive_witness :
    ∃ c lastId1, calcFactors (Defaults.sample ℚ) [2, 2, 3]
        (Circle.new (Defaults.sample ℚ) 0) 0 = .ok (c, lastId1) ∧
      (∀ n ∈ nodes c,
        (1 ≤ n.1.points.length ∧ n.2 = 0) ∨ (n.1.points.length = 0 ∧ 2 ≤ n.2)) ∧
      ∀ (m : Libm ℚ) (fuel : Nat) (c1 : Circle ℚ), c.place m fuel = .ok c1 →
        (nodes c1).map (fun n => (n.1.points.length, n.2))
          = (nodes c).map (fun n => (n.1.points.length, n.2)) ∧
        (nodes (c1.fit m).circle).map (fun n => (n.1.points.length, n.2))
          = (nodes c).map (fun n => (n.1.points.length, n.2)) ∧
        (∀ n ∈ nodes c1,
          (1 ≤ n.1.points.length ∧ n.2 = 0) ∨ (n.1.points.length = 0 ∧ 2 ≤ n.2)) ∧
        (∀ n ∈ nodes (c1.fit m).circle,
          (1 ≤ n.1.points.length ∧ n.2 = 0) ∨ (n.1.points.length = 0 ∧ 2 ≤ n.2)) :=
  calcFactors_exclusive (Defaults.sample ℚ) [2, 2, 3] (Circle.new (Defaults.sample ℚ) 0) 0
    (by decide) (by decide) rfl rfl

end ShapeTheorems
/-! ## Theorems: the distance between circles -/

section CircleCircleTheorems

variable {R : Type} [LinearOrderedField R]

omit [LinearOrderedField R] in
theorem pair_sublist_cons_iff {α : Type} (p q x : α) (xs : List α) :
    List.Sublist [p, q] (x :: xs) ↔ List.Sublist [p, q] xs ∨ (p = x ∧ q ∈ xs) := by
  rw [List.sublist_cons_iff]
  constructor
  · rintro (h | ⟨r, hr, hsub⟩)
    · exact Or.inl h
    · simp only [List.cons.injEq] at hr
      obtain ⟨rfl, rfl⟩ := hr
      exact Or.inr ⟨rfl, List.singleton_sublist.mp hsub⟩
  · rintro (h | ⟨rfl, hq⟩)
    · exact Or.inl h
    · exact Or.inr ⟨[q], rfl, List.singleton_sublist.mpr hq⟩

theorem minSqDistCCFrom_le (p : List Nat × Point R) (d : R) (ps : List (List Nat × Point R)) :
    minSqDistCCFrom p d ps ≤ d := by
  induction ps generalizing d with
  | nil => simp [minSqDistCCFrom]
  | cons q ps ih =>
    simp only [minSqDistCCFrom, List.foldl_cons] at ih ⊢
    refine le_trans (ih _) ?_
    split
    · exact le_refl _
    · split
      · exact le_of_lt ‹_›
      · exact le_refl _

theorem minSqDistCC_le (d : R) (ps : List (List Nat × Point R)) : minSqDistCC d ps ≤ d := by
  induction ps generalizing d with
  | nil => simp [minSqDistCC]
  | cons p ps ih =>
    simp only [minSqDistCC]
    exact le_trans (ih _) (minSqDistCCFrom_le p d ps)

theorem minSqDistCCFrom_le_mem (p : List Nat × Point R) (d : R)
    (ps : List (List Nat × Point R)) :
    ∀ q ∈ ps, p.1 ≠ q.1 → minSqDistCCFrom p d ps ≤ sqDist p.2 q.2 := by
  induction ps generalizing d with
  | nil => simp
  | cons q0 ps ih =>
    intro q hq hne
    rcases List.mem_cons.mp hq with rfl | hmem
    · have h := minSqDistCCFrom_le p
        (if p.1 = q.1 then d else if sqDist p.2 q.2 < d then sqDist p.2 q.2 else d) ps
      simp only [minSqDistCCFrom, List.foldl_cons] at h ⊢
      refine le_trans h ?_
      rw [if_neg hne]
      split
      · exact le_refl _
      · exact not_lt.mp ‹_›
    · have h := ih
        (if p.1 = q0.1 then d else if sqDist p.2 q0.2 < d then sqDist p.2 q0.2 else d) q hmem hne
      simpa only [minSqDistCCFrom, List.foldl_cons] using h

theorem minSqDistCCFrom_attained (p : List Nat × Point R) (d : R)
    (ps : List (List Nat × Point R)) :
    minSqDistCCFrom p d ps = d ∨
    ∃ q ∈ ps, p.1 ≠ q.1 ∧ minSqDistCCFrom p d ps = sqDist p.2 q.2 := by
  induction ps generalizing d with
  | nil => simp [minSqDistCCFrom]
  | cons q0 ps ih =>
    have h := ih
      (if p.1 = q0.1 then d else if sqDist p.2 q0.2 < d then sqDist p.2 q0.2 else d)
    simp only [minSqDistCCFrom, List.foldl_cons] at h ⊢
    rcases h with h | ⟨q, hq, hne, h⟩
    · by_cases heq : p.1 = q0.1
      · left
        rw [h, if_pos heq]
      · by_cases hlt : sqDist p.2 q0.2 < d
        · right
          exact ⟨q0, List.mem_cons_self _ _, heq, by rw [h, if_neg heq, if_pos hlt]⟩
        · left
          rw [h, if_neg heq, if_neg hlt]
    · right
      exact ⟨q, List.mem_cons_of_mem _ hq, hne, h⟩

theorem minSqDistCC_le_pair (d : R) (ps : List (List Nat × Point R)) :
    ∀ x y, List.Sublist [x, y] ps → x.1 ≠ y.1 → minSqDistCC d ps ≤ sqDist x.2 y.2 := by
  induction ps generalizing d with
  | nil =>
    intro x y h
    simp at h
  | cons p ps ih =>
    intro x y h hne
    simp only [minSqDistCC]
    rcases (pair_sublist_cons_iff x y p ps).mp h with h | ⟨rfl, hq⟩
    · exact ih _ x y h hne
    · exact le_trans (minSqDistCC_le _ ps) (minSqDistCCFrom_le_mem x d ps y hq hne)

theorem minSqDistCC_attained (d : R) (ps : List (List Nat × Point R)) :
    minSqDistCC d ps = d ∨
    ∃ x y, List.Sublist [x, y] ps ∧ x.1 ≠ y.1 ∧ minSqDistCC d ps = sqDist x.2 y.2 := by
  induction ps generalizing d with
  | nil => simp [minSqDistCC]
  | cons p ps ih =>
    simp only [minSqDistCC]
    rcases ih (minSqDistCCFrom p d ps) with h | ⟨x, y, hsub, hne, h⟩
    · rcases minSqDistCCFrom_attained p d ps with h1 | ⟨q, hq, hne, h1⟩
      · left
        rw [h, h1]
      · right
        exact ⟨p, q, (pair_sublist_cons_iff p q p ps).mpr (Or.inr ⟨rfl, hq⟩), hne, by rw [h, h1]⟩
    · right
      exact ⟨x, y, (pair_sublist_cons_iff x y p ps).mpr (Or.inl hsub), hne, h⟩

mutual
theorem getCirclePoints_snd :
    ∀ (c : Circle R) (path : List Nat), (c.getCirclePoints path).map Prod.snd = c.getPoints
  | .mk d cs, path => by
    simp only [Circle.getCirclePoints, Circle.getPoints, List.map_append,
      getCirclePointsList_snd cs path 0, List.map_map]
    rfl
theorem getCirclePointsList_snd :
    ∀ (cs : List (Circle R)) (path : List Nat) (i : Nat),
      (Circle.getCirclePointsList path i cs).map Prod.snd = Circle.getPointsList cs
  | [], _, _ => by simp [Circle.getCirclePointsList, Circle.getPointsList]
  | c :: cs, path, i => by
    simp only [Circle.getCirclePointsList, Circle.getPointsList, List.map_append,
      getCirclePoints_snd c (path ++ [i]), getCirclePointsList_snd cs path (i + 1)]
end

mutual
theorem getCirclePoints_owner :
    ∀ (c : Circle R) (path : List Nat) (tp : List Nat × Point R),
      tp ∈ c.getCirclePoints path →
      ∃ t node, tp.1 = path ++ t ∧ nodeAt t c = some node ∧
        tp.2 ∈ node.points.map (Circle.getPointOf node.data)
  | .mk d cs, path, tp, h => by
    simp only [Circle.getCirclePoints, List.mem_append, List.mem_map] at h
    rcases h with h | ⟨p, hp, rfl⟩
    · obtain ⟨j, child, t, node, hj, htag, hnode, hmem⟩ :=
        getCirclePointsList_owner cs path 0 tp h
      refine ⟨j :: t, node, ?_, ?_, hmem⟩
      · rw [htag]
        simp
      · simp only [nodeAt, Circle.circles, hj]
        exact hnode
    · exact ⟨[], .mk d cs, by simp, rfl, List.mem_map_of_mem _ hp⟩
theorem getCirclePointsList_owner :
    ∀ (cs : List (Circle R)) (path : List Nat) (i : Nat) (tp : List Nat × Point R),
      tp ∈ Circle.getCirclePointsList path i cs →
      ∃ j child t node, cs[j]? = some child ∧ tp.1 = path ++ [i + j] ++ t ∧
        nodeAt t child = some node ∧ tp.2 ∈ node.points.map (Circle.getPointOf node.data)
  | [], _, _, tp, h => by simp [Circle.getCirclePointsList] at h
  | c :: cs, path, i, tp, h => by
    simp only [Circle.getCirclePointsList, List.mem_append] at h
    rcases h with h | h
    · obtain ⟨t, node, htag, hnode, hmem⟩ := getCirclePoints_owner c (path ++ [i]) tp h
      exact ⟨0, c, t, node, by simp, by simpa using htag, hnode, hmem⟩
    · obtain ⟨j, child, t, node, hj, htag, hnode, hmem⟩ :=
        getCirclePointsList_owner cs path (i + 1) tp h
      refine ⟨j + 1, child, t, node, by simpa using hj, ?_, hnode, hmem⟩
      rw [htag]
      have e : i + 1 + j = i + (j + 1) := by omega
      rw [e]
end

/-- C11, amended: for every circle, `closestCircleCircleDistance()` is `sqrt(d)`,
where `d` is the smaller of `1E50` and the least value of `dx*dx + dy*dy` over
the pairs of collected leaf points whose owning circles differ.  Every
collected point carries the path of the circle that owns it (the circle whose
`points_` holds it, a leaf of the subtree), and only pairs with equal owners
are skipped: points in two different leaves under the same direct child are
compared. -/
theorem closestCircleCircleDistance_owner_pairs (m : Libm R) (c : Circle R) :
    ∃ d, c.closestCircleCircleDistance m = m.sqrt d ∧ d ≤ (10 : R) ^ 50 ∧
      (∀ x y, List.Sublist [x, y] (c.getCirclePoints []) → x.1 ≠ y.1 → d ≤ sqDist x.2 y.2) ∧
      (d = (10 : R) ^ 50 ∨
        ∃ x y, List.Sublist [x, y] (c.getCirclePoints []) ∧ x.1 ≠ y.1 ∧ d = sqDist x.2 y.2) ∧
      (c.getCirclePoints []).map Prod.snd = c.getPoints ∧
      (∀ tp ∈ c.getCirclePoints [], ∃ node, nodeAt tp.1 c = some node ∧
        tp.2 ∈ node.points.map (Circle.getPointOf node.data)) := by
  refine ⟨_, rfl, minSqDistCC_le _ _, minSqDistCC_le_pair _ _, minSqDistCC_attained _ _,
    getCirclePoints_snd c [], ?_⟩
  intro tp htp
  obtain ⟨t, node, htag, hnode, hmem⟩ := getCirclePoints_owner c [] tp htp
  refine ⟨node, ?_, hmem⟩
  rw [htag]
  simpa using hnode

/-- C11, counterexample: a root with two children, each with two one-point
leaves, the leaves centred at (0,0), (1,0) under the first child and at (10,0),
(11,0) under the second.  The least distance between points of different
direct children is 9, but `closestCircleCircleDistance()` is 1, the distance
of the two leaves of the first child. -/
theorem closestCircleCircleDistance_counterexample :
    (Circle.mk (R := ℝ) ⟨0, 0, 0, (1 / 2, 1 / 2), 1 / 2, 0, 0, []⟩
      [Circle.mk ⟨0, 0, 0, (1 / 2, 0), 1 / 2, 0, 0, []⟩
         [Circle.mk ⟨0, 0, 0, (0, 0), 1 / 2, 0, 0, [(0, 0)]⟩ [],
          Circle.mk ⟨1, 1, 0, (1, 0), 1 / 2, 0, 0, [(0, 0)]⟩ []],
       Circle.mk ⟨1, 0, 0, (21 / 2, 0), 1 / 2, 0, 0, []⟩
         [Circle.mk ⟨0, 2, 0, (10, 0), 1 / 2, 0, 0, [(0, 0)]⟩ [],
          Circle.mk ⟨1, 3, 0, (11, 0), 1 / 2, 0, 0, [(0, 0)]⟩ []]]).closestCircleCircleDistance
        ⟨Real.cos, Real.sin, Real.sqrt, Real.pi⟩ = 1 ∧
    specCircleCircleDistance ⟨Real.cos, Real.sin, Real.sqrt, Real.pi⟩
      (Circle.mk (R := ℝ) ⟨0, 0, 0, (1 / 2, 1 / 2), 1 / 2, 0, 0, []⟩
        [Circle.mk ⟨0, 0, 0, (1 / 2, 0), 1 / 2, 0, 0, []⟩
           [Circle.mk ⟨0, 0, 0, (0, 0), 1 / 2, 0, 0, [(0, 0)]⟩ [],
            Circle.mk ⟨1, 1, 0, (1, 0), 1 / 2, 0, 0, [(0, 0)]⟩ []],
         Circle.mk ⟨1, 0, 0, (21 / 2, 0), 1 / 2, 0, 0, []⟩
           [Circle.mk ⟨0, 2, 0, (10, 0), 1 / 2, 0, 0, [(0, 0)]⟩ [],
            Circle.mk ⟨1, 3, 0, (11, 0), 1 / 2, 0, 0, [(0, 0)]⟩ []]]) = 9 := by
  constructor
  · simp only [Circle.closestCircleCircleDistance, Circle.getCirclePoints,
      Circle.getCirclePointsList, List.map, List.nil_append, List.append_nil, List.cons_append,
      Circle.getPointOf, minSqDistCC, minSqDistCCFrom, List.foldl, sqDist]
    norm_num
  · simp only [specCircleCircleDistance, specChildTaggedPoints, Circle.circles,
      Circle.getPoints, Circle.getPointsList, List.map, List.nil_append, List.append_nil,
      List.cons_append, Circle.getPointOf, minSqDistCC, minSqDistCCFrom, List.foldl, sqDist]
    norm_num
    rw [show (81 : ℝ) = 9 ^ 2 by norm_num, Real.sqrt_sq (by norm_num)]

end CircleCircleTheorems
/-! ## Theorems: the solver on a single child, and the sign of the radius -/

section SingleChildTheorems

variable {R : Type} [LinearOrderedField R]

theorem minSqDistCCFrom_shift (dx dy : R) (p : List Nat × Point R) (d : R)
    (ps : List (List Nat × Point R)) :
    minSqDistCCFrom (p.1, (p.2.1 + dx, p.2.2 + dy)) d
        (ps.map (fun tp => (tp.1, (tp.2.1 + dx, tp.2.2 + dy))))
      = minSqDistCCFrom p d ps := by
  induction ps generalizing d with
  | nil => simp [minSqDistCCFrom]
  | cons q ps ih =>
    simp only [minSqDistCCFrom, List.map_cons, List.foldl_cons, sqDist_shift] at ih ⊢
    exact ih _

theorem minSqDistCC_shift (dx dy : R) (d : R) (ps : List (List Nat × Point R)) :
    minSqDistCC d (ps.map (fun tp => (tp.1, (tp.2.1 + dx, tp.2.2 + dy))))
      = minSqDistCC d ps := by
  induction ps generalizing d with
  | nil => simp [minSqDistCC]
  | cons p ps ih =>
    simp only [List.map_cons, minSqDistCC, minSqDistCCFrom_shift, ih]

/-- On a circle without points of its own and with a single child, the measured
distance does not depend on where the child is. -/
theorem closestCircleCircleDistance_single_move (m : Libm R) (d d1 : CircleData R)
    (hp : d.points = []) (hp1 : d1.points = []) (c0 : Circle R) (x y : R) :
    (Circle.mk d1 [c0.move x y]).closestCircleCircleDistance m
      = (Circle.mk d [c0]).closestCircleCircleDistance m := by
  simp only [Circle.closestCircleCircleDistance, Circle.getCirclePoints,
    Circle.getCirclePointsList, hp, hp1, List.map_nil, List.append_nil, Circle.move,
    getCirclePoints_moveBy, minSqDistCC_shift]

theorem solve_single_child_exit (m : Libm R) (da rr : R) (d : CircleData R) (c0 : Circle R)
    (hp : d.points = [])
    (h : |(Circle.mk d [c0]).closestCircleCircleDistance m / 2 - rr| < 1 / 1000) (fuel : Nat) :
    ∃ c1, solve m da rr (fuel + 1) d [c0] = .ok c1 ∧ c1.r = d.r := by
  have hs : solve m da rr (fuel + 1) d [c0]
      = .ok (Circle.mk d (moveChildren m d.c.1 d.c.2 d.r da d.a [c0])) := by
    simp only [solve, moveChildren]
    rw [closestCircleCircleDistance_single_move m d d hp hp, if_pos h]
  exact ⟨_, hs, rfl⟩

theorem solve_single_child_loop (m : Libm R) (da rr : R) (fuel : Nat) :
    ∀ (d : CircleData R) (c0 : Circle R), d.points = [] →
      ¬ |(Circle.mk d [c0]).closestCircleCircleDistance m / 2 - rr| < 1 / 1000 →
      solve m da rr fuel d [c0] = .error .outOfFuel := by
  induction fuel with
  | zero =>
    intro d c0 _ _
    rfl
  | succ fuel ih =>
    intro d c0 hp h
    simp only [solve, moveChildren]
    rw [closestCircleCircleDistance_single_move m d d hp hp, if_neg h]
    split
    · apply ih
      · exact hp
      · rw [closestCircleCircleDistance_single_move m d { d with r := d.r + 1 / 1000 } hp hp]
        exact h
    · apply ih
      · exact hp
      · rw [closestCircleCircleDistance_single_move m d { d with r := d.r - 1 / 1000 } hp hp]
        exact h

theorem minSqDistCC_same_owner (t : List Nat) (d : R) (ps : List (List Nat × Point R))
    (h : ∀ tp ∈ ps, tp.1 = t) : minSqDistCC d ps = d := by
  rcases minSqDistCC_attained d ps with h0 | ⟨x, y, hsub, hne, -⟩
  · exact h0
  · exfalso
    apply hne
    rw [h x (hsub.subset (by simp)), h y (hsub.subset (by simp))]

theorem closestCircleCircleDistance_single_leaf (m : Libm R) (d : CircleData R)
    (hp : d.points = []) (c0 : Circle R) (hleaf : c0.circles = []) :
    (Circle.mk d [c0]).closestCircleCircleDistance m = m.sqrt ((10 : R) ^ 50) := by
  obtain ⟨d0, cs0⟩ := c0
  simp only [Circle.circles] at hleaf
  subst hleaf
  simp only [Circle.closestCircleCircleDistance]
  rw [minSqDistCC_same_owner [0]]
  intro tp htp
  simp only [Circle.getCirclePoints, Circle.getCirclePointsList, hp, List.map_nil,
    List.append_nil, List.nil_append, List.mem_map] at htp
  obtain ⟨p, -, rfl⟩ := htp
  rfl

theorem real_sqrt_sentinel_eq : Real.sqrt ((10 : ℝ) ^ 50) = (10 : ℝ) ^ 25 := by
  rw [show ((10 : ℝ) ^ 50) = ((10 : ℝ) ^ 25) ^ 2 by norm_num, Real.sqrt_sq (by positivity)]

/-- The run of `place()` on the tree built for the factors [1, 2], with root
angle offset 0, over the reals: the leaf is placed with its two points 1 apart,
so `rr = 1/2`, and the root enters its solver loop at radius 0.5. -/
theorem place_one_two (fuel : Nat) :
    (built (Defaults.sample ℝ) [1, 2] (Circle.new (Defaults.sample ℝ) 0) 0).place
      ⟨Real.cos, Real.sin, Real.sqrt, Real.pi⟩ fuel
    = solve ⟨Real.cos, Real.sin, Real.sqrt, Real.pi⟩ (2 * Real.pi) (1 / 2) fuel
        { n := 0, id := 0, a := 0, c := (1 / 2, 1 / 2), r := 1 / 2, xc := 0, yc := 0, points := [] }
        [Circle.mk { n := 0, id := 0, a := 0, c := (1 / 2, 1 / 2), r := 1 / 2, xc := 0, yc := 0,
                     points := [(1, 0), (-1, 0)] } []] := by
  have e1 : (2 : ℝ) * Real.pi / ((1 : Nat) : ℝ) = 2 * Real.pi := by push_cast; ring
  have e2 : (2 : ℝ) * Real.pi / ((2 : Nat) : ℝ) = Real.pi := by push_cast; ring
  simp only [built, Circle.new, Defaults.sample, List.range, List.range.loop, List.map,
    List.nil_append, Int.toNat, List.prod_cons, List.prod_nil, List.replicate,
    Circle.place, Circle.a, Circle.data, placeSetA, placeChildren, List.length, Circle.size,
    Circle.circles, Circle.points, placePoints]
  norm_num [e1, e2]
  simp only [minChildDistance, List.foldl, Circle.closestPointDistance, Circle.getPoints,
    Circle.getPointsList, List.map, List.nil_append, Circle.getPointOf, minSqDist, minSqDistFrom,
    sqDist]
  norm_num

theorem one_two_not_converged (d : CircleData ℝ) (hp : d.points = []) (c0 : Circle ℝ)
    (hleaf : c0.circles = []) :
    ¬ |(Circle.mk d [c0]).closestCircleCircleDistance ⟨Real.cos, Real.sin, Real.sqrt, Real.pi⟩ / 2
        - 1 / 2| < 1 / 1000 ∧
    ¬ (Circle.mk d [c0]).closestCircleCircleDistance ⟨Real.cos, Real.sin, Real.sqrt, Real.pi⟩ / 2
        < 1 / 2 := by
  rw [closestCircleCircleDistance_single_leaf _ d hp c0 hleaf]
  simp only [real_sqrt_sentinel_eq]
  constructor
  · rw [abs_of_nonneg (by norm_num)]
    norm_num
  · norm_num

/-- C12, amended: on a circle without points of its own and with exactly one
child, the measured half-distance is the same wherever the child is moved, so
the solver loop either leaves in its first iteration with the radius unchanged
(0.5 in `place`), or never leaves.  When the child is a leaf the measured
distance is the sentinel `sqrt(1E50)`.  Whenever `place()` returns on such a
circle, its radius is 0.5. -/
theorem solve_single_child (m : Libm R) (da rr : R) (d : CircleData R) (c0 : Circle R)
    (hp : d.points = []) :
    (|(Circle.mk d [c0]).closestCircleCircleDistance m / 2 - rr| < 1 / 1000 →
      ∀ fuel, ∃ c1, solve m da rr (fuel + 1) d [c0] = .ok c1 ∧ c1.r = d.r) ∧
    (¬ |(Circle.mk d [c0]).closestCircleCircleDistance m / 2 - rr| < 1 / 1000 →
      ∀ fuel, solve m da rr fuel d [c0] = .error .outOfFuel) ∧
    (c0.circles = [] →
      (Circle.mk d [c0]).closestCircleCircleDistance m = m.sqrt ((10 : R) ^ 50)) ∧
    (∀ (fuel : Nat) (a : R) (c1 : Circle R),
      placeSetA m fuel a (.mk d [c0]) = .ok c1 → c1.r = 1 / 2) := by
  refine ⟨fun h fuel => solve_single_child_exit m da rr d c0 hp h fuel,
    fun h fuel => solve_single_child_loop m da rr fuel d c0 hp h,
    fun hleaf => closestCircleCircleDistance_single_leaf m d hp c0 hleaf, ?_⟩
  intro fuel a c1 h
  obtain ⟨cs1, hpc, hs⟩ := placeSetA_internal m fuel a d c0 [] c1 h
  obtain ⟨hlen, -⟩ := placeChildren_spec m fuel _ _ a _ cs1 hpc
  obtain ⟨c0p, rfl⟩ := List.length_eq_one.mp hlen
  by_cases hconv : |(Circle.mk { d with a := a, c := (1 / 2, 1 / 2), r := 1 / 2 }
      [c0p]).closestCircleCircleDistance m / 2 - minChildDistance m [c0p] / 2| < 1 / 1000
  · cases fuel with
    | zero => simp [solve] at hs
    | succ fuel =>
      obtain ⟨c2, hc2, hr⟩ := solve_single_child_exit m _ _ _ c0p (by exact hp) hconv fuel
      rw [hs] at hc2
      cases hc2
      exact hr
  · rw [solve_single_child_loop m _ _ fuel _ c0p (by exact hp) hconv] at hs
    cases hs

/-- C12, amended, on the circle and leaf of the tree for [1, 2], over the reals. -/
theorem solve_single_child_witness :
    (⟨0, 0, 0, (1 / 2, 1 / 2), 1 / 2, 0, 0, []⟩ : CircleData ℝ).points = [] ∧
    ∀ fuel, solve ⟨Real.cos, Real.sin, Real.sqrt, Real.pi⟩ (2 * Real.pi) (1 / 2) fuel
      ⟨0, 0, 0, (1 / 2, 1 / 2), 1 / 2, 0, 0, []⟩
      [Circle.mk ⟨0, 0, 0, (1 / 2, 1 / 2), 1 / 2, 0, 0, [(1, 0), (-1, 0)]⟩ []]
      = .error .outOfFuel :=
  ⟨rfl, (solve_single_child ⟨Real.cos, Real.sin, Real.sqrt, Real.pi⟩ (2 * Real.pi) (1 / 2)
    ⟨0, 0, 0, (1 / 2, 1 / 2), 1 / 2, 0, 0, []⟩
    (Circle.mk ⟨0, 0, 0, (1 / 2, 1 / 2), 1 / 2, 0, 0, [(1, 0), (-1, 0)]⟩ []) rfl).2.1
    (one_two_not_converged ⟨0, 0, 0, (1 / 2, 1 / 2), 1 / 2, 0, 0, []⟩ rfl
      (Circle.mk ⟨0, 0, 0, (1 / 2, 1 / 2), 1 / 2, 0, 0, [(1, 0), (-1, 0)]⟩ []) rfl).1⟩

/-- C12, counterexample: the tree built from [1, 2] is a root with a single child
that is a 2-point leaf; `place()` on it never returns: whatever number of
iterations is allowed, the root solver is still in its loop. -/
theorem place_single_child_counterexample :
    ∃ c lastId1,
      calcFactors (Defaults.sample ℝ) [1, 2] (Circle.new (Defaults.sample ℝ) 0) 0
        = .ok (c, lastId1) ∧
      c.circles.length = 1 ∧
      ∀ fuel, c.place ⟨Real.cos, Real.sin, Real.sqrt, Real.pi⟩ fuel = .error .outOfFuel := by
  refine ⟨_, _, calcFactors_eq_built (Defaults.sample ℝ) [1, 2] (by decide) (by decide)
    (Circle.new (Defaults.sample ℝ) 0) 0, rfl, ?_⟩
  intro fuel
  rw [place_one_two fuel]
  exact solve_single_child_loop _ _ _ fuel _ _ rfl
    (one_two_not_converged ⟨0, 0, 0, (1 / 2, 1 / 2), 1 / 2, 0, 0, []⟩ rfl
      (Circle.mk ⟨0, 0, 0, (1 / 2, 1 / 2), 1 / 2, 0, 0, [(1, 0), (-1, 0)]⟩ []) rfl).1

end SingleChildTheorems
/-! ## Theorems: the measured half-distance as a function of the radius -/

section LipschitzTheorems

theorem unit_abs (u : Point ℝ) (hu : u.1 ^ 2 + u.2 ^ 2 = 1) :
    Complex.abs ⟨u.1, u.2⟩ = 1 := by
  rw [Complex.abs_apply, Complex.normSq_apply]
  simp only
  rw [show u.1 * u.1 + u.2 * u.2 = 1 by nlinarith, Real.sqrt_one]

theorem pair_dist_lipschitz (q q1 u u1 : Point ℝ) (hu : u.1 ^ 2 + u.2 ^ 2 = 1)
    (hu1 : u1.1 ^ 2 + u1.2 ^ 2 = 1) (r s : ℝ) :
    Real.sqrt (sqDist (q.1 + r * u.1, q.2 + r * u.2) (q1.1 + r * u1.1, q1.2 + r * u1.2))
      ≤ Real.sqrt (sqDist (q.1 + s * u.1, q.2 + s * u.2) (q1.1 + s * u1.1, q1.2 + s * u1.2))
        + 2 * |r - s| := by
  have hz : ∀ t : ℝ,
      Real.sqrt (sqDist (q.1 + t * u.1, q.2 + t * u.2) (q1.1 + t * u1.1, q1.2 + t * u1.2))
        = Complex.abs ⟨q.1 + t * u.1 - (q1.1 + t * u1.1), q.2 + t * u.2 - (q1.2 + t * u1.2)⟩ := by
    intro t
    rw [Complex.abs_apply, Complex.normSq_apply]
    rfl
  rw [hz r, hz s]
  have hdiff : (⟨q.1 + r * u.1 - (q1.1 + r * u1.1), q.2 + r * u.2 - (q1.2 + r * u1.2)⟩ : ℂ)
      - ⟨q.1 + s * u.1 - (q1.1 + s * u1.1), q.2 + s * u.2 - (q1.2 + s * u1.2)⟩
      = ((r - s : ℝ) : ℂ) * ((⟨u.1, u.2⟩ : ℂ) - ⟨u1.1, u1.2⟩) := by
    apply Complex.ext <;> simp <;> ring
  have hw : Complex.abs ((⟨u.1, u.2⟩ : ℂ) - ⟨u1.1, u1.2⟩) ≤ 2 := by
    have h := Complex.abs.sub_le (⟨u.1, u.2⟩ : ℂ) 0 ⟨u1.1, u1.2⟩
    simp only [sub_zero, zero_sub, map_neg_eq_map] at h
    rw [unit_abs u hu, unit_abs u1 hu1] at h
    linarith
  have h1 := Complex.abs.le_sub
    (⟨q.1 + r * u.1 - (q1.1 + r * u1.1), q.2 + r * u.2 - (q1.2 + r * u1.2)⟩ : ℂ)
    ⟨q.1 + s * u.1 - (q1.1 + s * u1.1), q.2 + s * u.2 - (q1.2 + s * u1.2)⟩
  rw [hdiff, map_mul, Complex.abs_ofReal] at h1
  have h2 : |r - s| * Complex.abs ((⟨u.1, u.2⟩ : ℂ) - ⟨u1.1, u1.2⟩) ≤ |r - s| * 2 :=
    mul_le_mul_of_nonneg_left hw (abs_nonneg _)
  linarith

theorem minSqDistCC_sqrt_lipschitz (base : List (List Nat × Point ℝ × Point ℝ))
    (hunit : ∀ b ∈ base, b.2.2.1 ^ 2 + b.2.2.2 ^ 2 = 1) (d0 r s : ℝ) :
    Real.sqrt (minSqDistCC d0
        (base.map (fun b => (b.1, (b.2.1.1 + r * b.2.2.1, b.2.1.2 + r * b.2.2.2)))))
      ≤ Real.sqrt (minSqDistCC d0
          (base.map (fun b => (b.1, (b.2.1.1 + s * b.2.2.1, b.2.1.2 + s * b.2.2.2)))))
        + 2 * |r - s| := by
  have hnn : 0 ≤ 2 * |r - s| := by positivity
  rcases minSqDistCC_attained d0
      (base.map (fun b => (b.1, (b.2.1.1 + s * b.2.2.1, b.2.1.2 + s * b.2.2.2))))
    with h | ⟨x, y, hsub, hne, h⟩
  · rw [h]
    exact le_trans (Real.sqrt_le_sqrt (minSqDistCC_le d0 _)) (by linarith)
  · obtain ⟨l, hl, hxy⟩ := List.sublist_map_iff.mp hsub
    cases l with
    | nil => simp at hxy
    | cons b l =>
      cases l with
      | nil => simp at hxy
      | cons b1 l =>
        cases l with
        | cons b2 l => simp at hxy
        | nil =>
          simp only [List.map_cons, List.map_nil, List.cons.injEq, and_true] at hxy
          obtain ⟨rfl, rfl⟩ := hxy
          have hb : b ∈ base := hl.subset (by simp)
          have hb1 : b1 ∈ base := hl.subset (by simp)
          have hsub2 := hl.map
            (fun b => (b.1, (b.2.1.1 + r * b.2.2.1, b.2.1.2 + r * b.2.2.2)))
          have hle := minSqDistCC_le_pair d0 _ _ _ hsub2 hne
          rw [h]
          exact le_trans (Real.sqrt_le_sqrt hle)
            (pair_dist_lipschitz b.2.1 b1.2.1 b.2.2 b1.2.2 (hunit b hb) (hunit b1 hb1) r s)

theorem moved_points_param (x y da : ℝ) (path : List Nat) :
    ∀ (cs : List (Circle ℝ)) (i0 : Nat) (a : ℝ),
      ∃ base : List (List Nat × Point ℝ × Point ℝ),
        (∀ b ∈ base, b.2.2.1 ^ 2 + b.2.2.2 ^ 2 = 1) ∧
        ∀ r : ℝ, Circle.getCirclePointsList path i0
            (moveChildren ⟨Real.cos, Real.sin, Real.sqrt, Real.pi⟩ x y r da a cs)
          = base.map (fun b => (b.1, (b.2.1.1 + r * b.2.2.1, b.2.1.2 + r * b.2.2.2))) := by
  intro cs
  induction cs with
  | nil =>
    intro i0 a
    exact ⟨[], by simp, fun r => by simp [moveChildren, Circle.getCirclePointsList]⟩
  | cons c cs ih =>
    intro i0 a
    obtain ⟨base, hunit, hbase⟩ := ih (i0 + 1) (a + da)
    refine ⟨(c.getCirclePoints (path ++ [i0])).map
        (fun tp => (tp.1, (tp.2.1 + (x - c.x), tp.2.2 + (y - c.y)), (Real.cos a, Real.sin a)))
        ++ base, ?_, ?_⟩
    · intro b hb
      rcases List.mem_append.mp hb with hb | hb
      · obtain ⟨tp, -, rfl⟩ := List.mem_map.mp hb
        simp only
        exact Real.cos_sq_add_sin_sq a
      · exact hunit b hb
    · intro r
      simp only [moveChildren, Circle.getCirclePointsList, hbase r, List.map_append,
        Circle.move, getCirclePoints_moveBy, List.map_map]
      congr 1
      apply List.map_congr_left
      intro tp _
      simp only [Function.comp, Prod.mk.injEq, true_and]
      constructor <;> ring

theorem move_move (c : Circle ℝ) (x0 y0 x y : ℝ) : (c.move x0 y0).move x y = c.move x y := by
  have hc := move_center c x0 y0
  simp only [Circle.center] at hc
  have hx : (c.move x0 y0).x = x0 := by rw [Circle.x, hc]
  have hy : (c.move x0 y0).y = y0 := by rw [Circle.y, hc]
  rw [Circle.move, hx, hy, Circle.move, moveBy_moveBy, Circle.move]
  congr 1 <;> ring

theorem moveChildren_moveChildren (m : Libm ℝ) (x y r0 r da : ℝ) :
    ∀ (cs : List (Circle ℝ)) (a : ℝ),
      moveChildren m x y r da a (moveChildren m x y r0 da a cs) = moveChildren m x y r da a cs := by
  intro cs
  induction cs with
  | nil =>
    intro a
    rfl
  | cons c cs ih =>
    intro a
    simp only [moveChildren, move_move, ih]

theorem solve_absorb (m : Libm ℝ) (da rr r0 : ℝ) (fuel : Nat) (d : CircleData ℝ)
    (cs : List (Circle ℝ)) :
    solve m da rr fuel d (moveChildren m d.c.1 d.c.2 r0 da d.a cs) = solve m da rr fuel d cs := by
  cases fuel with
  | zero => rfl
  | succ fuel => simp only [solve, moveChildren_moveChildren]

theorem measuredHalfDistance_le (d : CircleData ℝ) (cs : List (Circle ℝ)) (da : ℝ)
    (hp : d.points = []) (r s : ℝ) :
    measuredHalfDistance ⟨Real.cos, Real.sin, Real.sqrt, Real.pi⟩ da d cs r
      ≤ measuredHalfDistance ⟨Real.cos, Real.sin, Real.sqrt, Real.pi⟩ da d cs s + |r - s| := by
  obtain ⟨base, hunit, hbase⟩ := moved_points_param d.c.1 d.c.2 da [] cs 0 d.a
  have hval : ∀ t : ℝ,
      measuredHalfDistance ⟨Real.cos, Real.sin, Real.sqrt, Real.pi⟩ da d cs t
        = Real.sqrt (minSqDistCC ((10 : ℝ) ^ 50)
            (base.map (fun b => (b.1, (b.2.1.1 + t * b.2.2.1, b.2.1.2 + t * b.2.2.2))))) / 2 := by
    intro t
    simp only [measuredHalfDistance, Circle.closestCircleCircleDistance, Circle.getCirclePoints,
      hp, List.map_nil, List.append_nil, hbase t]
  rw [hval r, hval s]
  have h := minSqDistCC_sqrt_lipschitz base hunit ((10 : ℝ) ^ 50) r s
  refine le_trans (div_le_div_of_nonneg_right h (by norm_num)) (le_of_eq ?_)
  ring

/-- C18: for a circle with children and no points of its own, over the reals
with the real `cos`, `sin` and `sqrt`, let `h(r)` be the half-distance the
solver measures at radius `r`.  Then `|h(r) - h(s)| <= |r - s|` for all real
`r`, `s`; one solver step of 0.001 changes `h` by at most 0.001; an iteration
with `h <= rr - 0.001` is followed by one with `h < rr + 0.001`, and an
iteration with `h >= rr + 0.001` by one with `h > rr - 0.001`.  Every
iteration of the loop at radius `r` measures `h(r)` of the same children,
because `move` places a child at an absolute position. -/
theorem measuredHalfDistance_lipschitz (d : CircleData ℝ) (cs : List (Circle ℝ)) (da : ℝ)
    (hp : d.points = []) :
    (∀ r s : ℝ,
      |measuredHalfDistance ⟨Real.cos, Real.sin, Real.sqrt, Real.pi⟩ da d cs r
        - measuredHalfDistance ⟨Real.cos, Real.sin, Real.sqrt, Real.pi⟩ da d cs s| ≤ |r - s|) ∧
    (∀ r : ℝ,
      |measuredHalfDistance ⟨Real.cos, Real.sin, Real.sqrt, Real.pi⟩ da d cs (r + 1 / 1000)
        - measuredHalfDistance ⟨Real.cos, Real.sin, Real.sqrt, Real.pi⟩ da d cs r| ≤ 1 / 1000 ∧
      |measuredHalfDistance ⟨Real.cos, Real.sin, Real.sqrt, Real.pi⟩ da d cs (r - 1 / 1000)
        - measuredHalfDistance ⟨Real.cos, Real.sin, Real.sqrt, Real.pi⟩ da d cs r| ≤ 1 / 1000) ∧
    (∀ rr r : ℝ,
      measuredHalfDistance ⟨Real.cos, Real.sin, Real.sqrt, Real.pi⟩ da d cs r ≤ rr - 1 / 1000 →
      measuredHalfDistance ⟨Real.cos, Real.sin, Real.sqrt, Real.pi⟩ da d cs (r + 1 / 1000)
        < rr + 1 / 1000) ∧
    (∀ rr r : ℝ,
      rr + 1 / 1000 ≤ measuredHalfDistance ⟨Real.cos, Real.sin, Real.sqrt, Real.pi⟩ da d cs r →
      rr - 1 / 1000
        < measuredHalfDistance ⟨Real.cos, Real.sin, Real.sqrt, Real.pi⟩ da d cs (r - 1 / 1000)) ∧
    (∀ (rr r : ℝ) (fuel : Nat),
      solve ⟨Real.cos, Real.sin, Real.sqrt, Real.pi⟩ da rr (fuel + 1) { d with r := r } cs
        = if |measuredHalfDistance ⟨Real.cos, Real.sin, Real.sqrt, Real.pi⟩ da d cs r - rr|
              < 1 / 1000 then
            .ok (Circle.mk { d with r := r }
              (moveChildren ⟨Real.cos, Real.sin, Real.sqrt, Real.pi⟩ d.c.1 d.c.2 r da d.a cs))
          else if measuredHalfDistance ⟨Real.cos, Real.sin, Real.sqrt, Real.pi⟩ da d cs r < rr then
            solve ⟨Real.cos, Real.sin, Real.sqrt, Real.pi⟩ da rr fuel
              { d with r := r + 1 / 1000 } cs
          else
            solve ⟨Real.cos, Real.sin, Real.sqrt, Real.pi⟩ da rr fuel
              { d with r := r - 1 / 1000 } cs) := by
  have hlip : ∀ r s : ℝ,
      |measuredHalfDistance ⟨Real.cos, Real.sin, Real.sqrt, Real.pi⟩ da d cs r
        - measuredHalfDistance ⟨Real.cos, Real.sin, Real.sqrt, Real.pi⟩ da d cs s| ≤ |r - s| := by
    intro r s
    have h1 := measuredHalfDistance_le d cs da hp r s
    have h2 := measuredHalfDistance_le d cs da hp s r
    rw [abs_sub_comm s r] at h2
    exact abs_sub_le_iff.mpr ⟨by linarith, by linarith⟩
  have hstep : ∀ r : ℝ,
      |measuredHalfDistance ⟨Real.cos, Real.sin, Real.sqrt, Real.pi⟩ da d cs (r + 1 / 1000)
        - measuredHalfDistance ⟨Real.cos, Real.sin, Real.sqrt, Real.pi⟩ da d cs r| ≤ 1 / 1000 ∧
      |measuredHalfDistance ⟨Real.cos, Real.sin, Real.sqrt, Real.pi⟩ da d cs (r - 1 / 1000)
        - measuredHalfDistance ⟨Real.cos, Real.sin, Real.sqrt, Real.pi⟩ da d cs r| ≤ 1 / 1000 := by
    intro r
    have h1 := hlip (r + 1 / 1000) r
    have h2 := hlip (r - 1 / 1000) r
    rw [show r + 1 / 1000 - r = 1 / 1000 by ring,
      abs_of_pos (show (0 : ℝ) < 1 / 1000 by norm_num)] at h1
    rw [show r - 1 / 1000 - r = -(1 / 1000) by ring, abs_neg,
      abs_of_pos (show (0 : ℝ) < 1 / 1000 by norm_num)] at h2
    exact ⟨h1, h2⟩
  refine ⟨hlip, hstep, ?_, ?_, ?_⟩
  · intro rr r h
    have h1 := (abs_le.mp (hstep r).1).2
    linarith
  · intro rr r h
    have h1 := (abs_le.mp (hstep r).2).1
    linarith
  · intro rr r fuel
    simp only [solve, measuredHalfDistance]
    split
    · rfl
    · split
      · exact solve_absorb _ da rr r fuel { d with r := r + 1 / 1000 } cs
      · exact solve_absorb _ da rr r fuel { d with r := r - 1 / 1000 } cs

/-- C18 on the root and the two placed leaves of the tree for [2, 2]. -/
theorem measuredHalfDistance_lipschitz_witness :
    (⟨0, 0, 0, (1 / 2, 1 / 2), 1 / 2, 0, 0, []⟩ : CircleData ℝ).points = [] ∧
    ∀ r s : ℝ,
      |measuredHalfDistance ⟨Real.cos, Real.sin, Real.sqrt, Real.pi⟩ Real.pi
          ⟨0, 0, 0, (1 / 2, 1 / 2), 1 / 2, 0, 0, []⟩
          [Circle.mk ⟨0, 0, Real.pi / 2, (1 / 2, 1 / 2), 1 / 2, 0, 0, [(0, 1), (0, -1)]⟩ [],
           Circle.mk ⟨1, 2, Real.pi + Real.pi / 2, (1 / 2, 1 / 2), 1 / 2, 0, 0,
             [(0, -1), (0, 1)]⟩ []] r
        - measuredHalfDistance ⟨Real.cos, Real.sin, Real.sqrt, Real.pi⟩ Real.pi
          ⟨0, 0, 0, (1 / 2, 1 / 2), 1 / 2, 0, 0, []⟩
          [Circle.mk ⟨0, 0, Real.pi / 2, (1 / 2, 1 / 2), 1 / 2, 0, 0, [(0, 1), (0, -1)]⟩ [],
           Circle.mk ⟨1, 2, Real.pi + Real.pi / 2, (1 / 2, 1 / 2), 1 / 2, 0, 0,
             [(0, -1), (0, 1)]⟩ []] s| ≤ |r - s| :=
  ⟨rfl, (measuredHalfDistance_lipschitz ⟨0, 0, 0, (1 / 2, 1 / 2), 1 / 2, 0, 0, []⟩
    [Circle.mk ⟨0, 0, Real.pi / 2, (1 / 2, 1 / 2), 1 / 2, 0, 0, [(0, 1), (0, -1)]⟩ [],
     Circle.mk ⟨1, 2, Real.pi + Real.pi / 2, (1 / 2, 1 / 2), 1 / 2, 0, 0,
       [(0, -1), (0, 1)]⟩ []] Real.pi rfl).1⟩

end LipschitzTheorems

/-! ## Theorems: the sign of the radius in the solver loop -/

section RadiusTheorems

variable {R : Type} [LinearOrderedField R]

end RadiusTheorems
end CQFactor
